import Mathlib

/-!
# hiboot: dependency graph resolver and instantiation engine

A shallow embedding of `pkg/factory/depends/deptree.go` (`resolveGraph`), of
`pkg/factory/autoconfigure/configfactory.go` (`InstantiateMethod`, `InstantiateByName`,
`Instantiate`) and of the later `Instantiate` of `pkg/factory/autoconfigure/configurable.go`,
followed by the properties proved about them.

Go maps are embedded as association lists with pairwise distinct keys.  Go leaves the
iteration order of a map unspecified, so every `range` whose order is observable is
routed through an `IterOrder`: an arbitrary function that permutes the list of keys it
is given.  All theorems hold for every `IterOrder`.
-/

namespace Hiboot

/-! ## Go maps with string keys -/

/-- Go `m[k] = v`: overwrite the entry of `k` when present, add it otherwise. -/
def mapSet {β : Type} : List (String × β) → String → β → List (String × β)
  | [], k, v => [(k, v)]
  | (k', v') :: rest, k, v =>
    if k' = k then (k, v) :: rest else (k', v') :: mapSet rest k v

/-- Go `m[k]`, with `none` standing for the zero value of a missing key. -/
def mapGet? {β : Type} : List (String × β) → String → Option β
  | [], _ => none
  | (k', v') :: rest, k => if k' = k then some v' else mapGet? rest k

/-- Go `delete(m, k)`. -/
def mapDelete {β : Type} (m : List (String × β)) (k : String) : List (String × β) :=
  m.filter (fun p => decide (p.1 ≠ k))

/-- The keys of a map, in the embedding's canonical order. -/
def mapKeys {β : Type} (m : List (String × β)) : List String :=
  m.map Prod.fst

/-- One possible behaviour of Go's unspecified iteration order: `order keys` is the
order in which a `range` visits `keys`. -/
structure IterOrder where
  order : List String → List String
  perm : ∀ l, (order l).Perm l

/-- The iteration order that visits keys in the embedding's canonical order. -/
def IterOrder.canonical : IterOrder := ⟨id, fun l => List.Perm.refl l⟩

/-- The iteration order that visits keys in reverse canonical order. -/
def IterOrder.reversed : IterOrder := ⟨List.reverse, fun l => List.reverse_perm l⟩

namespace Depends

/-! ## `mapset.Set` of strings -/

/-- `Set.Add`: a set never holds an element twice. -/
def setAdd (s : List String) (x : String) : List String :=
  if x ∈ s then s else s ++ [x]

/-- `Set.Difference`: the elements of `s` that are not in `other`. -/
def setDifference (s other : List String) : List String :=
  s.filter (fun x => decide (x ∉ other))

/-! ## deptree.go -/

/-- `type Node struct { index int; name string; deps []string }` -/
structure Node where
  index : Int
  name : String
  deps : List String
deriving DecidableEq, Repr

/-- `type Graph []*Node`, for a graph without nil pointers. -/
abbrev Graph := List Node

/-- The only error `resolveGraph` returns. -/
inductive DepError where
  | ErrCircularDependency
deriving DecidableEq, Repr

/-- `NewNode(index, name, deps...)`. -/
def NewNode (index : Int) (name : String) (deps : List String) : Node :=
  { index := index, name := name, deps := deps }

/-- Lines 73-81: one pass of the loop that populates `nodeNames` and
`nodeDependencies`. -/
def populateStep (acc : List (String × Node) × List (String × List String)) (node : Node) :
    List (String × Node) × List (String × List String) :=
  (mapSet acc.1 node.name node, mapSet acc.2 node.name (node.deps.foldl setAdd []))

/-- Lines 67-81: the two maps built from the graph. -/
def populate (graph : Graph) : List (String × Node) × List (String × List String) :=
  graph.foldl populateStep ([], [])

/-- Lines 89-94: the names whose dependency set has cardinality zero. -/
def readySet (nodeDependencies : List (String × List String)) : List String :=
  nodeDependencies.foldl (fun s p => if p.2.length = 0 then setAdd s p.1 else s) []

/-- Lines 107-117: delete the ready names (visited in iteration order) from the map and
subtract the ready set from every remaining dependency set. -/
def removeReady (it : IterOrder) (nodeDependencies : List (String × List String)) :
    List (String × List String) :=
  ((it.order (readySet nodeDependencies)).foldl mapDelete nodeDependencies).map
    (fun p => (p.1, setDifference p.2 (readySet nodeDependencies)))

/-- Lines 87-118: the main loop.  `fuel` bounds the number of iterations; `none` means
the bound was reached before the loop ended.  The second component of a result is the
Go error (`none` for `nil`); a `none` inside the returned slice is a nil pointer. -/
def resolveLoop (it : IterOrder) (nodeNames : List (String × Node)) :
    Nat → List (String × List String) → List (Option Node) →
      Option (List (Option Node) × Option DepError)
  | fuel, nodeDependencies, resolved =>
    if nodeDependencies.length = 0 then some (resolved, none)
    else if (readySet nodeDependencies).length = 0 then
      some ((it.order (mapKeys nodeDependencies)).map (mapGet? nodeNames),
        some DepError.ErrCircularDependency)
    else
      match fuel with
      | 0 => none
      | fuel + 1 =>
        resolveLoop it nodeNames fuel (removeReady it nodeDependencies)
          (resolved ++ (it.order (readySet nodeDependencies)).map (mapGet? nodeNames))

/-- `resolveGraph(graph)`, lines 65-121.  Every iteration that does not return deletes at
least one key, so as many iterations as there are keys always suffice. -/
def resolveGraph (it : IterOrder) (graph : Graph) :
    Option (List (Option Node) × Option DepError) :=
  resolveLoop it (populate graph).1 (populate graph).2.length (populate graph).2 []


/-! ## Vocabulary of the claims about `resolveGraph` -/

/-- The dependency edge of a graph: `a` is the name of a node that lists `b` among its
dependencies. -/
def dependsOn (graph : Graph) (a b : String) : Prop :=
  ∃ n ∈ graph, n.name = a ∧ b ∈ n.deps

/-- A name lies on a dependency cycle: it reaches itself through one or more edges (a
node that depends on itself is the cycle of length one). -/
def onCycle (graph : Graph) (a : String) : Prop :=
  Relation.TransGen (dependsOn graph) a a

/-- The graph has no dependency cycle. -/
def acyclic (graph : Graph) : Prop :=
  ∀ a, ¬ onCycle graph a

/-- Node names are pairwise distinct. -/
def namesDistinct (graph : Graph) : Prop :=
  (graph.map Node.name).Nodup

/-- Every dependency name is the name of a node of the graph. -/
def depsClosed (graph : Graph) : Prop :=
  ∀ n ∈ graph, ∀ d ∈ n.deps, ∃ m ∈ graph, m.name = d

/-- A dependency name that names no node of the graph. -/
def dangling (graph : Graph) (d : String) : Prop :=
  ∀ m ∈ graph, m.name ≠ d

/-- A name can never become ready: through zero or more dependency edges it reaches a
name on a cycle or a node with a dangling dependency. -/
def stuck (graph : Graph) (a : String) : Prop :=
  ∃ b, Relation.ReflTransGen (dependsOn graph) a b ∧
    (onCycle graph b ∨ ∃ d, dependsOn graph b d ∧ dangling graph d)

/-- Every node of the sequence comes after all the nodes it depends on. -/
def depsPrecede (resolved : List Node) : Prop :=
  ∀ pre n post, resolved = pre ++ n :: post → ∀ d ∈ n.deps, ∃ m ∈ pre, m.name = d

/-- The invariant of the main loop, for a graph with distinct names: `rs` are the nodes
resolved so far and `nd` is the `nodeDependencies` map. -/
structure LoopInv (graph : Graph) (nd : List (String × List String)) (rs : List Node) :
    Prop where
  nodupR : (rs.map Node.name).Nodup
  nodupK : (mapKeys nd).Nodup
  disj : ∀ k, k ∈ rs.map Node.name → k ∉ mapKeys nd
  cover : ∀ k, k ∈ graph.map Node.name ↔ k ∈ rs.map Node.name ∨ k ∈ mapKeys nd
  sub : ∀ r ∈ rs, r ∈ graph
  deps : ∀ k ds, (k, ds) ∈ nd → ∃ n ∈ graph, n.name = k ∧
    ∀ d, d ∈ ds ↔ d ∈ n.deps ∧ d ∉ rs.map Node.name
  topo : ∀ pre n post, rs = pre ++ n :: post → ∀ d ∈ n.deps, d ∈ pre.map Node.name

instance decNamesDistinct (graph : Graph) : Decidable (namesDistinct graph) := by
  unfold namesDistinct
  infer_instance

instance decDepsClosed (graph : Graph) : Decidable (depsClosed graph) := by
  unfold depsClosed
  infer_instance

instance decDangling (graph : Graph) (d : String) : Decidable (dangling graph d) := by
  unfold dangling
  infer_instance

/-! ## Sample graphs -/

/-- An acyclic graph: `a` depends on `b` and `c`, `b` on `c`. -/
def chainGraph : Graph :=
  [NewNode 0 "a" ["b", "c"], NewNode 1 "b" ["c"], NewNode 2 "c" []]

/-- A diamond: `top` depends on `left` and `right`, which both depend on `base`. -/
def diamondGraph : Graph :=
  [NewNode 0 "top" ["left", "right"], NewNode 1 "left" ["base"],
    NewNode 2 "right" ["base"], NewNode 3 "base" []]

/-- A two-node cycle `a`, `b` and a node `c` that depends on the cycle without being
on it. -/
def cycleTailGraph : Graph :=
  [NewNode 0 "a" ["b"], NewNode 1 "b" ["a"], NewNode 2 "c" ["a"]]

/-- A node that depends on itself, next to an independent node. -/
def selfLoopGraph : Graph :=
  [NewNode 0 "a" ["a"], NewNode 1 "b" []]

/-- A two-node cycle feeding nothing else. -/
def twoCycleGraph : Graph :=
  [NewNode 0 "x" ["y"], NewNode 1 "y" ["x"], NewNode 2 "z" []]

/-- Two nodes with the same name, the first depending on itself. -/
def dupCycleGraph : Graph :=
  [NewNode 0 "a" ["a"], NewNode 1 "a" []]

/-- One node whose only dependency names no node of the graph. -/
def danglingGraph : Graph :=
  [NewNode 0 "a" ["ext"]]

/-- A node with a dangling dependency next to nodes without one. -/
def danglingMixGraph : Graph :=
  [NewNode 0 "svc" ["db", "ext"], NewNode 1 "db" []]

/-- A rank for the names of `chainGraph` and `diamondGraph` that every dependency edge
decreases. -/
def sampleRank (s : String) : Nat :=
  if s = "a" ∨ s = "top" then 2 else if s = "b" ∨ s = "left" ∨ s = "right" then 1 else 0

end Depends

namespace Autoconfigure

/-! ## configfactory.go: the instantiation engine -/

/-- The string helpers `InstantiateMethod` calls: `str.LowerFirst`, `str.ToLowerCamel`,
`io.DirName` and `strings.Title`.  They are defined in other packages and are parameters
of the embedding. -/
structure Naming where
  LowerFirst : String → String
  ToLowerCamel : String → String
  DirName : String → String
  Title : String → String

/-- What `InstantiateMethod` and `Call` read of a parameter type: `iTyp.Name()`,
`iTyp.PkgPath()`, and which values may be passed for a parameter of the type, the test
`AssignableTo` that `Call` makes on the type of every argument. -/
structure ParamType (V : Type) where
  Name : String
  PkgPath : String
  AssignableFrom : V → Bool

/-- A `reflect.Method` of a configuration: its name, the types of its parameters after
the receiver (`method.Type.In(1)` ...), and the function it runs on actual arguments,
giving the slice of its return values (`[]` for a method without return value). -/
structure Method (V : Type) where
  Name : String
  In : List (ParamType V)
  Func : List V → List (Option V)

/-- A configuration unit, seen through reflection: its method set. -/
structure Configuration (V : Type) where
  methods : List (Method V)

/-- `ErrInvalidMethod`, the error of `InstantiateByName`. -/
inductive FactoryError where
  | ErrInvalidMethod
deriving DecidableEq, Repr

/-- The error of the registry's `Set`. -/
inductive RegistryError where
  | DuplicateName
deriving DecidableEq, Repr

/-- The state the engine works on: the instance registry (a stored `none` is a stored
nil) and the trace of the producer invocations, each with the method name and its
arguments. -/
structure State (V : Type) where
  instances : List (String × Option V)
  calls : List (String × List V)
deriving DecidableEq, Repr

/-- How a Go call ends: it returns a value and an error (`none` for nil), or it panics. -/
inductive Outcome (α V : Type) where
  | returned (val : α) (err : Option FactoryError) (st : State V)
  | panicked (st : State V)
deriving DecidableEq, Repr

/-- Modelled from the spec: `InstantiateFactory.GetInstance` is not in the sources; the
spec gives the registry `Get(name) -> value|absent`.  The result is the stored value, nil
(`none`) when the name is absent. -/
def GetInstance {V : Type} (st : State V) (name : String) : Option V :=
  match mapGet? st.instances name with
  | some (some v) => some v
  | _ => none

/-- Modelled from the spec: `InstantiateFactory.SetInstance` is not in the sources; the
spec gives the registry `Set(name, value) -> error (DuplicateName)`, a store with "set
once" intent: a name that is taken keeps its value and the call reports the error. -/
def SetInstance {V : Type} (st : State V) (name : String) (inst : Option V) :
    State V × Option RegistryError :=
  match mapGet? st.instances name with
  | some _ => (st, some RegistryError.DuplicateName)
  | none => ({ st with instances := mapSet st.instances name inst }, none)

/-- `objVal.Type().MethodByName(name)`. -/
def MethodByName {V : Type} (cfg : Configuration V) (name : String) : Option (Method V) :=
  cfg.methods.find? (fun m => decide (m.Name = name))

/-- The arguments `method.Func.Call(argv)` hands to the method, `argv[0]` apart, or
`none` when `Call` panics instead of running the method.  An unresolved `depInst` is nil,
`reflect.ValueOf(nil)` is the zero Value, and `Call` panics on a zero Value argument
("reflect: Call using zero Value argument"); it panics too on an argument whose type is
not assignable to the type of the parameter, and when the number of arguments is not the
number of parameters. -/
def unwrapArgs {V : Type} : List (ParamType V) → List (Option V) → Option (List V)
  | [], [] => some []
  | [], _ :: _ => none
  | _ :: _, [] => none
  | _ :: _, none :: _ => none
  | iTyp :: types, some v :: rest =>
    if iTyp.AssignableFrom v then (unwrapArgs types rest).map (fun vs => v :: vs)
    else none

/-- Lines 200-220: the body of the parameter loop for one parameter type.  `byName` is
`f.InstantiateByName(configuration, ·)`, `err` the current value of the named result
`err`; the value returned is `depInst`. -/
def resolveArg {V : Type} (nm : Naming)
    (byName : String → State V → Option (Outcome (Option V) V))
    (iTyp : ParamType V) (err : Option FactoryError) (st : State V) :
    Option (Outcome (Option V) V) :=
  match GetInstance st (nm.ToLowerCamel iTyp.Name) with
  | some depInst => some (Outcome.returned (some depInst) err st)
  | none =>
    match GetInstance st (nm.ToLowerCamel (nm.DirName iTyp.PkgPath) ++ iTyp.Name) with
    | some depInst => some (Outcome.returned (some depInst) err st)
    | none =>
      match byName (nm.Title (nm.ToLowerCamel iTyp.Name)) st with
      | none => none
      | some (Outcome.panicked st1) => some (Outcome.panicked st1)
      | some (Outcome.returned depInst none st1) =>
        some (Outcome.returned depInst none st1)
      | some (Outcome.returned _ (some _) st1) =>
        byName (nm.Title (nm.ToLowerCamel (nm.DirName iTyp.PkgPath) ++ iTyp.Name)) st1

/-- Lines 198-221: the parameter loop, filling `argv[1:]` from left to right. -/
def resolveArgs {V : Type} (nm : Naming)
    (byName : String → State V → Option (Outcome (Option V) V)) :
    List (ParamType V) → List (Option V) → Option FactoryError → State V →
      Option (Outcome (List (Option V)) V)
  | [], argv, err, st => some (Outcome.returned argv err st)
  | iTyp :: rest, argv, err, st =>
    match resolveArg nm byName iTyp err st with
    | none => none
    | some (Outcome.panicked st1) => some (Outcome.panicked st1)
    | some (Outcome.returned depInst err1 st1) =>
      resolveArgs nm byName rest (argv ++ [depInst]) err1 st1

/-- Lines 223-230: call the method and save the instance; the outcome is a panic when
`Call` rejects an argument, the zero Value or a value of a type that is not assignable to
the parameter.  The results of an exported method can always be read
(`CanInterface`), and `Call` gives the nil slice for a method without return value. -/
def callAndSave {V : Type} (method : Method V) (instanceName : String)
    (argv : List (Option V)) (err : Option FactoryError) (st : State V) :
    Outcome (Option V) V :=
  match unwrapArgs method.In argv with
  | none => Outcome.panicked st
  | some args =>
    match method.Func args with
    | [] => Outcome.returned none err { st with calls := st.calls ++ [(method.Name, args)] }
    | inst :: _ =>
      Outcome.returned inst err
        (SetInstance { st with calls := st.calls ++ [(method.Name, args)] } instanceName inst).1

/-- `InstantiateMethod(configuration, method, methodName)`, lines 187-231.  `fuel` bounds
the depth of the recursion through `InstantiateByName`; `none` means the bound was
reached. -/
def InstantiateMethod {V : Type} (nm : Naming) (cfg : Configuration V) :
    Nat → Method V → String → State V → Option (Outcome (Option V) V)
  | 0, _, _, _ => none
  | fuel + 1, method, methodName, st =>
    match GetInstance st (nm.LowerFirst methodName) with
    | some inst => some (Outcome.returned (some inst) none st)
    | none =>
      match resolveArgs nm
          (fun name st1 =>
            match MethodByName cfg name with
            | some m => InstantiateMethod nm cfg fuel m name st1
            | none => some (Outcome.returned none (some FactoryError.ErrInvalidMethod) st1))
          method.In [] none st with
      | none => none
      | some (Outcome.panicked st1) => some (Outcome.panicked st1)
      | some (Outcome.returned argv err st1) =>
        some (callAndSave method (nm.LowerFirst methodName) argv err st1)

/-- `InstantiateByName(configuration, name)`, lines 177-184. -/
def InstantiateByName {V : Type} (nm : Naming) (cfg : Configuration V) (fuel : Nat)
    (name : String) (st : State V) : Option (Outcome (Option V) V) :=
  match MethodByName cfg name with
  | some method => InstantiateMethod nm cfg fuel method name st
  | none => some (Outcome.returned none (some FactoryError.ErrInvalidMethod) st)

/-- Lines 247-256 of `Instantiate`: the loop over the methods, `step` being the call of
`InstantiateMethod` on one method. -/
def instantiateLoop {V : Type}
    (step : Method V → State V → Option (Outcome (Option V) V)) :
    List (Method V) → State V → Option (Outcome Unit V)
  | [], st => some (Outcome.returned () none st)
  | method :: rest, st =>
    if method.Name ≠ "Init" then
      match step method st with
      | none => none
      | some (Outcome.panicked st1) => some (Outcome.panicked st1)
      | some (Outcome.returned _ (some err) st1) => some (Outcome.returned () (some err) st1)
      | some (Outcome.returned _ none st1) => instantiateLoop step rest st1
    else instantiateLoop step rest st

/-- `Instantiate(configuration)`, lines 234-258. -/
def Instantiate {V : Type} (nm : Naming) (cfg : Configuration V) (fuel : Nat)
    (st : State V) : Option (Outcome Unit V) :=
  instantiateLoop (fun method st1 => InstantiateMethod nm cfg fuel method method.Name st1)
    cfg.methods st

/-- The state a call ends in. -/
def Outcome.st {α V : Type} : Outcome α V → State V
  | Outcome.returned _ _ st => st
  | Outcome.panicked st => st

/-- A call failed: it panicked or returned a non-nil error. -/
def Outcome.failed {α V : Type} : Outcome α V → Prop
  | Outcome.returned _ err _ => err ≠ none
  | Outcome.panicked _ => True

/-- The outcome with the returned value dropped, as `Instantiate` passes it on. -/
def Outcome.void {α V : Type} : Outcome α V → Outcome Unit V
  | Outcome.returned _ err st => Outcome.returned () err st
  | Outcome.panicked st => Outcome.panicked st

/-- How often the producer called `name` has been invoked. -/
def countCalls {V : Type} (name : String) (st : State V) : Nat :=
  (st.calls.filter (fun c => decide (c.1 = name))).length

/-- The state after `n` successive calls of `InstantiateMethod` for the same method, when
all of them return. -/
def InstantiateMethodTimes {V : Type} (nm : Naming) (cfg : Configuration V) (fuel : Nat)
    (method : Method V) (methodName : String) : Nat → State V → Option (State V)
  | 0, st => some st
  | n + 1, st =>
    match InstantiateMethod nm cfg fuel method methodName st with
    | some (Outcome.returned _ _ st1) =>
      InstantiateMethodTimes nm cfg fuel method methodName n st1
    | _ => none

/-- Between two states the registry kept every entry and the trace every invocation. -/
def Grows {V : Type} (st st' : State V) : Prop :=
  (∀ k x, mapGet? st.instances k = some x → mapGet? st'.instances k = some x) ∧
    (∀ c ∈ st.calls, c ∈ st'.calls)

/-- Between two states the registry kept every entry, and the producer `name` was not
invoked unless `key` is registered in the second one. -/
def Counted {V : Type} (key name : String) (st st' : State V) : Prop :=
  (∀ k x, mapGet? st.instances k = some x → mapGet? st'.instances k = some x) ∧
    (mapGet? st'.instances key = none → countCalls name st' = countCalls name st)

/-- The two names under which lines 211 and 213 ask `InstantiateByName` for the producer
of a parameter: the title-cased name of its type, plain and package-prefixed. -/
def producerNames {V : Type} (nm : Naming) (iTyp : ParamType V) : List String :=
  [nm.Title (nm.ToLowerCamel iTyp.Name),
    nm.Title (nm.ToLowerCamel (nm.DirName iTyp.PkgPath) ++ iTyp.Name)]

/-- Between two states the trace of invocations has only gained entries, at its end, and
the name of every method invoked in between satisfies `P`. -/
def Appended {V : Type} (P : String → Prop) (st st' : State V) : Prop :=
  ∃ new : List (String × List V), st'.calls = st.calls ++ new ∧ ∀ c ∈ new, P c.1

/-! ## factory.go and configurable.go: the later `Instantiate` -/

/-- `type Deps struct { deps depsMap }`; `none` is the nil map of the zero value. -/
structure Deps where
  deps : Option (List (String × List String))
deriving DecidableEq, Repr

/-- `Deps.ensure`: a nil map is replaced by an empty one. -/
def Deps.ensure (c : Deps) : Deps :=
  match c.deps with
  | none => { deps := some [] }
  | some _ => c

/-- `Deps.Get(name)`: the value of `c.deps[name]` after `ensure`, the nil slice (`[]`)
for a missing name. -/
def Deps.Get (c : Deps) (name : String) : List String :=
  match c.ensure.deps with
  | some m => (mapGet? m name).getD []
  | none => []

/-- The second argument of one `f.AppendComponent(configuration, ·)` call of
`configurableFactory.Instantiate`: a `*factory.MetaData` or the bare method. -/
inductive Component (V : Type) where
  | metaData (Name : String) (MetaObject : Method V) (DepNames : List String)
  | method (MetaObject : Method V)

/-- The method a component was appended for. -/
def Component.MetaObject {V : Type} : Component V → Method V
  | Component.metaData _ m _ => m
  | Component.method m => m

namespace configurableFactory

/-- `configurableFactory.Instantiate(configuration)`, configurable.go lines 156-196, as
the sequence of its `AppendComponent` calls.  `pkgPath` is `icv.Type().PkgPath()` and
`runtimeDeps` the field `RuntimeDeps` when the configuration has one (`rd.IsValid()`). -/
def Instantiate {V : Type} (nm : Naming) (pkgPath : String) (runtimeDeps : Option Deps)
    (methods : List (Method V)) : List (Component V) :=
  methods.map (fun method =>
    match runtimeDeps with
    | some rd =>
      Component.metaData (nm.DirName pkgPath ++ "." ++ nm.LowerFirst method.Name) method
        (rd.Get method.Name)
    | none => Component.method method)

end configurableFactory

/-! ## Sample naming and configurations -/

/-- `str.LowerFirst` on ASCII identifiers. -/
def lowerFirst (s : String) : String :=
  match s.data with
  | [] => ""
  | c :: cs => String.mk (c.toLower :: cs)

/-- `strings.Title` on a one-word ASCII identifier. -/
def upperFirst (s : String) : String :=
  match s.data with
  | [] => ""
  | c :: cs => String.mk (c.toUpper :: cs)

/-- The last element of a slash-separated path. -/
def lastSegment (s : String) : String :=
  String.mk ((s.data.reverse.takeWhile (fun c => decide (c ≠ '/'))).reverse)

/-- The helpers as they act on ASCII identifiers written in camel case. -/
def asciiNaming : Naming :=
  { LowerFirst := lowerFirst, ToLowerCamel := lowerFirst, DirName := lastSegment,
    Title := upperFirst }

/-- The empty registry, nothing invoked yet.  Instances are written as strings. -/
def emptyState : State String := { instances := [], calls := [] }

/-- `func (c *cfg) Foo() *Foo`. -/
def fooMethod : Method String :=
  { Name := "Foo", In := [], Func := fun _ => [some "foo"] }

/-- `func (c *cfg) Bar(foo *Foo) *Bar`. -/
def barMethod : Method String :=
  { Name := "Bar", In := [⟨"Foo", "hiboot/pkg/cfg", fun _ => true⟩],
    Func := fun args => [some (String.join ("bar" :: args))] }

/-- `func (c *cfg) Baz() *Baz`. -/
def bazMethod : Method String :=
  { Name := "Baz", In := [], Func := fun _ => [some "baz"] }

/-- `func (c *cfg) Init()`. -/
def initMethod : Method String :=
  { Name := "Init", In := [], Func := fun _ => [] }

/-- `func (c *cfg) Loop(l *Loop) *Loop`: a producer that needs its own product. -/
def loopMethod : Method String :=
  { Name := "Loop", In := [⟨"Loop", "hiboot/pkg/cfg", fun _ => true⟩], Func := fun _ => [some "loop"] }

/-- A unit whose `Bar` is built from its `Foo`. -/
def fooBarUnit : Configuration String := ⟨[barMethod, fooMethod, initMethod]⟩

/-- A unit whose `Bar` needs a `Foo` that nothing provides, followed by `Baz`. -/
def missingUnit : Configuration String := ⟨[barMethod, bazMethod]⟩

/-- A unit with a producer that depends on itself. -/
def loopUnit : Configuration String := ⟨[loopMethod]⟩

/-- `func (c *cfg) Init() *Init`: an initializer that returns a value. -/
def initProducer : Method String :=
  { Name := "Init", In := [], Func := fun _ => [some "init"] }

/-- `func (c *cfg) Use(i *Init) *Use`: a producer with a parameter of a type named
`Init`. -/
def useMethod : Method String :=
  { Name := "Use", In := [⟨"Init", "hiboot/pkg/cfg", fun _ => true⟩],
    Func := fun args => [some (String.join ("use" :: args))] }

/-- A unit in which a producer depends on what `Init` returns. -/
def initUnit : Configuration String := ⟨[initProducer, useMethod]⟩

/-- A unit with two independent producers and an initializer. -/
def plainUnit : Configuration String := ⟨[bazMethod, fooMethod, initMethod]⟩

/-- A registry in which `foo` is taken. -/
def fooState : State String := { instances := [("foo", some "made")], calls := [] }

/-- `func (c *cfg) Setup()`: a method without return value that is not called `Init`. -/
def setupMethod : Method String :=
  { Name := "Setup", In := [], Func := fun _ => [] }

/-- `func (c *cfg) Cache() Cache`: a producer that returns the nil interface. -/
def nilMethod : Method String :=
  { Name := "Cache", In := [], Func := fun _ => [none] }

/-- A unit with a method that returns nothing and a producer that returns nil. -/
def setupUnit : Configuration String := ⟨[setupMethod, nilMethod]⟩

end Autoconfigure

namespace Autoconfigure

/-! ## What both versions of `build` share -/

/-- `ErrInvalidObjectType` and `ErrConfigurationNameIsTaken`. -/
inductive ConfigError where
  | ErrInvalidObjectType
  | ErrConfigurationNameIsTaken
deriving DecidableEq, Repr

/-- An error of the property builder's `Build`. -/
inductive BuildError where
  | PropertySource
deriving DecidableEq, Repr

/-- `systemConfig.App.Profiles`, as far as `build` reads it. -/
structure Profiles where
  Include : List String
  Active : String
  Filter : Bool
deriving DecidableEq, Repr

/-- How `Build` and `build` end: the loop ran to its end, `log.Fatalf` ended the process,
or a panic left the function.  Each carries the factory as it then is. -/
inductive BuildOutcome (F : Type) where
  | done (f : F)
  | fatal (f : F)
  | panicked (f : F)

/-- The factory an outcome carries. -/
def BuildOutcome.factory {F : Type} : BuildOutcome F → F
  | BuildOutcome.done f => f
  | BuildOutcome.fatal f => f
  | BuildOutcome.panicked f => f

/-- Modelled from the spec: `cmap.ConcurrentMap.Set` is not in the sources; the spec
describes the store as a mapping from name to value with get/set semantics in which an
overwrite is possible (the callers track it as an error condition for configuration
names).  `Set` stores the value under the key, replacing an earlier one. -/
def cmapSet {β : Type} (m : List (String × β)) (key : String) (value : β) :
    List (String × β) :=
  mapSet m key value

/-- Modelled from the spec: `cmap.ConcurrentMap.Get` is not in the sources; it is the
`get` of that mapping, the value stored under the key when there is one. -/
def cmapGet {β : Type} (m : List (String × β)) (key : String) : Option β :=
  mapGet? m key

namespace configurableFactory

/-! ## configurable.go: `parseName`, `Build` and `build` -/

/-- `strings.Replace(s, old, "", -1)` on the characters of `s`, for a non-empty `old`;
`fuel` is the length of `s`. -/
def removeAll (old : List Char) : Nat → List Char → List Char
  | 0, l => l
  | _ + 1, [] => []
  | fuel + 1, c :: rest =>
    if old.isPrefixOf (c :: rest) then removeAll old fuel ((c :: rest).drop old.length)
    else c :: removeAll old fuel rest

/-- `PostfixConfiguration`. -/
def PostfixConfiguration : String := "Configuration"

/-- The object a unit is described by (`item.MetaObject`, and `cf` once built), as
reflection shows it: whether it embeds `at.AutoConfiguration` and `at.ContextAware`, the
package path of its type, its field `RuntimeDeps` when it has one, and its methods. -/
structure ConfigObject (V : Type) where
  AutoConfiguration : Bool
  ContextAware : Bool
  PkgPath : String
  RuntimeDeps : Option Deps
  methods : List (Method V)

/-- A `*factory.MetaData`, as far as `Build` and `build` read it; `isFunc` is
`item.Kind == types.Func`. -/
structure MetaData (V : Type) where
  TypeName : String
  PkgName : String
  isFunc : Bool
  MetaObject : ConfigObject V

/-- The calls `build` makes outside these files: `f.InjectIntoFunc(config)` and
`f.builder.Build(name)` after `f.builder.SetConfiguration(config)`, which gives `cf`
(`none` for nil) and an error. -/
structure Collaborators (V : Type) where
  InjectIntoFunc : ConfigObject V → ConfigObject V
  Build : String → ConfigObject V → Option (ConfigObject V) × Option BuildError

/-- The fields of `configurableFactory` that `Build` and `build` change: the
configurations store, the components appended by `Instantiate`, the container of the
categorized units, the errors logged, and the names of the units that passed the profile
filter (one "Auto configure" line each, line 223), in order. -/
structure Factory (V : Type) where
  configurations : List (String × ConfigObject V)
  components : List (Component V)
  configureContainer : List (MetaData V)
  errors : List ConfigError
  built : List String

/-- `parseName(item)`, lines 198-208. -/
def parseName {V : Type} (nm : Naming) (item : MetaData V) : String :=
  let name := nm.ToLowerCamel
    (String.mk (removeAll PostfixConfiguration.data item.TypeName.length item.TypeName.data))
  if name = "" ∨ name = "configuration" then item.PkgName else name

/-- The test of lines 218-220, for a system configuration that is not nil. -/
def filteredOut {V : Type} (nm : Naming) (profiles : Profiles) (item : MetaData V) : Bool :=
  profiles.Filter && !item.MetaObject.ContextAware &&
    !decide (parseName nm item ∈ profiles.Include)

/-- `build(cfgContainer)`, lines 210-267.  With `f.systemConfig` nil the test of line 218
dereferences a nil pointer; with `cf` nil `Instantiate` calls `Type` on the zero
`reflect.Value`: both panic. -/
def build {V : Type} (nm : Naming) (co : Collaborators V) (systemConfig : Option Profiles) :
    List (MetaData V) → Factory V → BuildOutcome (Factory V)
  | [], f => BuildOutcome.done f
  | item :: rest, f =>
    match systemConfig with
    | none => BuildOutcome.panicked f
    | some profiles =>
      if filteredOut nm profiles item then build nm co systemConfig rest f
      else
        match (co.Build (parseName nm item)
            (if item.isFunc then co.InjectIntoFunc item.MetaObject else item.MetaObject)).1 with
        | none => BuildOutcome.panicked { f with built := f.built ++ [parseName nm item] }
        | some cf =>
          build nm co systemConfig rest
            { f with
              built := f.built ++ [parseName nm item]
              components := f.components ++
                Instantiate nm cf.PkgPath cf.RuntimeDeps cf.methods
              configurations := cmapSet f.configurations (parseName nm item) cf }

/-- Lines 143-150 of `Build`: the categorization of one unit. -/
def categorize {V : Type} (f : Factory V) (item : MetaData V) : Factory V :=
  if item.MetaObject.AutoConfiguration then
    { f with configureContainer := f.configureContainer ++ [item] }
  else { f with errors := f.errors ++ [ConfigError.ErrInvalidObjectType] }

/-- `Build(configs)`, lines 141-153. -/
def Build {V : Type} (nm : Naming) (co : Collaborators V) (systemConfig : Option Profiles)
    (configs : List (MetaData V)) (f : Factory V) : BuildOutcome (Factory V) :=
  build nm co systemConfig (configs.foldl categorize f).configureContainer
    (configs.foldl categorize f)

/-! ## Sample units for configurable.go -/

/-- An object embedding `at.AutoConfiguration`, context-aware or not, without methods. -/
def sampleObject (contextAware : Bool) (pkgPath : String) : ConfigObject String :=
  { AutoConfiguration := true, ContextAware := contextAware, PkgPath := pkgPath,
    RuntimeDeps := none, methods := [] }

/-- The unit `BarConfiguration`, not context-aware; its derived name is `bar`. -/
def barItem : MetaData String :=
  { TypeName := "BarConfiguration", PkgName := "barpkg", isFunc := false,
    MetaObject := sampleObject false "hiboot/barpkg" }

/-- The unit `BazConfiguration`, context-aware; its derived name is `baz`. -/
def bazItem : MetaData String :=
  { TypeName := "BazConfiguration", PkgName := "bazpkg", isFunc := false,
    MetaObject := sampleObject true "hiboot/bazpkg" }

/-- A first unit whose derived name is `cache`. -/
def cacheItem : MetaData String :=
  { TypeName := "CacheConfiguration", PkgName := "first", isFunc := false,
    MetaObject := sampleObject false "hiboot/first" }

/-- A second unit whose derived name is `cache`. -/
def cacheItem2 : MetaData String :=
  { TypeName := "CacheConfiguration", PkgName := "second", isFunc := false,
    MetaObject := sampleObject false "hiboot/second" }

/-- Filtering enabled with include list `["foo"]`. -/
def fooProfiles : Profiles := { Include := ["foo"], Active := "default", Filter := true }

/-- Filtering disabled, with the same include list. -/
def openProfiles : Profiles := { Include := ["foo"], Active := "default", Filter := false }

/-- A property builder that finds nothing to change and reports no error. -/
def plainCollaborators : Collaborators String :=
  { InjectIntoFunc := id, Build := fun _ obj => (some obj, none) }

/-- A property builder that reports an error for every unit. -/
def failingCollaborators : Collaborators String :=
  { InjectIntoFunc := id, Build := fun _ obj => (some obj, some BuildError.PropertySource) }

/-- A factory in which nothing has been built yet. -/
def emptyFactory : Factory String :=
  { configurations := [], components := [], configureContainer := [], errors := [],
    built := [] }

end configurableFactory

namespace ConfigurableFactory

/-! ## configfactory.go: `Build` and `build` -/

/-- The `reflect.StructField` that `reflector.GetEmbeddedInterfaceField(inst)` gives, as
far as `Build` reads it; without embedded interface it is the zero value, which is not
`Anonymous`. -/
structure StructField where
  Name : String
  Anonymous : Bool
deriving DecidableEq, Repr

/-- An `inst` of a container, as `build` reads it: the name that
`f.ParseInstance("Configuration", item)` gives it and the object itself. -/
structure Instance (V : Type) where
  name : String
  config : Configuration V

/-- An element of `configs`, as `Build` reads it: the name and the instance that
`f.ParseInstance("Configuration", item...)` gives, and the embedded interface field of
the instance. -/
structure ConfigItem (V : Type) where
  name : String
  ifcField : StructField
  inst : Instance V

/-- What `build` reads outside the factory: `gotest.IsRunning()`, `f.systemConfig`,
`os.Getenv(appProfilesActive)`, `f.builder.Build(name, profile)` after
`f.builder.ConfigType = configType` (which gives `cf`, `none` for nil, and an error), and
the order in which `sort.Sort(depends.ByDependency(cfgContainer))` leaves a container: a
permutation of it. -/
structure Env (V : Type) where
  isTestRunning : Bool
  systemConfig : Option Profiles
  getenv : String
  Build : String → String → Instance V → Option (Configuration V) × Option BuildError
  sort : List (Instance V) → List (Instance V)
  sort_perm : ∀ l, (sort l).Perm l

/-- The fields of `ConfigurableFactory` that `Build` and `build` change: the instance
registry with the trace of invocations, the configurations store, the three containers,
the errors logged, the names of the units that failed to build (line 293) and the names
of the units that passed the profile filter (one "Auto configure" line each, line 281),
in order. -/
structure Factory (V : Type) where
  st : State V
  configurations : List (String × Configuration V)
  preConfigureContainer : List (Instance V)
  configureContainer : List (Instance V)
  postConfigureContainer : List (Instance V)
  errors : List ConfigError
  warnings : List String
  built : List String

/-- `appProfilesActive()`, lines 261-266. -/
def appProfilesActive {V : Type} (env : Env V) : String :=
  match env.systemConfig with
  | none => env.getenv
  | some profiles => profiles.Active

/-- The test of line 278. -/
def filteredOut {V : Type} (env : Env V) (name : String) : Bool :=
  match env.systemConfig with
  | none => false
  | some profiles => !env.isTestRunning && !decide (name ∈ profiles.Include)

/-- Lines 274-313: the loop of `build` over the sorted container.  `instantiate` is
`f.Instantiate(cf)`, whose error `build` drops; `none` means that it does not return. -/
def buildLoop {V : Type} (env : Env V)
    (instantiate : Configuration V → State V → Option (Outcome Unit V)) :
    List (Instance V) → Factory V → Option (BuildOutcome (Factory V))
  | [], f => some (BuildOutcome.done f)
  | item :: rest, f =>
    if filteredOut env item.name then buildLoop env instantiate rest f
    else
      match env.Build item.name (appProfilesActive env) item with
      | (none, _) =>
        buildLoop env instantiate rest
          { f with built := f.built ++ [item.name], warnings := f.warnings ++ [item.name] }
      | (some _, some _) =>
        buildLoop env instantiate rest { f with built := f.built ++ [item.name] }
      | (some cf, none) =>
        match instantiate cf f.st with
        | none => none
        | some (Outcome.panicked st1) =>
          some (BuildOutcome.panicked { f with built := f.built ++ [item.name], st := st1 })
        | some (Outcome.returned _ _ st1) =>
          match cmapGet f.configurations item.name with
          | some _ =>
            some (BuildOutcome.fatal
              { f with
                built := f.built ++ [item.name], st := st1
                errors := f.errors ++ [ConfigError.ErrConfigurationNameIsTaken] })
          | none =>
            buildLoop env instantiate rest
              { f with
                built := f.built ++ [item.name], st := st1
                configurations := cmapSet f.configurations item.name cf }

/-- `build(cfgContainer)`, lines 269-314. -/
def build {V : Type} (nm : Naming) (env : Env V) (fuel : Nat)
    (cfgContainer : List (Instance V)) (f : Factory V) :
    Option (BuildOutcome (Factory V)) :=
  buildLoop env (fun cf st => Instantiate nm cf fuel st) (env.sort cfgContainer) f

/-- Lines 144-168 of `Build`: the categorization of one element of `configs`. -/
def categorize {V : Type} (f : Factory V) (item : ConfigItem V) : Factory V :=
  if item.name = "" ∨ item.name = "configuration" then f
  else if item.ifcField.Anonymous then
    if item.ifcField.Name = "Configuration" then
      { f with configureContainer := f.configureContainer ++ [item.inst] }
    else if item.ifcField.Name = "PreConfiguration" then
      { f with preConfigureContainer := f.preConfigureContainer ++ [item.inst] }
    else if item.ifcField.Name = "PostConfiguration" then
      { f with postConfigureContainer := f.postConfigureContainer ++ [item.inst] }
    else f
  else { f with errors := f.errors ++ [ConfigError.ErrInvalidObjectType] }

/-- What follows a `build` in `Build`: the next call when it ran to its end, nothing when
the process ended or a panic is on its way. -/
def andThen {F : Type} (o : Option (BuildOutcome F)) (next : F → Option (BuildOutcome F)) :
    Option (BuildOutcome F) :=
  match o with
  | some (BuildOutcome.done f) => next f
  | other => other

/-- `Build(configs)`, lines 142-174. -/
def Build {V : Type} (nm : Naming) (env : Env V) (fuel : Nat) (configs : List (ConfigItem V))
    (f : Factory V) : Option (BuildOutcome (Factory V)) :=
  andThen
    (andThen
      (build nm env fuel (configs.foldl categorize f).preConfigureContainer
        (configs.foldl categorize f))
      (fun f1 => build nm env fuel f1.configureContainer f1))
    (fun f2 => build nm env fuel f2.postConfigureContainer f2)

/-! ## The categorization, in the words of the claim -/

/-- The three phase buckets. -/
inductive Phase where
  | pre
  | main
  | post
deriving DecidableEq, Repr

/-- The bucket a unit belongs to: none when its parsed name is empty or `configuration`
or when it has no embedded interface field, otherwise the one its marker names, if
any. -/
def phaseOf {V : Type} (item : ConfigItem V) : Option Phase :=
  if item.name = "" ∨ item.name = "configuration" then none
  else if item.ifcField.Anonymous = false then none
  else if item.ifcField.Name = "PreConfiguration" then some Phase.pre
  else if item.ifcField.Name = "Configuration" then some Phase.main
  else if item.ifcField.Name = "PostConfiguration" then some Phase.post
  else none

/-- The units `Build` reports with `ErrInvalidObjectType`: those with a parsed name of
their own and no embedded interface field. -/
def reported {V : Type} (item : ConfigItem V) : Bool :=
  !decide (item.name = "" ∨ item.name = "configuration") && !item.ifcField.Anonymous

/-- A unit whose embedded interface is none of the three markers. -/
def otherItem : ConfigItem String :=
  { name := "other", ifcField := { Name := "OtherConfiguration", Anonymous := true },
    inst := { name := "other", config := plainUnit } }

/-! ## Sample units for configfactory.go -/

/-- An instance called `name` whose configuration is `config`. -/
def sampleInstance (name : String) (config : Configuration String) : Instance String :=
  { name := name, config := config }

/-- No test is running, a system configuration with include list `["foo"]` exists, the
property builder hands the configuration back without error, and sorting leaves a
container as it is. -/
def quietEnv : Env String :=
  { isTestRunning := false
    systemConfig := some { Include := ["foo"], Active := "default", Filter := true }
    getenv := ""
    Build := fun _ _ inst => (some inst.config, none)
    sort := id
    sort_perm := fun l => List.Perm.refl l }

/-- As `quietEnv`, during a test run. -/
def testEnv : Env String := { quietEnv with isTestRunning := true }

/-- As `testEnv`, with a property builder that reports an error for the unit `broken`. -/
def brokenEnv : Env String :=
  { testEnv with
    Build := fun name _ inst =>
      if name = "broken" then (some inst.config, some BuildError.PropertySource)
      else (some inst.config, none) }

/-- A factory in which nothing has been built yet. -/
def emptyFactory : Factory String :=
  { st := emptyState, configurations := [], preConfigureContainer := [],
    configureContainer := [], postConfigureContainer := [], errors := [], warnings := [],
    built := [] }

/-- An instance without methods. -/
def bareInstance (name : String) : Instance String :=
  { name := name, config := ⟨[]⟩ }

/-- Three units, given in the order post, main, pre. -/
def phasedConfigs : List (ConfigItem String) :=
  [{ name := "q", ifcField := { Name := "PostConfiguration", Anonymous := true },
     inst := bareInstance "q" },
   { name := "m", ifcField := { Name := "Configuration", Anonymous := true },
     inst := bareInstance "m" },
   { name := "p", ifcField := { Name := "PreConfiguration", Anonymous := true },
     inst := bareInstance "p" }]

end ConfigurableFactory

end Autoconfigure

namespace Cli

/-! ## command.go: the command tree -/

/-- `ErrCommandNotFound`. -/
inductive CliError where
  | ErrCommandNotFound
deriving DecidableEq, Repr

/-- A `BaseCommand` as `Find` reads it: its `name` and its `children`. -/
inductive Command where
  | mk (name : String) (children : List Command)
deriving Repr

/-- `BaseCommand.GetName`. -/
def Command.GetName : Command → String
  | Command.mk name _ => name

/-- `BaseCommand.Children`. -/
def Command.Children : Command → List Command
  | Command.mk _ children => children

/-- Lines 156-160 of `Find`: the loop over the direct children. -/
def findChild (name : String) : List Command → Option Command
  | [] => none
  | cmd :: rest => if name = cmd.GetName then some cmd else findChild name rest

/-- `BaseCommand.Find(name)`, lines 151-162: the command found (`none` for nil) and the
error. -/
def Command.Find (c : Command) (name : String) : Option Command × Option CliError :=
  if c.GetName = name then (some c, none)
  else
    match findChild name c.Children with
    | some cmd => (some cmd, none)
    | none => (none, some CliError.ErrCommandNotFound)

/-- A root with two children called `run`, the first of which has a child `deep`. -/
def sampleRoot : Command :=
  Command.mk "root"
    [Command.mk "run" [Command.mk "deep" []], Command.mk "stop" [], Command.mk "run" []]

end Cli

namespace Autoconfigure

/-! ## `BuildSystemConfig` in both versions -/

/-- `os.Getenv` on the process environment `environ`: the value of the variable, the
empty string when the variable is not set. -/
def Getenv (environ : List (String × String)) (key : String) : String :=
  (mapGet? environ key).getD ""

/-- A call that `BuildSystemConfig` of configurable.go makes on `f.builder`.  Property
values are strings here. -/
inductive BuilderCall where
  | SetProperty (name : String) (val : String)
  | Build (profiles : List String)
deriving DecidableEq, Repr

namespace configurableFactory

/-- The constant of line 41. -/
def PropAppProfilesActive : String := "app.profiles.active"

/-- The constant of line 44. -/
def EnvAppProfilesActive : String := "APP_PROFILES_ACTIVE"

/-- The constant of line 49. -/
def defaultProfileName : String := "default"

/-- `BuildSystemConfig`, lines 112-138.  `customProperties` are the pairs of
`f.CustomProperties()` in the order in which the `range` of line 122 visits them, and
`build` is the error that `f.builder.Build` returns, given the calls made on the builder
before it and its arguments.  The result is the calls made on the builder, in order, the
error returned, and whether the system configuration has been stored (lines 127-135). -/
def BuildSystemConfig (environ : List (String × String))
    (customProperties : List (String × String))
    (build : List BuilderCall → List String → Option BuildError) :
    List BuilderCall × Option BuildError × Bool :=
  let profile := Getenv environ EnvAppProfilesActive
  let profile := if profile = "" then defaultProfileName else profile
  let calls := BuilderCall.SetProperty PropAppProfilesActive profile ::
    customProperties.map (fun p => BuilderCall.SetProperty p.1 p.2)
  let err := build calls [defaultProfileName, profile]
  (calls ++ [BuilderCall.Build [defaultProfileName, profile]], err, err.isNone)

end configurableFactory

namespace ConfigurableFactory

/-- The fields of `system.Builder` that `BuildSystemConfig` of configfactory.go fills in
(lines 117-123), `ConfigType` apart. -/
structure Builder where
  Path : String
  Name : String
  FileType : String
  Profile : String
deriving DecidableEq, Repr

/-- The constant of line 43. -/
def appProfilesActiveName : String := "APP_PROFILES_ACTIVE"

/-- `BuildSystemConfig`, lines 113-139.  `workDir` is `io.GetWorkDir()`, `Join` is
`filepath.Join` and `build` is the error of `f.builder.Build()`.  The result is the
builder as `BuildSystemConfig` sets it up, the error returned, and whether the system
configuration has been stored (lines 130-138). -/
def BuildSystemConfig (environ : List (String × String)) (workDir : String)
    (Join : String → String → String) (build : Builder → Option BuildError) :
    Builder × Option BuildError × Bool :=
  let profile := Getenv environ appProfilesActiveName
  let builder : Builder :=
    { Path := Join workDir "config"
      Name := "application"
      FileType := "yaml"
      Profile := profile }
  match build builder with
  | some err => (builder, some err, false)
  | none => (builder, none, true)

end ConfigurableFactory

end Autoconfigure

namespace SystemBuilder

/-! ## The property builder of package system: placeholders -/

/-- Modelled from the spec: `Builder.GetProperty` is not in the sources (of package
system only builder_test.go is).  A key is looked up in the already-merged space of the
unit being built and, if unresolved there, in the system-wide configuration.  Property
values are strings here. -/
def GetProperty (unit system : List (String × String)) (key : String) : Option String :=
  match mapGet? unit key with
  | some v => some v
  | none => mapGet? system key

/-- Modelled from the spec: the text between the braces of a placeholder, which is not
in the sources, is `key` or `key:default`; it is split at its first colon. -/
def splitDefault : List Char → List Char × Option (List Char)
  | [] => ([], none)
  | c :: cs =>
    if c = ':' then ([], some cs)
    else (c :: (splitDefault cs).1, (splitDefault cs).2)

/-- Modelled from the spec: the value that stands for one placeholder with the text
`body` between its braces; the code is not in the sources.  The key is looked up in the
property space; when it is absent the default is substituted, if the placeholder has one;
otherwise the name is read from the process environment, the empty string if unset. -/
def resolve (unit system environ : List (String × String)) (body : List Char) :
    List Char :=
  match GetProperty unit system (String.mk (splitDefault body).1) with
  | some v => v.data
  | none =>
    match (splitDefault body).2 with
    | some d => d
    | none => (Autoconfigure.Getenv environ (String.mk (splitDefault body).1)).data

/-- Where the scan of a string stands: in plain text, after a dollar sign, or inside the
braces of a placeholder, with the text read since the opening brace. -/
inductive Scan where
  | text
  | dollar
  | body (acc : List Char)

/-- Modelled from the spec: the expansion of the placeholders of a string, which is not
in the sources.  The string is read from left to right; a placeholder opens at a dollar
sign directly followed by an opening brace and closes at the next closing brace; its
value is put in its place and every other character is kept.  A placeholder that is
never closed is kept as it is written. -/
def scan (unit system environ : List (String × String)) : Scan → List Char → List Char
  | Scan.text, [] => []
  | Scan.text, c :: cs =>
    if c = '$' then scan unit system environ Scan.dollar cs
    else c :: scan unit system environ Scan.text cs
  | Scan.dollar, [] => ['$']
  | Scan.dollar, c :: cs =>
    if c = '{' then scan unit system environ (Scan.body []) cs
    else if c = '$' then '$' :: scan unit system environ Scan.dollar cs
    else '$' :: c :: scan unit system environ Scan.text cs
  | Scan.body acc, [] => '$' :: '{' :: acc
  | Scan.body acc, c :: cs =>
    if c = '}' then resolve unit system environ acc ++ scan unit system environ Scan.text cs
    else scan unit system environ (Scan.body (acc ++ [c])) cs

/-- Modelled from the spec: `Builder.Replace`, which is not in the sources (only its
test in builder_test.go, lines 104-124, is): the string with its placeholders
expanded. -/
def Replace (unit system environ : List (String × String)) (source : String) : String :=
  String.mk (scan unit system environ Scan.text source.data)

/-! ## The property builder of package system: the layers of a build -/

/-- Modelled from the spec: the merge of two layers of properties is not in the sources
(of package system only builder_test.go is).  The keys of the overlay take precedence
over the keys of the base: every pair of the overlay is set in the base. -/
def merge (base overlay : List (String × String)) : List (String × String) :=
  overlay.foldr (fun p m => mapSet m p.1 p.2) base

/-- Modelled from the spec: the loading of a property file is not in the sources.
`files name` is what the file called `name` sets, `none` when there is no such file; a
missing file is not an error and sets nothing. -/
def load (files : String → Option (List (String × String))) (name : String) :
    List (String × String) :=
  (files name).getD []

/-- Modelled from the spec: the profile-suffixed overlay file of a unit. -/
def overlayFile (unit profile : String) : String :=
  unit ++ "-" ++ profile

/-- Modelled from the spec: `Builder.Build` and `Builder.BuildWithProfile` are not in the
sources (only their tests in builder_test.go are).  The base file, named by the unit, is
loaded; for a profile other than the default one the profile-suffixed overlay file is
loaded, if present, its keys taking precedence over those of the base file; the ad-hoc
properties set explicitly are applied last, with the highest precedence.  No profile,
the empty string, is the default profile.  The result is the merged property space. -/
def Build (files : String → Option (List (String × String)))
    (adhoc : List (String × String)) (unit profile : String) : List (String × String) :=
  let base := load files unit
  let overlay :=
    if profile = "" ∨ profile = "default" then []
    else load files (overlayFile unit profile)
  merge (merge base overlay) adhoc

/-- The files of the overlay scenario: application sets `server.port` to 8080 and
`app.name`, application-local sets `server.port` to 8081. -/
def sampleFiles (name : String) : Option (List (String × String)) :=
  if name = "application" then some [("app.name", "hiboot"), ("server.port", "8080")]
  else if name = "application-local" then some [("server.port", "8081")]
  else none

end SystemBuilder

namespace Cli

/-! ## command.go: `dispatch` and `Register` -/

/-- The constant of line 47. -/
def actionPrefix : String := "On"

/-- The first result of a method called through reflection, as far as `dispatch` tells
results apart: a boolean, or anything else (also no result at all). -/
inductive CallValue where
  | bool (b : Bool)
  | other
deriving DecidableEq, Repr

/-- A command as `dispatch` and the handler of `Register` use it: the methods that
reflection finds by name, each a function of the argument list, and `Run`, whose result
is the error (`none` for nil). -/
structure Handlers where
  method : String → Option (List String → CallValue)
  Run : List String → Option String

/-- What is called on the command: a method found by name, or `Run`. -/
inductive Event where
  | call (methodName : String) (args : List String)
  | run (args : List String)
deriving DecidableEq, Repr

/-- The calls made on the command, in order, and the value returned; `none` for a run
that ends in a panic. -/
structure Ran (α : Type) where
  events : List Event
  value : Option α
deriving DecidableEq, Repr

/-- Modelled from the spec: `reflector.CallMethodByName` is not in the sources.  It
matches the name against the methods of the command; the method found is called with the
arguments and its first result is returned with a nil error; when no method has that
name the error is not nil (`none`). -/
def CallMethodByName (c : Handlers) (name : String) (args : List String) :
    List Event × Option CallValue :=
  match c.method name with
  | some m => ([Event.call name args], some (m args))
  | none => ([], none)

/-- `dispatch(c, args)`, lines 62-71.  The type assertion `result.(bool)` of line 67
panics on a result that is not a boolean. -/
def dispatch (nm : Autoconfigure.Naming) (c : Handlers) (args : List String) : Ran Bool :=
  match args with
  | [] => ⟨[], some false⟩
  | a :: rest =>
    if a ≠ "" then
      match CallMethodByName c (actionPrefix ++ nm.Title a) rest with
      | (events, some (CallValue.bool b)) => ⟨events, some b⟩
      | (events, some CallValue.other) => ⟨events, none⟩
      | (events, none) => ⟨events, some false⟩
    else ⟨[], some false⟩

/-- The function that `Register(c)` installs as `RunE`, lines 74-80, applied to `args`;
its value is the error returned. -/
def RunE (nm : Autoconfigure.Naming) (c : Handlers) (args : List String) :
    Ran (Option String) :=
  match dispatch nm c args with
  | ⟨events, some false⟩ => ⟨events ++ [Event.run args], some (c.Run args)⟩
  | ⟨events, some true⟩ => ⟨events, some none⟩
  | ⟨events, none⟩ => ⟨events, none⟩

/-- A command with the handlers `OnFoo`, which returns true, `OnBar`, which returns
false, and `OnVoid`, which returns nothing. -/
def sampleHandlers : Handlers :=
  { method := fun name =>
      if name = "OnFoo" then some (fun _ => CallValue.bool true)
      else if name = "OnBar" then some (fun _ => CallValue.bool false)
      else if name = "OnVoid" then some (fun _ => CallValue.other)
      else none
    Run := fun _ => none }

/-! ## command.go and application.go: `Add` and `initialize` -/

/-- `BaseCommand.Add(commands...)`, lines 103-119, on the tree of names: every command
is appended to the children, in order; `ParseObjectName` gives a child without name its
name. -/
def Command.Add (ParseObjectName : Command → String) (c : Command)
    (commands : List Command) : Command :=
  commands.foldl (fun c child =>
    Command.mk c.GetName (c.Children ++
      [if child.GetName = "" then Command.mk (ParseObjectName child) child.Children
        else child])) c

/-- A call of `Add` on a variable of the interface type `Command`: on the nil interface
(`none`) the call panics (`none`). -/
def callAdd (ParseObjectName : Command → String) (root : Option Command)
    (commands : List Command) : Option Command :=
  match root with
  | none => none
  | some c => some (Command.Add ParseObjectName c commands)

/-- How the method `initialize` of `application` ends: it returns its error, having registered `rootCommand` or not
(the registered value may be the nil interface), or it panics. -/
inductive Initialized where
  | returned (err : Option String) (rootCommand : Option (Option Command))
  | panicked
deriving Repr

/-- The method `initialize(cmd...)` of `application`, lines 81-95.  `err` is the result
of `a.Initialize()`; the second component of `returned` is the value that line 92
registers under `rootCommand`, `none` when nothing is registered. -/
def initializeApplication (ParseObjectName : Command → String) (err : Option String)
    (cmd : List Command) : Initialized :=
  let root : Option Command := none
  if cmd.length > 0 then
    if cmd.length = 1 then
      Initialized.returned err (some cmd.head?)
    else
      match callAdd ParseObjectName root (cmd.drop 1) with
      | none => Initialized.panicked
      | some _ => Initialized.returned err (some root)
  else Initialized.returned err none

end Cli

namespace Web

/-! ## dispatcher.go: the routes of a controller -/

/-- The string helpers that `register` calls: `camelcase.Split`, `strings.ToUpper`,
`strings.ToLower` and `utils.LowerFirst`. -/
structure Strings where
  Split : String → List String
  ToUpper : String → String
  ToLower : String → String
  LowerFirst : String → String

/-- The variable `httpMethods`, lines 17-27. -/
def httpMethods : List String :=
  ["GET", "HEAD", "POST", "PUT", "PATCH", "DELETE", "CONNECT", "OPTIONS", "TRACE"]

/-- Modelled from the spec: the constant `pathSep` of package web is declared outside the
sources; the paths of the routes are separated by a slash. -/
def pathSep : String := "/"

/-- `strings.Replace(s, old, "", 1)` on the characters of `s`: the first occurrence of
`old` is left out. -/
def removeFirst (old : List Char) : List Char → List Char
  | [] => []
  | c :: rest =>
    if old.isPrefixOf (c :: rest) then (c :: rest).drop old.length
    else c :: removeFirst old rest

/-- What `party.Handle` of line 125 is called with. -/
structure Route where
  httpMethod : String
  path : String
deriving DecidableEq, Repr

/-- Lines 112-114: one path segment per path parameter. -/
def pathParams (sx : Strings) (params : List String) : String :=
  params.foldl (fun apiContextMapping pathParam =>
    apiContextMapping ++ pathSep ++ "\x7b" ++ sx.ToLower pathParam ++ "\x7d") ""

/-- Lines 99-130, the body of the loop over the methods of a controller, for the method
called `methodName`: `some (some route)` when `party.Handle` is called, `some none` when
the method is passed over, and `none` when `ctxMap[0]` panics because `Split` returns no
word. -/
def methodRoute (sx : Strings) (methodName : String) : Option (Option Route) :=
  match sx.Split methodName with
  | [] => none
  | first :: more =>
    if sx.ToUpper first ∈ httpMethods then
      if (first :: more).length > 2 ∧ more.head? = some "By" then
        some (some ⟨sx.ToUpper first, pathParams sx (more.drop 1)⟩)
      else
        some (some ⟨sx.ToUpper first,
          pathSep ++ sx.LowerFirst (String.mk (removeFirst first.data methodName.data))⟩)
    else some none

/-- The words of an identifier in which every word begins with its only capital. -/
def splitWords : List Char → List (List Char)
  | [] => []
  | c :: cs =>
    match splitWords cs with
    | [] => [[c]]
    | w :: ws =>
      if (w.head?.map Char.isUpper) = some true then [c] :: w :: ws
      else (c :: w) :: ws

/-- The helpers as they act on ASCII identifiers written in camel case. -/
def asciiStrings : Strings :=
  { Split := fun s => (splitWords s.data).map String.mk
    ToUpper := fun s => String.mk (s.data.map Char.toUpper)
    ToLower := fun s => String.mk (s.data.map Char.toLower)
    LowerFirst := Autoconfigure.lowerFirst }

end Web

namespace Autoconfigure

/-! ## factory.go: `Deps.Set` -/

/-- The first argument of `Deps.Set`, by the `reflect.Kind` of its value: a function,
with the name that `reflector.GetFuncName` gives it, a string, or anything else. -/
inductive DepKey where
  | func (name : String)
  | str (name : String)
  | other
deriving DecidableEq, Repr

/-- `Deps.Set(dep, value)`, lines 99-115: after `ensure`, the value is stored under the
name of the function or under the string; for another kind nothing is stored. -/
def Deps.Set (c : Deps) (dep : DepKey) (value : List String) : Deps :=
  match dep with
  | DepKey.func name => { deps := c.ensure.deps.map (fun m => mapSet m name value) }
  | DepKey.str name => { deps := c.ensure.deps.map (fun m => mapSet m name value) }
  | DepKey.other => c.ensure

end Autoconfigure

namespace Depends

/-! ## Vocabulary of the claims about the payload and the levels -/

/-- There is a chain of `k` dependency edges that starts at the name `a`: the longest
dependency chain of `a` has length `d` when `hasChain graph d a` holds and
`hasChain graph (d + 1) a` does not. -/
def hasChain (graph : Graph) : Nat → String → Prop
  | 0, _ => True
  | k + 1, a => ∃ n ∈ graph, n.name = a ∧ ∃ b ∈ n.deps, hasChain graph k b

/-- Two nodes called `c`, the first depending on `a`, and a node `a` that depends on
itself. -/
def dupTailGraph : Graph :=
  [NewNode 0 "c" ["a"], NewNode 1 "c" [], NewNode 2 "a" ["a"]]

/-- Two nodes called `a`, the first depending on `b`, and a node `b`. -/
def dupLevelGraph : Graph :=
  [NewNode 0 "a" ["b"], NewNode 1 "a" [], NewNode 2 "b" []]

end Depends

namespace Depends

/-! ## Lemmas on maps and sets -/

theorem mem_setAdd (s : List String) (x y : String) : y ∈ setAdd s x ↔ y ∈ s ∨ y = x := by
  unfold setAdd
  split
  · constructor
    · intro h; exact Or.inl h
    · rintro (h | h)
      · exact h
      · subst h; assumption
  · simp

theorem mem_foldl_setAdd (l s : List String) (y : String) :
    y ∈ l.foldl setAdd s ↔ y ∈ s ∨ y ∈ l := by
  induction l generalizing s with
  | nil => simp
  | cons x xs ih =>
    simp only [List.foldl_cons, ih, mem_setAdd, List.mem_cons]
    tauto

theorem mem_setDifference (s other : List String) (y : String) :
    y ∈ setDifference s other ↔ y ∈ s ∧ y ∉ other := by
  simp [setDifference]

theorem mem_readySet_aux (nd : List (String × List String)) (s : List String) (k : String) :
    k ∈ nd.foldl (fun s p => if p.2.length = 0 then setAdd s p.1 else s) s ↔
      k ∈ s ∨ (k, []) ∈ nd := by
  induction nd generalizing s with
  | nil => simp
  | cons p ps ih =>
    obtain ⟨a, ds⟩ := p
    simp only [List.foldl_cons, ih, List.mem_cons, Prod.mk.injEq]
    by_cases hds : ds.length = 0
    · have hnil : ds = [] := List.length_eq_zero.mp hds
      subst hnil
      simp only [List.length_nil, if_true, mem_setAdd]
      tauto
    · have hne : ¬ ([] : List String) = ds := fun h => hds (by rw [← h]; rfl)
      simp only [hds, if_false]
      tauto

theorem mem_readySet (nd : List (String × List String)) (k : String) :
    k ∈ readySet nd ↔ (k, []) ∈ nd := by
  unfold readySet
  rw [mem_readySet_aux]
  simp

theorem foldl_mapDelete {β : Type} (l : List String) (m : List (String × β)) :
    l.foldl mapDelete m = m.filter (fun p => decide (p.1 ∉ l)) := by
  induction l generalizing m with
  | nil => simp
  | cons x xs ih =>
    simp only [List.foldl_cons, ih, mapDelete, List.filter_filter]
    congr 1
    funext p
    simp only [List.mem_cons, not_or, ne_eq, Bool.decide_and]
    exact Bool.and_comm _ _

theorem removeReady_eq (it : IterOrder) (nd : List (String × List String)) :
    removeReady it nd =
      (nd.filter (fun p => decide (p.1 ∉ readySet nd))).map
        (fun p => (p.1, setDifference p.2 (readySet nd))) := by
  unfold removeReady
  rw [foldl_mapDelete]
  congr 1
  congr 1
  funext p
  have := (it.perm (readySet nd)).mem_iff (a := p.1)
  simp only [this]

theorem mapKeys_removeReady (it : IterOrder) (nd : List (String × List String)) :
    mapKeys (removeReady it nd) = (mapKeys nd).filter (fun k => decide (k ∉ readySet nd)) := by
  rw [removeReady_eq]
  simp only [mapKeys, List.map_map, List.filter_map]
  rfl

theorem mem_removeReady (it : IterOrder) (nd : List (String × List String))
    (k : String) (ds : List String) :
    (k, ds) ∈ removeReady it nd ↔
      ∃ ds0, (k, ds0) ∈ nd ∧ k ∉ readySet nd ∧ ds = setDifference ds0 (readySet nd) := by
  rw [removeReady_eq]
  simp only [List.mem_map, List.mem_filter, decide_eq_true_eq, Prod.mk.injEq, Prod.exists]
  constructor
  · rintro ⟨a, b, ⟨hmem, hnr⟩, rfl, rfl⟩
    exact ⟨b, hmem, hnr, rfl⟩
  · rintro ⟨ds0, hmem, hnr, rfl⟩
    exact ⟨k, ds0, ⟨hmem, hnr⟩, rfl, rfl⟩

theorem length_removeReady_lt (it : IterOrder) (nd : List (String × List String))
    (h : readySet nd ≠ []) : (removeReady it nd).length < nd.length := by
  rw [removeReady_eq, List.length_map]
  obtain ⟨k, hk⟩ := List.exists_mem_of_ne_nil _ h
  apply List.length_filter_lt_length_iff_exists.mpr
  refine ⟨(k, []), (mem_readySet nd k).mp hk, ?_⟩
  simpa using hk

/-- Induction principle for the main loop: a state predicate `P` kept by every iteration
that goes on, and a result predicate `Q` that follows from `P` at both exits, give a
result satisfying `Q` as soon as the fuel covers the number of remaining keys. -/
theorem resolveLoop_induct (it : IterOrder) (nodeNames : List (String × Node))
    (P : List (String × List String) → List (Option Node) → Prop)
    (Q : List (Option Node) × Option DepError → Prop)
    (hstep : ∀ nd rs, P nd rs → nd ≠ [] → readySet nd ≠ [] →
      P (removeReady it nd) (rs ++ (it.order (readySet nd)).map (mapGet? nodeNames)))
    (hdone : ∀ rs, P [] rs → Q (rs, none))
    (hfail : ∀ nd rs, P nd rs → nd ≠ [] → readySet nd = [] →
      Q ((it.order (mapKeys nd)).map (mapGet? nodeNames),
        some DepError.ErrCircularDependency)) :
    ∀ fuel nd rs, nd.length ≤ fuel → P nd rs →
      ∃ r, resolveLoop it nodeNames fuel nd rs = some r ∧ Q r := by
  intro fuel
  induction fuel with
  | zero =>
    intro nd rs hlen hP
    have hnil : nd = [] := List.length_eq_zero.mp (Nat.le_zero.mp hlen)
    subst hnil
    exact ⟨(rs, none), by simp [resolveLoop], hdone rs hP⟩
  | succ fuel ih =>
    intro nd rs hlen hP
    by_cases hnd : nd = []
    · subst hnd
      exact ⟨(rs, none), by simp [resolveLoop], hdone rs hP⟩
    · have hl : ¬ nd.length = 0 := fun h => hnd (List.length_eq_zero.mp h)
      by_cases hr : readySet nd = []
      · refine ⟨_, ?_, hfail nd rs hP hnd hr⟩
        simp [resolveLoop, hl, hr]
      · have hrl : ¬ (readySet nd).length = 0 := fun h => hr (List.length_eq_zero.mp h)
        have hlt := length_removeReady_lt it nd hr
        obtain ⟨r, hr1, hr2⟩ := ih (removeReady it nd) _ (by omega) (hstep nd rs hP hnd hr)
        refine ⟨r, ?_, hr2⟩
        rw [resolveLoop]
        simp only [hl, hrl, if_false]
        exact hr1

/-! ## The maps built by `populate` -/

theorem mapSet_fresh {β : Type} (m : List (String × β)) (k : String) (v : β)
    (h : k ∉ mapKeys m) : mapSet m k v = m ++ [(k, v)] := by
  induction m with
  | nil => rfl
  | cons p ps ih =>
    obtain ⟨a, b⟩ := p
    simp only [mapKeys, List.map_cons, List.mem_cons, not_or] at h
    have hne : ¬ a = k := fun e => h.1 e.symm
    simp only [mapSet, hne, if_false, List.cons_append]
    rw [ih h.2]

theorem populate_aux (graph : Graph) (a : List (String × Node))
    (b : List (String × List String))
    (ha : ∀ n ∈ graph, n.name ∉ mapKeys a) (hb : ∀ n ∈ graph, n.name ∉ mapKeys b)
    (hd : namesDistinct graph) :
    graph.foldl populateStep (a, b) =
      (a ++ graph.map (fun n => (n.name, n)),
        b ++ graph.map (fun n => (n.name, n.deps.foldl setAdd []))) := by
  induction graph generalizing a b with
  | nil => simp
  | cons g gs ih =>
    have hd2 : (g.name ∉ gs.map Node.name) ∧ namesDistinct gs := by
      simpa [namesDistinct] using hd
    simp only [List.foldl_cons, populateStep]
    rw [mapSet_fresh a _ _ (ha g (List.mem_cons_self _ _)),
      mapSet_fresh b _ _ (hb g (List.mem_cons_self _ _))]
    rw [ih _ _ _ _ hd2.2]
    · simp
    · intro n hn
      simp only [mapKeys, List.map_append, List.map_cons, List.map_nil, List.mem_append,
        List.mem_singleton, not_or]
      refine ⟨ha n (List.mem_cons_of_mem _ hn), ?_⟩
      intro e
      exact hd2.1 (by rw [← e]; exact List.mem_map_of_mem _ hn)
    · intro n hn
      simp only [mapKeys, List.map_append, List.map_cons, List.map_nil, List.mem_append,
        List.mem_singleton, not_or]
      refine ⟨hb n (List.mem_cons_of_mem _ hn), ?_⟩
      intro e
      exact hd2.1 (by rw [← e]; exact List.mem_map_of_mem _ hn)

theorem populate_eq (graph : Graph) (hd : namesDistinct graph) :
    populate graph =
      (graph.map (fun n => (n.name, n)),
        graph.map (fun n => (n.name, n.deps.foldl setAdd []))) := by
  unfold populate
  rw [populate_aux graph [] [] (by simp [mapKeys]) (by simp [mapKeys]) hd]
  simp

theorem name_inj (graph : Graph) (hd : namesDistinct graph) (n m : Node)
    (hn : n ∈ graph) (hm : m ∈ graph) (h : n.name = m.name) : n = m :=
  List.inj_on_of_nodup_map hd hn hm h

theorem mapGet?_nodeNames (graph : Graph) (hd : namesDistinct graph) (n : Node)
    (hn : n ∈ graph) : mapGet? (graph.map (fun n => (n.name, n))) n.name = some n := by
  induction graph with
  | nil => simp at hn
  | cons g gs ih =>
    have hd2 : (g.name ∉ gs.map Node.name) ∧ namesDistinct gs := by
      simpa [namesDistinct] using hd
    simp only [List.map_cons, mapGet?]
    rcases List.mem_cons.mp hn with rfl | hmem
    · simp
    · have hne : ¬ g.name = n.name := fun e =>
        hd2.1 (by rw [e]; exact List.mem_map_of_mem _ hmem)
      simp only [hne, if_false]
      exact ih hd2.2 hmem

/-- Looking up a list of node names in `nodeNames` yields those nodes, never nil. -/
theorem map_lookup (graph : Graph) (hd : namesDistinct graph) (l : List String)
    (h : ∀ k ∈ l, ∃ n ∈ graph, n.name = k) :
    ∃ ns : List Node, l.map (mapGet? (graph.map (fun n => (n.name, n)))) = ns.map some ∧
      ns.map Node.name = l ∧ ∀ n ∈ ns, n ∈ graph := by
  induction l with
  | nil => exact ⟨[], rfl, rfl, by simp⟩
  | cons k ks ih =>
    obtain ⟨ns, h1, h2, h3⟩ := ih (fun k hk => h k (List.mem_cons_of_mem _ hk))
    obtain ⟨n, hn, rfl⟩ := h k (List.mem_cons_self _ _)
    refine ⟨n :: ns, ?_, ?_, ?_⟩
    · simp only [List.map_cons, h1, mapGet?_nodeNames graph hd n hn]
    · simp [h2]
    · intro m hm
      rcases List.mem_cons.mp hm with rfl | hm
      · exact hn
      · exact h3 m hm

theorem nodup_setAdd (s : List String) (x : String) (h : s.Nodup) : (setAdd s x).Nodup := by
  unfold setAdd
  split
  · exact h
  · rename_i hx
    exact List.Nodup.append h (List.nodup_singleton x) (by simpa using hx)

theorem nodup_readySet (nd : List (String × List String)) : (readySet nd).Nodup := by
  unfold readySet
  suffices h : ∀ s : List String, s.Nodup →
      (nd.foldl (fun s p => if p.2.length = 0 then setAdd s p.1 else s) s).Nodup from
    h [] List.nodup_nil
  induction nd with
  | nil => intro s hs; exact hs
  | cons p ps ih =>
    intro s hs
    simp only [List.foldl_cons]
    apply ih
    split
    · exact nodup_setAdd s _ hs
    · exact hs

/-! ## The loop invariant -/

theorem mem_mapKeys {β : Type} (m : List (String × β)) (k : String) :
    k ∈ mapKeys m ↔ ∃ v, (k, v) ∈ m := by
  simp [mapKeys]

theorem readySet_subset_keys (nd : List (String × List String)) (k : String)
    (h : k ∈ readySet nd) : k ∈ mapKeys nd :=
  (mem_mapKeys nd k).mpr ⟨[], (mem_readySet nd k).mp h⟩

theorem loopInv_init (graph : Graph) (hd : namesDistinct graph) :
    LoopInv graph (populate graph).2 [] := by
  rw [populate_eq graph hd]
  have hk : mapKeys (graph.map (fun n => (n.name, n.deps.foldl setAdd []))) =
      graph.map Node.name := by
    simp [mapKeys, Function.comp_def]
  refine ⟨List.nodup_nil, ?_, ?_, ?_, ?_, ?_, ?_⟩
  · rw [hk]; exact hd
  · simp
  · intro k; rw [hk]; simp
  · simp
  · intro k ds hmem
    simp only [List.mem_map, Prod.mk.injEq] at hmem
    obtain ⟨n, hn, rfl, rfl⟩ := hmem
    refine ⟨n, hn, rfl, ?_⟩
    intro d
    simp [mem_foldl_setAdd]
  · intro pre n post h
    simp at h

theorem loopInv_step (it : IterOrder) (graph : Graph) (hd : namesDistinct graph)
    (nd : List (String × List String)) (rs : List Node) (h : LoopInv graph nd rs) :
    ∃ ns : List Node,
      (it.order (readySet nd)).map (mapGet? (graph.map (fun n => (n.name, n)))) =
        ns.map some ∧
      ns.map Node.name = it.order (readySet nd) ∧
      LoopInv graph (removeReady it nd) (rs ++ ns) := by
  have hperm := it.perm (readySet nd)
  have hsubK : ∀ k, k ∈ it.order (readySet nd) → k ∈ mapKeys nd := fun k hk =>
    readySet_subset_keys nd k (hperm.mem_iff.mp hk)
  obtain ⟨ns, h1, h2, h3⟩ := map_lookup graph hd (it.order (readySet nd)) (by
    intro k hk
    have := (h.cover k).mpr (Or.inr (hsubK k hk))
    simpa using this)
  refine ⟨ns, h1, h2, ?_⟩
  have hnames : (rs ++ ns).map Node.name = rs.map Node.name ++ it.order (readySet nd) := by
    rw [List.map_append, h2]
  have hmemO : ∀ k, k ∈ it.order (readySet nd) ↔ k ∈ readySet nd := fun k => hperm.mem_iff
  refine ⟨?_, ?_, ?_, ?_, ?_, ?_, ?_⟩
  · rw [hnames]
    refine List.Nodup.append h.nodupR (hperm.nodup_iff.mpr (nodup_readySet nd)) ?_
    intro k hk1 hk2
    exact h.disj k hk1 (hsubK k hk2)
  · rw [mapKeys_removeReady]
    exact h.nodupK.filter _
  · intro k hk
    rw [mapKeys_removeReady]
    rw [hnames, List.mem_append] at hk
    simp only [List.mem_filter, decide_eq_true_eq, not_and, not_not]
    rcases hk with hk | hk
    · intro hk2; exact absurd hk2 (h.disj k hk)
    · intro _; exact (hmemO k).mp hk
  · intro k
    rw [hnames, mapKeys_removeReady, h.cover k]
    simp only [List.mem_append, List.mem_filter, decide_eq_true_eq, hmemO]
    constructor
    · rintro (hk | hk)
      · exact Or.inl (Or.inl hk)
      · by_cases hr : k ∈ readySet nd
        · exact Or.inl (Or.inr hr)
        · exact Or.inr ⟨hk, hr⟩
    · rintro ((hk | hk) | hk)
      · exact Or.inl hk
      · exact Or.inr (readySet_subset_keys nd k hk)
      · exact Or.inr hk.1
  · intro r hr
    rcases List.mem_append.mp hr with hr | hr
    · exact h.sub r hr
    · exact h3 r hr
  · intro k ds hmem
    obtain ⟨ds0, hm0, _, rfl⟩ := (mem_removeReady it nd k ds).mp hmem
    obtain ⟨n, hn, hname, hdeps⟩ := h.deps k ds0 hm0
    refine ⟨n, hn, hname, ?_⟩
    intro d
    rw [mem_setDifference, hdeps d, hnames, List.mem_append, hmemO]
    tauto
  · intro pre n post heq d hdn
    rcases List.append_eq_append_iff.mp heq with ⟨a, hpre, hns⟩ | ⟨c, hrs, hc⟩
    · -- `n` is one of the nodes just appended
      have hnns : n ∈ ns := by rw [hns]; simp
      have hready : n.name ∈ readySet nd := by
        rw [← hmemO, ← h2]
        exact List.mem_map_of_mem _ hnns
      obtain ⟨m, hm, hmn, hdeps⟩ := h.deps n.name [] ((mem_readySet nd _).mp hready)
      have hmeq : m = n := name_inj graph hd m n hm (h3 n hnns) hmn
      subst hmeq
      have hd' : d ∈ rs.map Node.name := by
        by_contra hcon
        have := (hdeps d).mpr ⟨hdn, hcon⟩
        simp at this
      rw [hpre, List.map_append]
      exact List.mem_append_left _ hd'
    · cases c with
      | nil =>
        simp only [List.nil_append] at hc
        simp only [List.append_nil] at hrs
        have hnns : n ∈ ns := by rw [← hc]; simp
        have hready : n.name ∈ readySet nd := by
          rw [← hmemO, ← h2]
          exact List.mem_map_of_mem _ hnns
        obtain ⟨m, hm, hmn, hdeps⟩ := h.deps n.name [] ((mem_readySet nd _).mp hready)
        have hmeq : m = n := name_inj graph hd m n hm (h3 n hnns) hmn
        subst hmeq
        have hd' : d ∈ rs.map Node.name := by
          by_contra hcon
          have := (hdeps d).mpr ⟨hdn, hcon⟩
          simp at this
        rw [← hrs]
        exact hd'
      | cons c0 cs =>
        simp only [List.cons_append, List.cons.injEq] at hc
        obtain ⟨rfl, _⟩ := hc
        exact h.topo pre n cs hrs d hdn

/-! ## A finite set of names without a sink holds a cycle -/

theorem exists_cycle_of_no_sink (R : String → String → Prop) (S : List String)
    (hne : S ≠ []) (hsucc : ∀ a ∈ S, ∃ b ∈ S, R a b) :
    ∃ a ∈ S, Relation.TransGen R a a := by
  by_contra hcon
  have hirr : ∀ a ∈ S, ¬ Relation.TransGen R a a := fun a ha hc => hcon ⟨a, ha, hc⟩
  let T := {a : String // a ∈ S.toFinset}
  let r : T → T → Prop := fun x y => Relation.TransGen R y.1 x.1
  haveI : IsTrans T r := ⟨fun _ _ _ hab hbc => Relation.TransGen.trans hbc hab⟩
  haveI : IsIrrefl T r := ⟨fun a ha => hirr a.1 (List.mem_toFinset.mp a.2) ha⟩
  have hwf : WellFounded r := Finite.wellFounded_of_trans_of_irrefl r
  obtain ⟨a0, ha0⟩ := List.exists_mem_of_ne_nil S hne
  obtain ⟨m, _, hmin⟩ := hwf.has_min Set.univ ⟨⟨a0, List.mem_toFinset.mpr ha0⟩, trivial⟩
  obtain ⟨b, hb, hRb⟩ := hsucc m.1 (List.mem_toFinset.mp m.2)
  exact hmin ⟨b, List.mem_toFinset.mpr hb⟩ trivial (Relation.TransGen.single hRb)

/-- In an acyclic graph whose dependencies all name nodes, a non-empty
`nodeDependencies` map always has a ready name. -/
theorem readySet_ne_nil (graph : Graph) (hc : depsClosed graph) (ha : acyclic graph)
    (nd : List (String × List String)) (rs : List Node) (h : LoopInv graph nd rs)
    (hnd : nd ≠ []) : readySet nd ≠ [] := by
  intro hr
  have hkeys : mapKeys nd ≠ [] := by
    intro hk
    exact hnd (List.map_eq_nil_iff.mp hk)
  obtain ⟨a, _, hcyc⟩ := exists_cycle_of_no_sink (dependsOn graph) (mapKeys nd) hkeys (by
    intro a hak
    obtain ⟨ds, hmem⟩ := (mem_mapKeys nd a).mp hak
    obtain ⟨n, hn, hname, hdeps⟩ := h.deps a ds hmem
    have hds : ds ≠ [] := by
      intro e
      subst e
      have : a ∈ readySet nd := (mem_readySet nd a).mpr hmem
      rw [hr] at this
      simp at this
    obtain ⟨d, hd⟩ := List.exists_mem_of_ne_nil ds hds
    obtain ⟨hdn, hdr⟩ := (hdeps d).mp hd
    obtain ⟨m, hm, hmd⟩ := hc n hn d hdn
    have hcov := (h.cover d).mp (by rw [← hmd]; exact List.mem_map_of_mem _ hm)
    rcases hcov with hcov | hcov
    · exact absurd hcov hdr
    · exact ⟨d, hcov, n, hn, hname, hdn⟩)
  exact ha a hcyc

/-- A sequence of graph nodes whose names are exactly the graph's names, once each, is a
permutation of the graph. -/
theorem perm_of_loopInv_nil (graph : Graph) (hd : namesDistinct graph) (rs : List Node)
    (h : LoopInv graph [] rs) : rs.Perm graph := by
  have hnodup_rs : rs.Nodup := List.Nodup.of_map _ h.nodupR
  have hnodup_g : graph.Nodup := List.Nodup.of_map _ hd
  refine (List.perm_ext_iff_of_nodup hnodup_rs hnodup_g).mpr ?_
  intro g
  constructor
  · exact h.sub g
  · intro hg
    have := (h.cover g.name).mp (List.mem_map_of_mem _ hg)
    rcases this with hr | hk
    · obtain ⟨r, hr1, hr2⟩ := List.mem_map.mp hr
      have : r = g := name_inj graph hd r g (h.sub r hr1) hg hr2
      rw [← this]
      exact hr1
    · simp [mapKeys] at hk

/-- On an acyclic graph with distinct names and no dangling dependency, `resolveGraph`
returns without error a sequence of non-nil nodes that is a permutation of the graph
and in which dependencies come first. -/
theorem resolveGraph_acyclic (it : IterOrder) (graph : Graph) (hd : namesDistinct graph)
    (hc : depsClosed graph) (ha : acyclic graph) :
    ∃ rs : List Node, resolveGraph it graph = some (rs.map some, none) ∧
      rs.Perm graph ∧ depsPrecede rs := by
  have hnn : (populate graph).1 = graph.map (fun n => (n.name, n)) := by
    rw [populate_eq graph hd]
  have key := resolveLoop_induct it (populate graph).1
    (fun nd resolved => ∃ rs, resolved = rs.map some ∧ LoopInv graph nd rs)
    (fun r => ∃ rs : List Node, r = (rs.map some, none) ∧ rs.Perm graph ∧ depsPrecede rs)
    (by
      rintro nd resolved ⟨rs, rfl, hinv⟩ _ _
      rw [hnn]
      obtain ⟨ns, h1, _, h3⟩ := loopInv_step it graph hd nd rs hinv
      exact ⟨rs ++ ns, by rw [h1, List.map_append], h3⟩)
    (by
      rintro resolved ⟨rs, rfl, hinv⟩
      refine ⟨rs, rfl, perm_of_loopInv_nil graph hd rs hinv, ?_⟩
      intro pre n post heq d hdn
      exact List.mem_map.mp (hinv.topo pre n post heq d hdn))
    (by
      rintro nd resolved ⟨rs, rfl, hinv⟩ hnd hr
      exact absurd hr (readySet_ne_nil graph hc ha nd rs hinv hnd))
    (populate graph).2.length (populate graph).2 [] le_rfl
    ⟨[], rfl, loopInv_init graph hd⟩
  obtain ⟨r, hr1, rs, rfl, hr2⟩ := key
  exact ⟨rs, hr1, hr2⟩

/-! ## Names that can never become ready -/

/-- A set `B` of names is blocked when each of its names is a node with a dependency that
is dangling or again in `B`.  Blocked names stay in `nodeDependencies` for ever. -/
theorem blocked_persist (it : IterOrder) (graph : Graph) (hd : namesDistinct graph)
    (B : String → Prop)
    (hB : ∀ b, B b → ∃ n ∈ graph, n.name = b ∧ ∃ d ∈ n.deps, dangling graph d ∨ B d)
    (nd : List (String × List String)) (rs : List Node) (hinv : LoopInv graph nd rs)
    (hkeys : ∀ b, B b → b ∈ mapKeys nd) :
    ∀ b, B b → b ∈ mapKeys (removeReady it nd) := by
  intro b hb
  rw [mapKeys_removeReady]
  simp only [List.mem_filter, decide_eq_true_eq]
  refine ⟨hkeys b hb, ?_⟩
  intro hready
  obtain ⟨n, hn, hname, d, hdn, hd2⟩ := hB b hb
  obtain ⟨m, hm, hmn, hdeps⟩ := hinv.deps b [] ((mem_readySet nd b).mp hready)
  have hmeq : m = n := name_inj graph hd m n hm hn (by rw [hmn, hname])
  subst hmeq
  have hdr : d ∈ rs.map Node.name := by
    by_contra hcon
    have := (hdeps d).mpr ⟨hdn, hcon⟩
    simp at this
  rcases hd2 with hdang | hBd
  · obtain ⟨r, hr1, hr2⟩ := List.mem_map.mp hdr
    exact hdang r (hinv.sub r hr1) hr2
  · exact hinv.disj d hdr (hkeys d hBd)

/-- With a non-empty blocked set, `resolveGraph` returns `ErrCircularDependency`, and the
payload consists of nodes of the graph, including every blocked one. -/
theorem resolveGraph_blocked (it : IterOrder) (graph : Graph) (hd : namesDistinct graph)
    (B : String → Prop)
    (hB : ∀ b, B b → ∃ n ∈ graph, n.name = b ∧ ∃ d ∈ n.deps, dangling graph d ∨ B d)
    (hex : ∃ b, B b) :
    ∃ ps : List Node,
      resolveGraph it graph = some (ps.map some, some DepError.ErrCircularDependency) ∧
      (∀ p ∈ ps, p ∈ graph) ∧ (∀ n ∈ graph, B n.name → n ∈ ps) := by
  have hnn : (populate graph).1 = graph.map (fun n => (n.name, n)) := by
    rw [populate_eq graph hd]
  have key := resolveLoop_induct it (populate graph).1
    (fun nd resolved => ∃ rs, resolved = rs.map some ∧ LoopInv graph nd rs ∧
      ∀ b, B b → b ∈ mapKeys nd)
    (fun r => ∃ ps : List Node, r = (ps.map some, some DepError.ErrCircularDependency) ∧
      (∀ p ∈ ps, p ∈ graph) ∧ (∀ n ∈ graph, B n.name → n ∈ ps))
    (by
      rintro nd resolved ⟨rs, rfl, hinv, hkeys⟩ _ _
      rw [hnn]
      obtain ⟨ns, h1, _, h3⟩ := loopInv_step it graph hd nd rs hinv
      exact ⟨rs ++ ns, by rw [h1, List.map_append], h3,
        blocked_persist it graph hd B hB nd rs hinv hkeys⟩)
    (by
      rintro resolved ⟨rs, rfl, _, hkeys⟩
      obtain ⟨b, hb⟩ := hex
      have := hkeys b hb
      simp [mapKeys] at this)
    (by
      rintro nd resolved ⟨rs, rfl, hinv, hkeys⟩ _ _
      rw [hnn]
      have hperm := it.perm (mapKeys nd)
      obtain ⟨ps, h1, h2, h3⟩ := map_lookup graph hd (it.order (mapKeys nd)) (by
        intro k hk
        have := (hinv.cover k).mpr (Or.inr (hperm.mem_iff.mp hk))
        simpa using this)
      refine ⟨ps, by rw [h1], h3, ?_⟩
      intro n hn hBn
      have hmem : n.name ∈ ps.map Node.name := by
        rw [h2]
        exact hperm.mem_iff.mpr (hkeys _ hBn)
      obtain ⟨p, hp1, hp2⟩ := List.mem_map.mp hmem
      have : p = n := name_inj graph hd p n (h3 p hp1) hn hp2
      rw [← this]
      exact hp1)
    (populate graph).2.length (populate graph).2 [] le_rfl
    ⟨[], rfl, loopInv_init graph hd, by
      intro b hb
      obtain ⟨n, hn, hname, _⟩ := hB b hb
      rw [populate_eq graph hd]
      simp only [mapKeys, List.map_map, List.mem_map, Function.comp_apply]
      exact ⟨n, hn, hname⟩⟩
  obtain ⟨r, hr1, ps, rfl, hr2⟩ := key
  exact ⟨ps, hr1, hr2⟩

/-- The names on a cycle form a blocked set. -/
theorem onCycle_blocked (graph : Graph) (b : String) (h : onCycle graph b) :
    ∃ n ∈ graph, n.name = b ∧ ∃ d ∈ n.deps, dangling graph d ∨ onCycle graph d := by
  obtain ⟨c, hbc, hcb⟩ := Relation.TransGen.head'_iff.mp h
  obtain ⟨n, hn, hname, hc⟩ := hbc
  exact ⟨n, hn, hname, c, hc, Or.inr (Relation.TransGen.tail' hcb ⟨n, hn, hname, hc⟩)⟩

/-- The stuck names form a blocked set. -/
theorem stuck_blocked (graph : Graph) (b : String) (h : stuck graph b) :
    ∃ n ∈ graph, n.name = b ∧ ∃ d ∈ n.deps, dangling graph d ∨ stuck graph d := by
  obtain ⟨c, hbc, hc⟩ := h
  rcases Relation.ReflTransGen.cases_head hbc with rfl | ⟨b', hbb', hb'c⟩
  · rcases hc with hcyc | ⟨d, ⟨n, hn, hname, hd⟩, hdang⟩
    · obtain ⟨n, hn, hname, d, hd, hd2⟩ := onCycle_blocked graph b hcyc
      refine ⟨n, hn, hname, d, hd, ?_⟩
      rcases hd2 with hd2 | hd2
      · exact Or.inl hd2
      · exact Or.inr ⟨d, Relation.ReflTransGen.refl, Or.inl hd2⟩
    · exact ⟨n, hn, hname, d, hd, Or.inl hdang⟩
  · obtain ⟨n, hn, hname, hd⟩ := hbb'
    exact ⟨n, hn, hname, b', hd, Or.inr ⟨c, hb'c, hc⟩⟩

/-- When no name is ready, every name left in `nodeDependencies` is stuck. -/
theorem stuck_of_no_ready (graph : Graph) (nd : List (String × List String))
    (rs : List Node) (h : LoopInv graph nd rs) (hr : readySet nd = []) :
    ∀ k ∈ mapKeys nd, stuck graph k := by
  intro k hk
  by_contra hns
  haveI : DecidablePred (fun b => Relation.ReflTransGen (dependsOn graph) k b) :=
    Classical.decPred _
  have hmemS : ∀ b, b ∈ (mapKeys nd).filter
      (fun b => decide (Relation.ReflTransGen (dependsOn graph) k b)) ↔
      b ∈ mapKeys nd ∧ Relation.ReflTransGen (dependsOn graph) k b := by
    intro b
    simp [List.mem_filter]
  have hne : (mapKeys nd).filter
      (fun b => decide (Relation.ReflTransGen (dependsOn graph) k b)) ≠ [] := by
    intro e
    have : k ∈ (mapKeys nd).filter
        (fun b => decide (Relation.ReflTransGen (dependsOn graph) k b)) :=
      (hmemS k).mpr ⟨hk, Relation.ReflTransGen.refl⟩
    rw [e] at this
    simp at this
  obtain ⟨a, ha, hcyc⟩ := exists_cycle_of_no_sink (dependsOn graph) _ hne (by
    intro b hb
    obtain ⟨hbk, hreach⟩ := (hmemS b).mp hb
    obtain ⟨ds, hmem⟩ := (mem_mapKeys nd b).mp hbk
    obtain ⟨n, hn, hname, hdeps⟩ := h.deps b ds hmem
    have hds : ds ≠ [] := by
      intro e
      subst e
      have : b ∈ readySet nd := (mem_readySet nd b).mpr hmem
      rw [hr] at this
      simp at this
    obtain ⟨d, hd⟩ := List.exists_mem_of_ne_nil ds hds
    obtain ⟨hdn, hdr⟩ := (hdeps d).mp hd
    have hedge : dependsOn graph b d := ⟨n, hn, hname, hdn⟩
    by_cases hdang : dangling graph d
    · exact absurd ⟨b, hreach, Or.inr ⟨d, hedge, hdang⟩⟩ hns
    · have hex : ∃ m ∈ graph, m.name = d := by
        unfold dangling at hdang
        push_neg at hdang
        exact hdang
      obtain ⟨m, hm, hmd⟩ := hex
      have hcov := (h.cover d).mp (by rw [← hmd]; exact List.mem_map_of_mem _ hm)
      rcases hcov with hcov | hcov
      · exact absurd hcov hdr
      · exact ⟨d, (hmemS d).mpr ⟨hcov, Relation.ReflTransGen.tail hreach hedge⟩, hedge⟩)
  exact hns ⟨a, ((hmemS a).mp ha).2, Or.inl hcyc⟩

/-- When some name is stuck, `resolveGraph` returns `ErrCircularDependency`, and the
payload is exactly the nodes of the graph with a stuck name. -/
theorem resolveGraph_stuck (it : IterOrder) (graph : Graph) (hd : namesDistinct graph)
    (hex : ∃ b, stuck graph b) :
    ∃ ps : List Node,
      resolveGraph it graph = some (ps.map some, some DepError.ErrCircularDependency) ∧
      ∀ n, n ∈ ps ↔ n ∈ graph ∧ stuck graph n.name := by
  have hnn : (populate graph).1 = graph.map (fun n => (n.name, n)) := by
    rw [populate_eq graph hd]
  have key := resolveLoop_induct it (populate graph).1
    (fun nd resolved => ∃ rs, resolved = rs.map some ∧ LoopInv graph nd rs ∧
      ∀ b, stuck graph b → b ∈ mapKeys nd)
    (fun r => ∃ ps : List Node, r = (ps.map some, some DepError.ErrCircularDependency) ∧
      ∀ n, n ∈ ps ↔ n ∈ graph ∧ stuck graph n.name)
    (by
      rintro nd resolved ⟨rs, rfl, hinv, hkeys⟩ _ _
      rw [hnn]
      obtain ⟨ns, h1, _, h3⟩ := loopInv_step it graph hd nd rs hinv
      exact ⟨rs ++ ns, by rw [h1, List.map_append], h3,
        blocked_persist it graph hd (stuck graph) (stuck_blocked graph) nd rs hinv hkeys⟩)
    (by
      rintro resolved ⟨rs, rfl, _, hkeys⟩
      obtain ⟨b, hb⟩ := hex
      have := hkeys b hb
      simp [mapKeys] at this)
    (by
      rintro nd resolved ⟨rs, rfl, hinv, hkeys⟩ _ hr
      rw [hnn]
      have hperm := it.perm (mapKeys nd)
      obtain ⟨ps, h1, h2, h3⟩ := map_lookup graph hd (it.order (mapKeys nd)) (by
        intro k hk
        have := (hinv.cover k).mpr (Or.inr (hperm.mem_iff.mp hk))
        simpa using this)
      refine ⟨ps, by rw [h1], ?_⟩
      intro n
      constructor
      · intro hn
        refine ⟨h3 n hn, stuck_of_no_ready graph nd rs hinv hr n.name ?_⟩
        apply hperm.mem_iff.mp
        rw [← h2]
        exact List.mem_map_of_mem _ hn
      · rintro ⟨hn, hst⟩
        have hmem : n.name ∈ ps.map Node.name := by
          rw [h2]
          exact hperm.mem_iff.mpr (hkeys _ hst)
        obtain ⟨q, hq1, hq2⟩ := List.mem_map.mp hmem
        have : q = n := name_inj graph hd q n (h3 q hq1) hn hq2
        rw [← this]
        exact hq1)
    (populate graph).2.length (populate graph).2 [] le_rfl
    ⟨[], rfl, loopInv_init graph hd, by
      intro b hb
      obtain ⟨n, hn, hname, _⟩ := stuck_blocked graph b hb
      rw [populate_eq graph hd]
      simp only [mapKeys, List.map_map, List.mem_map, Function.comp_apply]
      exact ⟨n, hn, hname⟩⟩
  obtain ⟨r, hr1, ps, rfl, hr2⟩ := key
  exact ⟨ps, hr1, hr2⟩

/-- A rank that every dependency edge decreases rules out cycles. -/
theorem acyclic_of_rank (graph : Graph) (rank : String → Nat)
    (h : ∀ n ∈ graph, ∀ d ∈ n.deps, rank d < rank n.name) : acyclic graph := by
  have hlt : ∀ a b, Relation.TransGen (dependsOn graph) a b → rank b < rank a := by
    intro a b hab
    induction hab with
    | single e =>
      obtain ⟨n, hn, rfl, hd⟩ := e
      exact h n hn _ hd
    | tail _ e ih =>
      obtain ⟨n, hn, rfl, hd⟩ := e
      exact lt_trans (h n hn _ hd) ih
  intro a ha
  exact lt_irrefl _ (hlt a a ha)

/-- The last edge of a dependency path ends in a declared dependency. -/
theorem target_is_dep (graph : Graph) (a b : String)
    (h : Relation.TransGen (dependsOn graph) a b) : ∃ n ∈ graph, b ∈ n.deps := by
  cases h with
  | single e =>
    obtain ⟨n, hn, _, hd⟩ := e
    exact ⟨n, hn, hd⟩
  | tail _ e =>
    obtain ⟨n, hn, _, hd⟩ := e
    exact ⟨n, hn, hd⟩

theorem chainGraph_acyclic : acyclic chainGraph :=
  acyclic_of_rank chainGraph sampleRank (by decide)

theorem diamondGraph_acyclic : acyclic diamondGraph :=
  acyclic_of_rank diamondGraph sampleRank (by decide)

/-! ## Claims about `resolveGraph` -/

/-- C1: for every graph whose node names are pairwise distinct, whose dependency names
all name nodes of the graph and which has no dependency cycle, `resolveGraph` returns no
error and a sequence (of non-nil nodes) in which every node of the graph appears, after
all the nodes it depends on, whatever the iteration order of the Go maps; the sequence
holds nodes of the graph only, each after the nodes it depends on. -/
theorem resolveGraph_topological (it : IterOrder) (graph : Graph)
    (hd : namesDistinct graph) (hc : depsClosed graph) (ha : acyclic graph) :
    ∃ rs : List Node, resolveGraph it graph = some (rs.map some, none) ∧
      (∀ n ∈ graph, ∃ pre post, rs = pre ++ n :: post ∧
        ∀ d ∈ n.deps, ∃ m ∈ pre, m ∈ graph ∧ m.name = d) ∧
      (∀ n ∈ rs, n ∈ graph) ∧ depsPrecede rs := by
  obtain ⟨rs, h1, h2, h3⟩ := resolveGraph_acyclic it graph hd hc ha
  refine ⟨rs, h1, ?_, fun n hn => h2.mem_iff.mp hn, h3⟩
  intro n hn
  obtain ⟨pre, post, heq⟩ := List.append_of_mem (h2.mem_iff.mpr hn)
  refine ⟨pre, post, heq, ?_⟩
  intro d hdn
  obtain ⟨m, hm, hname⟩ := h3 pre n post heq d hdn
  refine ⟨m, hm, h2.mem_iff.mp ?_, hname⟩
  rw [heq]
  exact List.mem_append_left _ hm

theorem resolveGraph_topological_witness :
    namesDistinct chainGraph ∧ depsClosed chainGraph ∧ acyclic chainGraph ∧
      ∃ rs : List Node,
        resolveGraph IterOrder.reversed chainGraph = some (rs.map some, none) ∧
          (∀ n ∈ chainGraph, ∃ pre post, rs = pre ++ n :: post ∧
            ∀ d ∈ n.deps, ∃ m ∈ pre, m ∈ chainGraph ∧ m.name = d) ∧
          (∀ n ∈ rs, n ∈ chainGraph) ∧ depsPrecede rs :=
  ⟨by decide, by decide, chainGraph_acyclic,
    resolveGraph_topological IterOrder.reversed chainGraph (by decide) (by decide)
      chainGraph_acyclic⟩

/-- C2: for every acyclic graph with pairwise distinct node names, all dependencies
naming nodes of the graph, the sequence returned by `resolveGraph` is a permutation of
the input graph: every input node exactly once and no other node. -/
theorem resolveGraph_permutation (it : IterOrder) (graph : Graph)
    (hd : namesDistinct graph) (hc : depsClosed graph) (ha : acyclic graph) :
    ∃ rs : List Node, resolveGraph it graph = some (rs.map some, none) ∧ rs.Perm graph := by
  obtain ⟨rs, h1, h2, _⟩ := resolveGraph_acyclic it graph hd hc ha
  exact ⟨rs, h1, h2⟩

theorem resolveGraph_permutation_witness :
    namesDistinct diamondGraph ∧ depsClosed diamondGraph ∧ acyclic diamondGraph ∧
      ∃ rs : List Node,
        resolveGraph IterOrder.canonical diamondGraph = some (rs.map some, none) ∧
          rs.Perm diamondGraph :=
  ⟨by decide, by decide, diamondGraph_acyclic,
    resolveGraph_permutation IterOrder.canonical diamondGraph (by decide) (by decide)
      diamondGraph_acyclic⟩

theorem order_singleton (it : IterOrder) (k : String) : it.order [k] = [k] :=
  List.perm_singleton.mp (it.perm [k])

/-- C3, as stated, fails: in `dupCycleGraph` the first node depends on itself, but the
second node has the same name and no dependency; it overwrites the first one in both
maps, and `resolveGraph` returns it as the resolved order, without error, whatever the
iteration order. -/
theorem resolveGraph_duplicate_name_hides_cycle :
    (∃ a, onCycle dupCycleGraph a) ∧
      ∀ it : IterOrder,
        resolveGraph it dupCycleGraph = some ([some (NewNode 1 "a" [])], none) := by
  refine ⟨⟨"a", Relation.TransGen.single
    ⟨NewNode 0 "a" ["a"], by decide, rfl, by decide⟩⟩, ?_⟩
  intro it
  have hp : populate dupCycleGraph = ([("a", NewNode 1 "a" [])], [("a", [])]) := by decide
  have hr : readySet [(("a" : String), ([] : List String))] = ["a"] := by decide
  have hrem : removeReady it [(("a" : String), ([] : List String))] = [] := by
    rw [removeReady_eq, hr]
    decide
  unfold resolveGraph
  rw [hp]
  simp only [List.length_singleton]
  rw [resolveLoop]
  simp only [List.length_singleton, hr, one_ne_zero, if_false, hrem, order_singleton,
    List.nil_append, List.map_cons, List.map_nil]
  rw [resolveLoop]
  simp [mapGet?]

/-- C3, amended: for every graph with pairwise distinct node names that contains a
dependency cycle, a node that depends on itself included, `resolveGraph` returns
`ErrCircularDependency` rather than a resolved order. -/
theorem resolveGraph_cycle_error (it : IterOrder) (graph : Graph)
    (hd : namesDistinct graph) (hcyc : ∃ a, onCycle graph a) :
    ∃ payload, resolveGraph it graph = some (payload, some DepError.ErrCircularDependency) := by
  obtain ⟨ps, h1, _⟩ :=
    resolveGraph_blocked it graph hd (onCycle graph) (onCycle_blocked graph) hcyc
  exact ⟨_, h1⟩

theorem resolveGraph_cycle_error_witness :
    namesDistinct selfLoopGraph ∧ (∃ a, onCycle selfLoopGraph a) ∧
      ∃ payload, resolveGraph IterOrder.canonical selfLoopGraph =
        some (payload, some DepError.ErrCircularDependency) :=
  ⟨by decide,
    ⟨"a", Relation.TransGen.single ⟨NewNode 0 "a" ["a"], by decide, rfl, by decide⟩⟩,
    resolveGraph_cycle_error IterOrder.canonical selfLoopGraph (by decide)
      ⟨"a", Relation.TransGen.single ⟨NewNode 0 "a" ["a"], by decide, rfl, by decide⟩⟩⟩

/-- C4, as stated, fails: in `cycleTailGraph` the node `c` depends on the cycle `a`, `b`
but lies on no cycle, and it is part of the payload returned with
`ErrCircularDependency`. -/
theorem resolveGraph_payload_not_only_cycle :
    resolveGraph IterOrder.canonical cycleTailGraph =
        some ([some (NewNode 0 "a" ["b"]), some (NewNode 1 "b" ["a"]),
          some (NewNode 2 "c" ["a"])], some DepError.ErrCircularDependency) ∧
      (∃ a, onCycle cycleTailGraph a) ∧ ¬ onCycle cycleTailGraph "c" := by
  refine ⟨by decide, ⟨"a", ?_⟩, ?_⟩
  · exact Relation.TransGen.tail
      (Relation.TransGen.single ⟨NewNode 0 "a" ["b"], by decide, rfl, by decide⟩)
      ⟨NewNode 1 "b" ["a"], by decide, rfl, by decide⟩
  · intro h
    obtain ⟨n, hn, hc⟩ := target_is_dep cycleTailGraph "c" "c" h
    revert n
    decide

/-- C4, amended: for every graph with pairwise distinct names that contains a cycle,
`resolveGraph` returns `ErrCircularDependency`, and the payload is exactly the set of
nodes of the graph from which a dependency cycle or a dangling dependency name is reached
through zero or more dependency edges; in particular no node lying on a cycle is
missing. -/
theorem resolveGraph_payload_exact (it : IterOrder) (graph : Graph)
    (hd : namesDistinct graph) (hcyc : ∃ a, onCycle graph a) :
    ∃ ps : List Node,
      resolveGraph it graph = some (ps.map some, some DepError.ErrCircularDependency) ∧
      (∀ n, n ∈ ps ↔ n ∈ graph ∧ stuck graph n.name) ∧
      (∀ n ∈ graph, onCycle graph n.name → n ∈ ps) := by
  obtain ⟨a, ha⟩ := hcyc
  obtain ⟨ps, h1, h2⟩ := resolveGraph_stuck it graph hd
    ⟨a, a, Relation.ReflTransGen.refl, Or.inl ha⟩
  refine ⟨ps, h1, h2, ?_⟩
  intro n hn hc
  exact (h2 n).mpr ⟨hn, n.name, Relation.ReflTransGen.refl, Or.inl hc⟩

theorem resolveGraph_payload_exact_witness :
    namesDistinct twoCycleGraph ∧ (∃ a, onCycle twoCycleGraph a) ∧
      ∃ ps : List Node,
        resolveGraph IterOrder.reversed twoCycleGraph =
          some (ps.map some, some DepError.ErrCircularDependency) ∧
        (∀ n, n ∈ ps ↔ n ∈ twoCycleGraph ∧ stuck twoCycleGraph n.name) ∧
        (∀ n ∈ twoCycleGraph, onCycle twoCycleGraph n.name → n ∈ ps) :=
  ⟨by decide,
    ⟨"x", Relation.TransGen.tail
      (Relation.TransGen.single ⟨NewNode 0 "x" ["y"], by decide, rfl, by decide⟩)
      ⟨NewNode 1 "y" ["x"], by decide, rfl, by decide⟩⟩,
    resolveGraph_payload_exact IterOrder.reversed twoCycleGraph (by decide)
      ⟨"x", Relation.TransGen.tail
        (Relation.TransGen.single ⟨NewNode 0 "x" ["y"], by decide, rfl, by decide⟩)
        ⟨NewNode 1 "y" ["x"], by decide, rfl, by decide⟩⟩⟩

/-- C5, as stated, fails: `danglingGraph` has no cycle and its only node depends on a name
that names no node, yet `resolveGraph` returns `ErrCircularDependency` with that node as
payload instead of resolving it. -/
theorem resolveGraph_dangling_not_satisfied :
    dangling danglingGraph "ext" ∧ acyclic danglingGraph ∧
      resolveGraph IterOrder.canonical danglingGraph =
        some ([some (NewNode 0 "a" ["ext"])], some DepError.ErrCircularDependency) := by
  refine ⟨by decide, ?_, by decide⟩
  exact acyclic_of_rank danglingGraph (fun s => if s = "a" then 1 else 0) (by decide)

/-- C5, amended: for every graph with pairwise distinct names in which some node declares
a dependency name that names no node of the graph, the dangling name is never removed
from that node's dependency set: `resolveGraph` returns `ErrCircularDependency` and the
node is part of the payload. -/
theorem resolveGraph_dangling_blocks (it : IterOrder) (graph : Graph)
    (hd : namesDistinct graph) (n : Node) (hn : n ∈ graph) (d : String)
    (hdn : d ∈ n.deps) (hdang : dangling graph d) :
    ∃ ps : List Node,
      resolveGraph it graph = some (ps.map some, some DepError.ErrCircularDependency) ∧
      n ∈ ps := by
  obtain ⟨ps, h1, _, h3⟩ := resolveGraph_blocked it graph hd (fun b => b = n.name)
    (by
      rintro b rfl
      exact ⟨n, hn, rfl, d, hdn, Or.inl hdang⟩)
    ⟨n.name, rfl⟩
  exact ⟨ps, h1, h3 n hn rfl⟩

theorem resolveGraph_dangling_blocks_witness :
    namesDistinct danglingMixGraph ∧ NewNode 0 "svc" ["db", "ext"] ∈ danglingMixGraph ∧
      "ext" ∈ (NewNode 0 "svc" ["db", "ext"]).deps ∧ dangling danglingMixGraph "ext" ∧
      ∃ ps : List Node,
        resolveGraph IterOrder.canonical danglingMixGraph =
          some (ps.map some, some DepError.ErrCircularDependency) ∧
        NewNode 0 "svc" ["db", "ext"] ∈ ps :=
  ⟨by decide, by decide, by decide, by decide,
    resolveGraph_dangling_blocks IterOrder.canonical danglingMixGraph (by decide)
      (NewNode 0 "svc" ["db", "ext"]) (by decide) "ext" (by decide) (by decide)⟩

end Depends


namespace Autoconfigure

/-! ## Lemmas on the instantiation engine -/

theorem instantiateByName_eq {V : Type} (nm : Naming) (cfg : Configuration V) (fuel : Nat) :
    (fun name st1 =>
      match MethodByName cfg name with
      | some m => InstantiateMethod nm cfg fuel m name st1
      | none => some (Outcome.returned none (some FactoryError.ErrInvalidMethod) st1)) =
    InstantiateByName nm cfg fuel := by
  funext name st1
  rfl

theorem instantiateMethod_succ {V : Type} (nm : Naming) (cfg : Configuration V)
    (fuel : Nat) (method : Method V) (methodName : String) (st : State V) :
    InstantiateMethod nm cfg (fuel + 1) method methodName st =
      match GetInstance st (nm.LowerFirst methodName) with
      | some inst => some (Outcome.returned (some inst) none st)
      | none =>
        match resolveArgs nm (InstantiateByName nm cfg fuel) method.In [] none st with
        | none => none
        | some (Outcome.panicked st1) => some (Outcome.panicked st1)
        | some (Outcome.returned argv err st1) =>
          some (callAndSave method (nm.LowerFirst methodName) argv err st1) := by
  rw [InstantiateMethod, instantiateByName_eq]

theorem instantiateMethod_of_registered {V : Type} (nm : Naming) (cfg : Configuration V)
    (fuel : Nat) (method : Method V) (methodName : String) (st : State V) (inst : V)
    (h : GetInstance st (nm.LowerFirst methodName) = some inst) :
    InstantiateMethod nm cfg (fuel + 1) method methodName st =
      some (Outcome.returned (some inst) none st) := by
  rw [instantiateMethod_succ, h]

theorem methodByName_some {V : Type} (cfg : Configuration V) (name : String) (m : Method V)
    (h : MethodByName cfg name = some m) : m ∈ cfg.methods ∧ m.Name = name := by
  unfold MethodByName at h
  refine ⟨List.mem_of_find?_eq_some h, ?_⟩
  have := List.find?_some h
  simpa using this

/-! ## Relations between the state before and after a call -/

theorem resolveArg_rel {V : Type} (nm : Naming)
    (byName : String → State V → Option (Outcome (Option V) V))
    (R : State V → State V → Prop) (hrefl : ∀ s, R s s)
    (htrans : ∀ a b c, R a b → R b c → R a c)
    (hby : ∀ name st o, byName name st = some o → R st o.st)
    (iTyp : ParamType V) (err : Option FactoryError) (st : State V)
    (o : Outcome (Option V) V) (h : resolveArg nm byName iTyp err st = some o) :
    R st o.st := by
  unfold resolveArg at h
  split at h
  · cases h; exact hrefl st
  · split at h
    · cases h; exact hrefl st
    · split at h
      · cases h
      · rename_i st1 heq
        cases h
        exact hby _ _ _ heq
      · rename_i depInst st1 heq
        cases h
        exact hby _ _ _ heq
      · rename_i v e st1 heq
        exact htrans _ _ _ (hby _ _ _ heq) (hby _ _ _ h)

theorem resolveArgs_rel {V : Type} (nm : Naming)
    (byName : String → State V → Option (Outcome (Option V) V))
    (R : State V → State V → Prop) (hrefl : ∀ s, R s s)
    (htrans : ∀ a b c, R a b → R b c → R a c)
    (hby : ∀ name st o, byName name st = some o → R st o.st)
    (ps : List (ParamType V)) (argv : List (Option V)) (err : Option FactoryError)
    (st : State V) (o : Outcome (List (Option V)) V)
    (h : resolveArgs nm byName ps argv err st = some o) : R st o.st := by
  induction ps generalizing argv err st with
  | nil =>
    simp only [resolveArgs] at h
    cases h
    exact hrefl st
  | cons p ps ih =>
    simp only [resolveArgs] at h
    split at h
    · cases h
    · rename_i st1 heq
      cases h
      exact resolveArg_rel nm byName R hrefl htrans hby _ _ _ _ heq
    · rename_i depInst err1 st1 heq
      exact htrans _ _ _ (resolveArg_rel nm byName R hrefl htrans hby _ _ _ _ heq)
        (ih _ _ _ h)

/-- A reflexive and transitive relation on states that every call-and-save step of an
admissible method respects holds between the states before and after
`InstantiateMethod`.  `ok` says which pairs of a method and the name it is instantiated
under are admissible; the pairs found by `MethodByName` must be. -/
theorem instantiateMethod_rel {V : Type} (nm : Naming) (cfg : Configuration V)
    (R : State V → State V → Prop) (hrefl : ∀ s, R s s)
    (htrans : ∀ a b c, R a b → R b c → R a c)
    (ok : Method V → String → Prop)
    (hnested : ∀ name m, MethodByName cfg name = some m → ok m name)
    (hsave : ∀ m name, ok m name → ∀ argv err st,
      R st (callAndSave m (nm.LowerFirst name) argv err st).st) :
    ∀ fuel (method : Method V) (methodName : String) (st : State V)
      (o : Outcome (Option V) V), ok method methodName →
      InstantiateMethod nm cfg fuel method methodName st = some o → R st o.st := by
  intro fuel
  induction fuel with
  | zero =>
    intro method methodName st o _ h
    simp [InstantiateMethod] at h
  | succ fuel ih =>
    intro method methodName st o hok h
    rw [instantiateMethod_succ] at h
    have hby : ∀ name st o, InstantiateByName nm cfg fuel name st = some o → R st o.st := by
      intro name st o hb
      unfold InstantiateByName at hb
      split at hb
      · rename_i m hm
        exact ih m name st o (hnested name m hm) hb
      · cases hb
        exact hrefl st
    split at h
    · cases h; exact hrefl st
    · split at h
      · cases h
      · rename_i st1 heq
        cases h
        exact resolveArgs_rel nm _ R hrefl htrans hby _ _ _ _ _ heq
      · rename_i argv err st1 heq
        cases h
        exact htrans _ _ _ (resolveArgs_rel nm _ R hrefl htrans hby _ _ _ _ _ heq)
          (hsave method methodName hok argv err st1)

/-! ## The registry only grows -/

theorem mapGet?_mapSet {β : Type} (m : List (String × β)) (k k' : String) (v : β) :
    mapGet? (mapSet m k v) k' = if k = k' then some v else mapGet? m k' := by
  induction m with
  | nil => simp [mapSet, mapGet?]
  | cons p ps ih =>
    obtain ⟨a, b⟩ := p
    by_cases hak : a = k
    · subst hak
      simp only [mapSet, if_true, mapGet?]
      by_cases hak' : a = k' <;> simp [hak']
    · simp only [mapSet, hak, if_false, mapGet?, ih]
      by_cases hak' : a = k'
      · subst hak'
        have : ¬ k = a := fun e => hak e.symm
        simp [this]
      · simp [hak']

theorem setInstance_calls {V : Type} (st : State V) (k : String) (v : Option V) :
    (SetInstance st k v).1.calls = st.calls := by
  unfold SetInstance
  split <;> rfl

theorem setInstance_stable {V : Type} (st : State V) (k : String) (v : Option V)
    (k' : String) (x : Option V) (h : mapGet? st.instances k' = some x) :
    mapGet? (SetInstance st k v).1.instances k' = some x := by
  unfold SetInstance
  split
  · exact h
  · rename_i hnone
    simp only [mapGet?_mapSet]
    by_cases hk : k = k'
    · subst hk
      rw [hnone] at h
      cases h
    · simp [hk, h]

theorem setInstance_fresh {V : Type} (st : State V) (k : String) (v : Option V)
    (h : mapGet? st.instances k = none) :
    mapGet? (SetInstance st k v).1.instances k = some v := by
  unfold SetInstance
  rw [h]
  simp [mapGet?_mapSet]

theorem setInstance_taken {V : Type} (st : State V) (k : String) (v : Option V) :
    mapGet? (SetInstance st k v).1.instances k ≠ none := by
  cases hg : mapGet? st.instances k with
  | none => rw [setInstance_fresh st k v hg]; simp
  | some x => rw [setInstance_stable st k v k x hg]; simp

theorem grows_refl {V : Type} (s : State V) : Grows s s :=
  ⟨fun _ _ h => h, fun _ h => h⟩

theorem grows_trans {V : Type} (a b c : State V) (h1 : Grows a b) (h2 : Grows b c) :
    Grows a c :=
  ⟨fun k x h => h2.1 k x (h1.1 k x h), fun x h => h2.2 x (h1.2 x h)⟩

theorem callAndSave_grows {V : Type} (m : Method V) (key : String)
    (argv : List (Option V)) (err : Option FactoryError) (st : State V) :
    Grows st (callAndSave m key argv err st).st := by
  unfold callAndSave
  split
  · exact grows_refl st
  · split
    · exact ⟨fun _ _ h => h, fun c hc => by simp [Outcome.st, hc]⟩
    · refine ⟨fun k x h => ?_, fun c hc => ?_⟩
      · exact setInstance_stable _ _ _ _ _ h
      · simp only [Outcome.st, setInstance_calls]
        simp [hc]

/-- `InstantiateMethod` never removes or changes a registry entry and never drops an
invocation from the trace. -/
theorem instantiateMethod_grows {V : Type} (nm : Naming) (cfg : Configuration V)
    (fuel : Nat) (method : Method V) (methodName : String) (st : State V)
    (o : Outcome (Option V) V)
    (h : InstantiateMethod nm cfg fuel method methodName st = some o) : Grows st o.st :=
  instantiateMethod_rel nm cfg Grows grows_refl grows_trans (fun _ _ => True)
    (fun _ _ _ => trivial) (fun m _ _ argv err st => callAndSave_grows m _ argv err st)
    fuel method methodName st o trivial h

theorem getInstance_grows {V : Type} (st st' : State V) (h : Grows st st') (k : String)
    (v : V) (hg : GetInstance st k = some v) : GetInstance st' k = some v := by
  unfold GetInstance at hg ⊢
  split at hg
  · rename_i v' hv
    rw [h.1 k _ hv]
    exact hg
  · cases hg

/-! ## Counting invocations -/

theorem instantiateByName_rel {V : Type} (nm : Naming) (cfg : Configuration V)
    (R : State V → State V → Prop) (hrefl : ∀ s, R s s)
    (htrans : ∀ a b c, R a b → R b c → R a c)
    (ok : Method V → String → Prop)
    (hnested : ∀ name m, MethodByName cfg name = some m → ok m name)
    (hsave : ∀ m name, ok m name → ∀ argv err st,
      R st (callAndSave m (nm.LowerFirst name) argv err st).st)
    (fuel : Nat) (name : String) (st : State V) (o : Outcome (Option V) V)
    (h : InstantiateByName nm cfg fuel name st = some o) : R st o.st := by
  unfold InstantiateByName at h
  split at h
  · rename_i m hm
    exact instantiateMethod_rel nm cfg R hrefl htrans ok hnested hsave fuel m name st o
      (hnested name m hm) h
  · cases h
    exact hrefl st

theorem countCalls_append {V : Type} (name n : String) (args : List V) (st : State V) :
    countCalls name { st with calls := st.calls ++ [(n, args)] } =
      countCalls name st + (if n = name then 1 else 0) := by
  unfold countCalls
  by_cases h : n = name <;> simp [List.filter_append, h]

theorem counted_refl {V : Type} (key name : String) (s : State V) : Counted key name s s :=
  ⟨fun _ _ h => h, fun _ => rfl⟩

theorem counted_trans {V : Type} (key name : String) (a b c : State V)
    (h1 : Counted key name a b) (h2 : Counted key name b c) : Counted key name a c := by
  refine ⟨fun k x h => h2.1 k x (h1.1 k x h), fun hc => ?_⟩
  have hb : mapGet? b.instances key = none := by
    cases hg : mapGet? b.instances key with
    | none => rfl
    | some x =>
      rw [h2.1 key x hg] at hc
      cases hc
  rw [h2.2 hc, h1.2 hb]

theorem callAndSave_counted {V : Type} (nm : Naming) (name : String) (m : Method V)
    (methodName : String) (hname : m.Name = methodName)
    (hret : m.Name = name → ∀ a, m.Func a ≠ [])
    (argv : List (Option V)) (err : Option FactoryError) (st : State V) :
    Counted (nm.LowerFirst name) name st
      (callAndSave m (nm.LowerFirst methodName) argv err st).st := by
  unfold callAndSave
  split
  · exact counted_refl _ _ st
  · rename_i args _
    split
    · rename_i hnil
      refine ⟨fun _ _ h => h, fun _ => ?_⟩
      simp only [Outcome.st]
      rw [countCalls_append]
      by_cases hmn : m.Name = name
      · exact absurd hnil (hret hmn args)
      · simp [hmn]
    · rename_i inst rest hcons
      refine ⟨fun k x h => setInstance_stable _ _ _ _ _ h, fun hnone => ?_⟩
      simp only [Outcome.st] at hnone ⊢
      by_cases hmn : m.Name = name
      · exfalso
        rw [← hname, hmn] at hnone
        exact setInstance_taken _ _ _ hnone
      · have hc : countCalls name
            (SetInstance { st with calls := st.calls ++ [(m.Name, args)] }
              (nm.LowerFirst methodName) inst).1 =
            countCalls name { st with calls := st.calls ++ [(m.Name, args)] } := by
          unfold countCalls
          rw [setInstance_calls]
        rw [hc, countCalls_append]
        simp [hmn]

/-- While the derived name of the producer `name` stays unregistered, no call of
`InstantiateByName` has invoked that producer, provided it has a return value. -/
theorem instantiateByName_counted {V : Type} (nm : Naming) (cfg : Configuration V)
    (name : String) (hret : ∀ m ∈ cfg.methods, m.Name = name → ∀ a, m.Func a ≠ [])
    (fuel : Nat) (n : String) (st : State V) (o : Outcome (Option V) V)
    (h : InstantiateByName nm cfg fuel n st = some o) :
    Counted (nm.LowerFirst name) name st o.st :=
  instantiateByName_rel nm cfg (Counted (nm.LowerFirst name) name)
    (counted_refl _ _) (counted_trans _ _)
    (fun m methodName => m.Name = methodName ∧ (m.Name = name → ∀ a, m.Func a ≠ []))
    (fun n m hm => ⟨(methodByName_some cfg n m hm).2,
      hret m (methodByName_some cfg n m hm).1⟩)
    (fun m methodName hok argv err st =>
      callAndSave_counted nm name m methodName hok.1 hok.2 argv err st)
    fuel n st o h

theorem getInstance_of_absent {V : Type} (st : State V) (k : String)
    (h : mapGet? st.instances k = none) : GetInstance st k = none := by
  unfold GetInstance
  rw [h]

theorem instantiateMethodTimes_of_registered {V : Type} (nm : Naming)
    (cfg : Configuration V) (fuel : Nat) (method : Method V) (methodName : String)
    (st : State V) (inst : V) (h : GetInstance st (nm.LowerFirst methodName) = some inst)
    (n : Nat) :
    InstantiateMethodTimes nm cfg (fuel + 1) method methodName n st = some st := by
  induction n with
  | zero => rfl
  | succ n ih =>
    simp only [InstantiateMethodTimes,
      instantiateMethod_of_registered nm cfg fuel method methodName st inst h]
    exact ih

/-! ## Claims about `InstantiateMethod` -/

theorem unwrapArgs_of_nil {V : Type} (ps : List (ParamType V)) (argv : List (Option V))
    (h : none ∈ argv) : unwrapArgs ps argv = none := by
  induction argv generalizing ps with
  | nil => simp at h
  | cons a rest ih =>
    cases ps with
    | nil => rfl
    | cons p ps' =>
      cases a with
      | none => rfl
      | some v =>
        have hrest : none ∈ rest := by simpa using h
        simp only [unwrapArgs, ih ps' hrest, Option.map_none', ite_self]

/-- The first call for a producer with a return value whose derived name is free, when
the resolution of the parameters returns arguments that `Call` accepts and leaves the
name free: the method is invoked once, after the resolution, and its first result is
registered and returned. -/
theorem instantiateMethod_fresh_call {V : Type} (nm : Naming) (cfg : Configuration V)
    (fuel : Nat) (method : Method V) (st st1 : State V) (argv : List (Option V))
    (args : List V) (err : Option FactoryError)
    (hmem : method ∈ cfg.methods) (hnodup : (cfg.methods.map Method.Name).Nodup)
    (hret : ∀ a, method.Func a ≠ [])
    (hfresh : mapGet? st.instances (nm.LowerFirst method.Name) = none)
    (hargs : resolveArgs nm (InstantiateByName nm cfg fuel) method.In [] none st =
      some (Outcome.returned argv err st1))
    (hfound : unwrapArgs method.In argv = some args)
    (hstill : mapGet? st1.instances (nm.LowerFirst method.Name) = none) :
    ∃ inst rest st2, method.Func args = inst :: rest ∧
      InstantiateMethod nm cfg (fuel + 1) method method.Name st =
        some (Outcome.returned inst err st2) ∧
      mapGet? st2.instances (nm.LowerFirst method.Name) = some inst ∧
      countCalls method.Name st2 = countCalls method.Name st + 1 ∧
      st2.calls = st1.calls ++ [(method.Name, args)] := by
  have hret' : ∀ m ∈ cfg.methods, m.Name = method.Name → ∀ a, m.Func a ≠ [] := by
    intro m hm hname
    have : m = method := List.inj_on_of_nodup_map hnodup hm hmem hname
    rw [this]
    exact hret
  have hcount : Counted (nm.LowerFirst method.Name) method.Name st st1 :=
    resolveArgs_rel nm _ (Counted (nm.LowerFirst method.Name) method.Name)
      (counted_refl _ _) (counted_trans _ _)
      (fun n s o h => instantiateByName_counted nm cfg method.Name hret' fuel n s o h)
      _ _ _ _ _ hargs
  have hc1 : countCalls method.Name st1 = countCalls method.Name st := hcount.2 hstill
  cases hf : method.Func args with
  | nil => exact absurd hf (hret args)
  | cons inst rest =>
    refine ⟨inst, rest,
      (SetInstance { st1 with calls := st1.calls ++ [(method.Name, args)] }
        (nm.LowerFirst method.Name) inst).1, rfl, ?_, ?_, ?_, ?_⟩
    · rw [instantiateMethod_succ, getInstance_of_absent st _ hfresh]
      simp only [hargs, callAndSave, hfound, hf]
    · exact setInstance_fresh _ _ _ hstill
    · have hc : countCalls method.Name
          (SetInstance { st1 with calls := st1.calls ++ [(method.Name, args)] }
            (nm.LowerFirst method.Name) inst).1 =
          countCalls method.Name { st1 with calls := st1.calls ++ [(method.Name, args)] } := by
        unfold countCalls
        rw [setInstance_calls]
      rw [hc, countCalls_append, hc1]
      simp
    · rw [setInstance_calls]

/-- C6, as stated, fails in its last clause: a method that returns nothing registers no
artifact, and a producer that returns nil registers a nil that line 190 reads as absent,
so every call of `InstantiateMethod` invokes them again: three calls for `Setup` invoke it
three times, two calls for `Cache` invoke it twice. -/
theorem instantiateMethod_invokes_again :
    InstantiateMethodTimes asciiNaming setupUnit 1 setupMethod "Setup" 3 emptyState =
        some ⟨[], [("Setup", []), ("Setup", []), ("Setup", [])]⟩ ∧
      countCalls "Setup"
        (⟨[], [("Setup", []), ("Setup", []), ("Setup", [])]⟩ : State String) = 3 ∧
      InstantiateMethodTimes asciiNaming setupUnit 1 nilMethod "Cache" 2 emptyState =
        some ⟨[("cache", none)], [("Cache", []), ("Cache", [])]⟩ ∧
      countCalls "Cache"
        (⟨[("cache", none)], [("Cache", []), ("Cache", [])]⟩ : State String) = 2 := by
  refine ⟨by decide, by decide, by decide, by decide⟩

/-- C6, amended: once a non-nil artifact is registered under the derived name of a
method, `InstantiateMethod` returns the registered artifact and leaves the state as it
is, the registry unchanged and the method not invoked, however often it is called.
Hence, when the first call for a method invokes it (the derived name free before and
after the resolution of its parameters, every argument accepted by `Call`) and the method
returns a non-nil value, any number of calls for the same method, one or more, invoke it
exactly once in all and end with that value registered. -/
theorem instantiateMethod_reuses_registered {V : Type} (nm : Naming)
    (cfg : Configuration V) (fuel : Nat) (method : Method V) (st st1 : State V)
    (argv : List (Option V)) (args : List V) (err : Option FactoryError) (v : V)
    (rest : List (Option V))
    (hmem : method ∈ cfg.methods) (hnodup : (cfg.methods.map Method.Name).Nodup)
    (hret : ∀ a, method.Func a ≠ [])
    (hfresh : mapGet? st.instances (nm.LowerFirst method.Name) = none)
    (hargs : resolveArgs nm (InstantiateByName nm cfg fuel) method.In [] none st =
      some (Outcome.returned argv err st1))
    (hfound : unwrapArgs method.In argv = some args)
    (hstill : mapGet? st1.instances (nm.LowerFirst method.Name) = none)
    (hval : method.Func args = some v :: rest) :
    (∀ (st0 : State V) (inst : V) (m : Method V) (methodName : String),
        GetInstance st0 (nm.LowerFirst methodName) = some inst →
        InstantiateMethod nm cfg (fuel + 1) m methodName st0 =
          some (Outcome.returned (some inst) none st0) ∧
        ∀ n, InstantiateMethodTimes nm cfg (fuel + 1) m methodName n st0 = some st0) ∧
      ∃ st2, (∀ n, InstantiateMethodTimes nm cfg (fuel + 1) method method.Name (n + 1) st =
          some st2) ∧
        GetInstance st2 (nm.LowerFirst method.Name) = some v ∧
        countCalls method.Name st2 = countCalls method.Name st + 1 := by
  refine ⟨fun st0 inst m methodName h =>
    ⟨instantiateMethod_of_registered nm cfg fuel m methodName st0 inst h,
      instantiateMethodTimes_of_registered nm cfg fuel m methodName st0 inst h⟩, ?_⟩
  obtain ⟨inst, rest', st2, hf, hcall, hreg, hcount, _⟩ :=
    instantiateMethod_fresh_call nm cfg fuel method st st1 argv args err hmem hnodup hret
      hfresh hargs hfound hstill
  rw [hval] at hf
  have hinst : inst = some v := by
    injection hf with h1 _
    exact h1.symm
  subst hinst
  have hget : GetInstance st2 (nm.LowerFirst method.Name) = some v := by
    unfold GetInstance
    rw [hreg]
  refine ⟨st2, fun n => ?_, hget, hcount⟩
  simp only [InstantiateMethodTimes, hcall]
  exact instantiateMethodTimes_of_registered nm cfg fuel method method.Name st2 v hget n

theorem instantiateMethod_reuses_registered_witness :
    fooMethod ∈ plainUnit.methods ∧ (plainUnit.methods.map Method.Name).Nodup ∧
      (∀ a, fooMethod.Func a ≠ []) ∧
      mapGet? emptyState.instances (asciiNaming.LowerFirst fooMethod.Name) = none ∧
      resolveArgs asciiNaming (InstantiateByName asciiNaming plainUnit 0) fooMethod.In []
        none emptyState = some (Outcome.returned [] none emptyState) ∧
      unwrapArgs fooMethod.In ([] : List (Option String)) = some [] ∧
      fooMethod.Func [] = some "foo" :: [] ∧
      ((∀ (st0 : State String) (inst : String) (m : Method String) (methodName : String),
          GetInstance st0 (asciiNaming.LowerFirst methodName) = some inst →
          InstantiateMethod asciiNaming plainUnit (0 + 1) m methodName st0 =
            some (Outcome.returned (some inst) none st0) ∧
          ∀ n, InstantiateMethodTimes asciiNaming plainUnit (0 + 1) m methodName n st0 =
            some st0) ∧
        ∃ st2, (∀ n, InstantiateMethodTimes asciiNaming plainUnit (0 + 1) fooMethod
            fooMethod.Name (n + 1) emptyState = some st2) ∧
          GetInstance st2 (asciiNaming.LowerFirst fooMethod.Name) = some "foo" ∧
          countCalls fooMethod.Name st2 = countCalls fooMethod.Name emptyState + 1) ∧
      InstantiateMethod asciiNaming plainUnit (0 + 1) fooMethod "Foo" fooState =
        some (Outcome.returned (some "made") none fooState) :=
  ⟨by simp [plainUnit], by decide, fun _ => by simp [fooMethod], by decide, rfl, rfl, rfl,
    instantiateMethod_reuses_registered asciiNaming plainUnit 0 fooMethod emptyState
      emptyState [] [] none "foo" [] (by simp [plainUnit]) (by decide)
      (fun _ => by simp [fooMethod]) (by decide) rfl rfl (by decide) rfl,
    by decide⟩

theorem loopUnit_diverges (fuel : Nat) :
    InstantiateMethod asciiNaming loopUnit fuel loopMethod "Loop" emptyState = none := by
  induction fuel with
  | zero => rfl
  | succ fuel ih =>
    have h1 : GetInstance emptyState (asciiNaming.LowerFirst "Loop") = none := by decide
    have h2 : GetInstance emptyState (asciiNaming.ToLowerCamel "Loop") = none := by decide
    have h3 : GetInstance emptyState
        (asciiNaming.ToLowerCamel (asciiNaming.DirName "hiboot/pkg/cfg") ++ "Loop") = none := by
      decide
    have hn : asciiNaming.Title (asciiNaming.ToLowerCamel "Loop") = "Loop" := by decide
    have hm : MethodByName loopUnit "Loop" = some loopMethod := rfl
    have hargs : resolveArgs asciiNaming (InstantiateByName asciiNaming loopUnit fuel)
        loopMethod.In [] none emptyState = none := by
      show resolveArgs asciiNaming (InstantiateByName asciiNaming loopUnit fuel)
        [⟨"Loop", "hiboot/pkg/cfg", fun _ => true⟩] [] none emptyState = none
      simp only [resolveArgs, resolveArg, h2, h3, hn, InstantiateByName, hm, ih]
    rw [instantiateMethod_succ, h1]
    simp only [hargs]

/-- C7, as stated, fails: `Loop` is a producer with a return value whose derived name is
not registered, but its parameter is its own product, and `InstantiateMethod` never
returns, whatever depth of recursion is allowed: the method is not invoked and nothing is
registered. -/
theorem instantiateMethod_cycle_never_returns :
    (∀ a, loopMethod.Func a ≠ []) ∧
      mapGet? emptyState.instances (asciiNaming.LowerFirst loopMethod.Name) = none ∧
      ∀ fuel, InstantiateMethod asciiNaming loopUnit fuel loopMethod loopMethod.Name
        emptyState = none :=
  ⟨fun _ => by simp [loopMethod], by decide, loopUnit_diverges⟩

/-- C7, amended: for every producer method of a configuration (method names distinct) that
has a return value and whose derived name is not yet registered, when the resolution of
its parameters returns with every argument found and of a type assignable to the type of
its parameter, and with the derived name still unregistered, `InstantiateMethod` invokes
the method exactly once, on those arguments and after the resolution; afterwards the
registry maps the lower-first form of the method name to exactly the value the method
returned, which is also the value `InstantiateMethod` returns. -/
theorem instantiateMethod_invokes_once {V : Type} (nm : Naming) (cfg : Configuration V)
    (fuel : Nat) (method : Method V) (st st1 : State V) (argv : List (Option V))
    (args : List V) (err : Option FactoryError)
    (hmem : method ∈ cfg.methods) (hnodup : (cfg.methods.map Method.Name).Nodup)
    (hret : ∀ a, method.Func a ≠ [])
    (hfresh : mapGet? st.instances (nm.LowerFirst method.Name) = none)
    (hargs : resolveArgs nm (InstantiateByName nm cfg fuel) method.In [] none st =
      some (Outcome.returned argv err st1))
    (hfound : unwrapArgs method.In argv = some args)
    (hstill : mapGet? st1.instances (nm.LowerFirst method.Name) = none) :
    ∃ inst rest st2, method.Func args = inst :: rest ∧
      InstantiateMethod nm cfg (fuel + 1) method method.Name st =
        some (Outcome.returned inst err st2) ∧
      mapGet? st2.instances (nm.LowerFirst method.Name) = some inst ∧
      countCalls method.Name st2 = countCalls method.Name st + 1 ∧
      st2.calls = st1.calls ++ [(method.Name, args)] :=
  instantiateMethod_fresh_call nm cfg fuel method st st1 argv args err hmem hnodup hret
    hfresh hargs hfound hstill

theorem instantiateMethod_invokes_once_witness :
    barMethod ∈ fooBarUnit.methods ∧ (fooBarUnit.methods.map Method.Name).Nodup ∧
      (∀ a, barMethod.Func a ≠ []) ∧
      mapGet? emptyState.instances (asciiNaming.LowerFirst barMethod.Name) = none ∧
      resolveArgs asciiNaming (InstantiateByName asciiNaming fooBarUnit 1) barMethod.In []
          none emptyState =
        some (Outcome.returned [some "foo"] none ⟨[("foo", some "foo")], [("Foo", [])]⟩) ∧
      unwrapArgs barMethod.In [some "foo"] = some ["foo"] ∧
      ∃ inst rest st2, barMethod.Func ["foo"] = inst :: rest ∧
        InstantiateMethod asciiNaming fooBarUnit (1 + 1) barMethod barMethod.Name emptyState =
          some (Outcome.returned inst none st2) ∧
        mapGet? st2.instances (asciiNaming.LowerFirst barMethod.Name) = some inst ∧
        countCalls barMethod.Name st2 = countCalls barMethod.Name emptyState + 1 ∧
        st2.calls = [("Foo", [])] ++ [(barMethod.Name, ["foo"])] :=
  ⟨List.mem_cons_self _ _, by decide, fun _ => by simp [barMethod], by decide, by decide,
    by decide,
    instantiateMethod_invokes_once asciiNaming fooBarUnit 1 barMethod emptyState
      ⟨[("foo", some "foo")], [("Foo", [])]⟩ [some "foo"] ["foo"] none
      (List.mem_cons_self _ _) (by decide) (fun _ => by simp [barMethod]) (by decide)
      (by decide) (by decide) (by decide)⟩

/-! ## The loop of `Instantiate` -/

theorem instantiateLoop_cons_init {V : Type}
    (step : Method V → State V → Option (Outcome (Option V) V))
    (m : Method V) (rest : List (Method V)) (st : State V) (h : m.Name = "Init") :
    instantiateLoop step (m :: rest) st = instantiateLoop step rest st := by
  rw [instantiateLoop, if_neg (not_not.mpr h)]

theorem instantiateLoop_cons_other {V : Type}
    (step : Method V → State V → Option (Outcome (Option V) V))
    (m : Method V) (rest : List (Method V)) (st : State V) (h : m.Name ≠ "Init") :
    instantiateLoop step (m :: rest) st =
      match step m st with
      | none => none
      | some (Outcome.panicked st1) => some (Outcome.panicked st1)
      | some (Outcome.returned _ (some err) st1) => some (Outcome.returned () (some err) st1)
      | some (Outcome.returned _ none st1) => instantiateLoop step rest st1 := by
  rw [instantiateLoop, if_pos h]

theorem instantiateLoop_append {V : Type}
    (step : Method V → State V → Option (Outcome (Option V) V))
    (pre post : List (Method V)) (st st1 : State V)
    (h : instantiateLoop step pre st = some (Outcome.returned () none st1)) :
    instantiateLoop step (pre ++ post) st = instantiateLoop step post st1 := by
  induction pre generalizing st with
  | nil =>
    simp only [instantiateLoop] at h
    cases h
    rfl
  | cons m ms ih =>
    rw [List.cons_append]
    by_cases hinit : m.Name = "Init"
    · rw [instantiateLoop_cons_init step m _ st hinit] at h ⊢
      exact ih st h
    · rw [instantiateLoop_cons_other step m _ st hinit] at h ⊢
      split at h
      · cases h
      · cases h
      · cases h
      · rename_i v st2 heq
        try simp only [heq]
        exact ih st2 h

theorem instantiateLoop_fail {V : Type}
    (step : Method V → State V → Option (Outcome (Option V) V))
    (method : Method V) (post : List (Method V)) (st : State V)
    (o : Outcome (Option V) V) (hinit : method.Name ≠ "Init")
    (hm : step method st = some o) (hfail : o.failed) :
    instantiateLoop step (method :: post) st = some o.void := by
  rw [instantiateLoop_cons_other step method post st hinit, hm]
  cases o with
  | panicked st1 => rfl
  | returned v err st1 =>
    cases err with
    | none => simp [Outcome.failed] at hfail
    | some e => rfl

theorem instantiateLoop_filter {V : Type}
    (step : Method V → State V → Option (Outcome (Option V) V))
    (methods : List (Method V)) (st : State V) :
    instantiateLoop step methods st =
      instantiateLoop step (methods.filter (fun m => decide (m.Name ≠ "Init"))) st := by
  induction methods generalizing st with
  | nil => rfl
  | cons m ms ih =>
    by_cases hinit : m.Name = "Init"
    · have hf : (m :: ms).filter (fun m => decide (m.Name ≠ "Init")) =
          ms.filter (fun m => decide (m.Name ≠ "Init")) := by
        simp [List.filter_cons, hinit]
      rw [hf, instantiateLoop_cons_init step m ms st hinit]
      exact ih st
    · have hf : (m :: ms).filter (fun m => decide (m.Name ≠ "Init")) =
          m :: ms.filter (fun m => decide (m.Name ≠ "Init")) := by
        simp [List.filter_cons, hinit]
      rw [hf, instantiateLoop_cons_other step m ms st hinit,
        instantiateLoop_cons_other step m _ st hinit]
      cases step m st with
      | none => rfl
      | some o =>
        cases o with
        | panicked st1 => rfl
        | returned v err st1 =>
          cases err with
          | none => exact ih st1
          | some e => rfl

theorem missingUnit_bar_args (fuel : Nat) :
    resolveArgs asciiNaming (InstantiateByName asciiNaming missingUnit fuel) barMethod.In []
        none emptyState =
      some (Outcome.returned [none] (some FactoryError.ErrInvalidMethod) emptyState) := by
  have h2 : GetInstance emptyState (asciiNaming.ToLowerCamel "Foo") = none := by decide
  have h3 : GetInstance emptyState
      (asciiNaming.ToLowerCamel (asciiNaming.DirName "hiboot/pkg/cfg") ++ "Foo") = none := by
    decide
  have hm1 : MethodByName missingUnit (asciiNaming.Title (asciiNaming.ToLowerCamel "Foo")) =
      none := rfl
  have hm2 : MethodByName missingUnit (asciiNaming.Title
      (asciiNaming.ToLowerCamel (asciiNaming.DirName "hiboot/pkg/cfg") ++ "Foo")) = none := rfl
  show resolveArgs asciiNaming (InstantiateByName asciiNaming missingUnit fuel)
    [⟨"Foo", "hiboot/pkg/cfg", fun _ => true⟩] [] none emptyState = _
  simp only [resolveArgs, resolveArg, h2, h3, InstantiateByName, hm1, hm2, List.nil_append]

theorem missingUnit_bar_panics (fuel : Nat) :
    InstantiateMethod asciiNaming missingUnit (fuel + 1) barMethod "Bar" emptyState =
      some (Outcome.panicked emptyState) := by
  have h1 : GetInstance emptyState (asciiNaming.LowerFirst "Bar") = none := by decide
  rw [instantiateMethod_succ, h1]
  simp only [missingUnit_bar_args, callAndSave,
    unwrapArgs_of_nil barMethod.In [none] (List.mem_cons_self _ _)]

/-! ## Claims about `Instantiate` and the resolution of parameters -/

/-- C8, as stated, fails: in `missingUnit` the instantiation of `Bar` fails, because no
`Foo` can be found for its parameter, and `Instantiate` ends there: the trace of
invocations stays empty, although `Baz`, the remaining operation, needs nothing and
instantiates without error when it is attempted on its own. -/
theorem instantiate_aborts_on_failure :
    (∀ fuel, Instantiate asciiNaming missingUnit (fuel + 1) emptyState =
        some (Outcome.panicked emptyState)) ∧
      bazMethod ∈ missingUnit.methods ∧ bazMethod.Name ≠ "Init" ∧
      (∀ fuel, InstantiateMethod asciiNaming missingUnit (fuel + 1) bazMethod "Baz"
          emptyState =
        some (Outcome.returned (some "baz") none
          ⟨[("baz", some "baz")], [("Baz", [])]⟩)) := by
  refine ⟨fun fuel => ?_, by simp [missingUnit], by decide, fun fuel => ?_⟩
  · show instantiateLoop _ [barMethod, bazMethod] emptyState = _
    exact instantiateLoop_fail
      (fun m s => InstantiateMethod asciiNaming missingUnit (fuel + 1) m m.Name s)
      barMethod [bazMethod] emptyState (Outcome.panicked emptyState) (by decide)
      (missingUnit_bar_panics fuel) trivial
  · have h1 : GetInstance emptyState (asciiNaming.LowerFirst "Baz") = none := by decide
    rw [instantiateMethod_succ, h1]
    rfl

/-- C8, amended: `Instantiate` attempts the operations of a unit in method order and stops
at the first one whose instantiation fails: when the operations before `method` returned
without error and `InstantiateMethod` panics or returns an error for `method`,
`Instantiate` ends with that panic or error in the state `method` left; the operations
after `method` are not attempted. -/
theorem instantiate_stops_at_first_failure {V : Type} (nm : Naming)
    (cfg : Configuration V) (fuel : Nat) (pre post : List (Method V)) (method : Method V)
    (st st1 : State V) (o : Outcome (Option V) V)
    (hcfg : cfg.methods = pre ++ method :: post)
    (hpre : instantiateLoop (fun m s => InstantiateMethod nm cfg fuel m m.Name s) pre st =
      some (Outcome.returned () none st1))
    (hinit : method.Name ≠ "Init")
    (hm : InstantiateMethod nm cfg fuel method method.Name st1 = some o)
    (hfail : o.failed) :
    Instantiate nm cfg fuel st = some o.void := by
  unfold Instantiate
  rw [hcfg, instantiateLoop_append _ pre (method :: post) st st1 hpre]
  exact instantiateLoop_fail _ method post st1 o hinit hm hfail

theorem instantiate_stops_at_first_failure_witness :
    missingUnit.methods = [] ++ barMethod :: [bazMethod] ∧
      instantiateLoop
          (fun m s => InstantiateMethod asciiNaming missingUnit 1 m m.Name s) []
          emptyState = some (Outcome.returned () none emptyState) ∧
      barMethod.Name ≠ "Init" ∧
      InstantiateMethod asciiNaming missingUnit 1 barMethod barMethod.Name emptyState =
        some (Outcome.panicked emptyState) ∧
      (Outcome.panicked emptyState : Outcome (Option String) String).failed ∧
      Instantiate asciiNaming missingUnit 1 emptyState =
        some (Outcome.panicked emptyState : Outcome (Option String) String).void :=
  ⟨rfl, rfl, by decide, missingUnit_bar_panics 0, trivial,
    instantiate_stops_at_first_failure asciiNaming missingUnit 1 [] [bazMethod] barMethod
      emptyState emptyState (Outcome.panicked emptyState) rfl rfl (by decide)
      (missingUnit_bar_panics 0) trivial⟩

/-- C9, where the code departs from it: when the resolution of the parameters leaves an
argument unresolved (nil), `argv` holds the zero `reflect.Value` and the call of the
method panics: the operation is not invoked, and the outcome of `InstantiateMethod` is
that panic, in the state the resolution left. -/
theorem instantiateMethod_unresolved_panics {V : Type} (nm : Naming)
    (cfg : Configuration V) (fuel : Nat) (method : Method V) (methodName : String)
    (st st1 : State V) (argv : List (Option V)) (err : Option FactoryError)
    (hfresh : GetInstance st (nm.LowerFirst methodName) = none)
    (hargs : resolveArgs nm (InstantiateByName nm cfg fuel) method.In [] none st =
      some (Outcome.returned argv err st1))
    (hnil : none ∈ argv) :
    InstantiateMethod nm cfg (fuel + 1) method methodName st =
      some (Outcome.panicked st1) := by
  rw [instantiateMethod_succ, hfresh]
  simp only [hargs, callAndSave, unwrapArgs_of_nil method.In argv hnil]

theorem instantiateMethod_unresolved_panics_witness :
    GetInstance emptyState (asciiNaming.LowerFirst "Bar") = none ∧
      resolveArgs asciiNaming (InstantiateByName asciiNaming missingUnit 2) barMethod.In []
          none emptyState =
        some (Outcome.returned [none] (some FactoryError.ErrInvalidMethod) emptyState) ∧
      none ∈ ([none] : List (Option String)) ∧
      InstantiateMethod asciiNaming missingUnit (2 + 1) barMethod "Bar" emptyState =
        some (Outcome.panicked emptyState) :=
  ⟨by decide, missingUnit_bar_args 2, List.mem_cons_self _ _,
    instantiateMethod_unresolved_panics asciiNaming missingUnit 2 barMethod "Bar" emptyState
      emptyState [none] (some FactoryError.ErrInvalidMethod) (by decide)
      (missingUnit_bar_args 2) (List.mem_cons_self _ _)⟩

/-- C10, as stated, fails twice.  `configurableFactory.Instantiate` (configurable.go)
appends a component for every method, `Init` included.  And `Instantiate` of
configfactory.go skips `Init` in its own loop only: in `initUnit` the producer `Use` has a
parameter of type `Init`, so `Init` is invoked through `InstantiateByName` and its result
is registered under `init`. -/
theorem instantiate_reaches_init :
    (configurableFactory.Instantiate asciiNaming "hiboot/pkg/cfg" none
        [fooMethod, initMethod]).map (fun c => c.MetaObject.Name) = ["Foo", "Init"] ∧
      Instantiate asciiNaming initUnit 2 emptyState =
        some (Outcome.returned () none
          ⟨[("init", some "init"), ("use", some "useinit")],
            [("Init", []), ("Use", ["init"])]⟩) := by
  constructor
  · rfl
  · decide

theorem appended_refl {V : Type} (P : String → Prop) (s : State V) : Appended P s s :=
  ⟨[], by simp, by simp⟩

theorem appended_trans {V : Type} (P : String → Prop) (a b c : State V)
    (h1 : Appended P a b) (h2 : Appended P b c) : Appended P a c := by
  obtain ⟨n1, e1, p1⟩ := h1
  obtain ⟨n2, e2, p2⟩ := h2
  refine ⟨n1 ++ n2, by rw [e2, e1, List.append_assoc], ?_⟩
  intro x hx
  rcases List.mem_append.mp hx with hx | hx
  · exact p1 x hx
  · exact p2 x hx

theorem callAndSave_calls {V : Type} (m : Method V) (key : String)
    (argv : List (Option V)) (err : Option FactoryError) (st : State V) :
    (callAndSave m key argv err st).st.calls = st.calls ∨
      ∃ args, (callAndSave m key argv err st).st.calls = st.calls ++ [(m.Name, args)] := by
  unfold callAndSave
  split
  · exact Or.inl rfl
  · rename_i args _
    split
    · exact Or.inr ⟨args, rfl⟩
    · refine Or.inr ⟨args, ?_⟩
      simp only [Outcome.st, setInstance_calls]

theorem callAndSave_appended {V : Type} (P : String → Prop) (m : Method V) (key : String)
    (hP : P m.Name) (argv : List (Option V)) (err : Option FactoryError) (st : State V) :
    Appended P st (callAndSave m key argv err st).st := by
  rcases callAndSave_calls m key argv err st with h | ⟨args, h⟩
  · exact ⟨[], by simp [h], by simp⟩
  · refine ⟨[(m.Name, args)], h, ?_⟩
    intro c hc
    rw [List.mem_singleton] at hc
    subst hc
    exact hP

theorem resolveArg_rel_on {V : Type} (nm : Naming)
    (byName : String → State V → Option (Outcome (Option V) V))
    (R : State V → State V → Prop) (hrefl : ∀ s, R s s)
    (htrans : ∀ a b c, R a b → R b c → R a c) (iTyp : ParamType V)
    (hby : ∀ name ∈ producerNames nm iTyp, ∀ st o, byName name st = some o → R st o.st)
    (err : Option FactoryError) (st : State V)
    (o : Outcome (Option V) V) (h : resolveArg nm byName iTyp err st = some o) :
    R st o.st := by
  have h1 := hby (nm.Title (nm.ToLowerCamel iTyp.Name)) (by simp [producerNames])
  have h2 := hby (nm.Title (nm.ToLowerCamel (nm.DirName iTyp.PkgPath) ++ iTyp.Name))
    (by simp [producerNames])
  unfold resolveArg at h
  split at h
  · cases h; exact hrefl st
  · split at h
    · cases h; exact hrefl st
    · split at h
      · cases h
      · rename_i st1 heq
        cases h
        exact h1 _ _ heq
      · rename_i depInst st1 heq
        cases h
        exact h1 _ _ heq
      · rename_i v e st1 heq
        exact htrans _ _ _ (h1 _ _ heq) (h2 _ _ h)

theorem resolveArgs_rel_on {V : Type} (nm : Naming)
    (byName : String → State V → Option (Outcome (Option V) V))
    (R : State V → State V → Prop) (hrefl : ∀ s, R s s)
    (htrans : ∀ a b c, R a b → R b c → R a c) (ps : List (ParamType V))
    (hby : ∀ p ∈ ps, ∀ name ∈ producerNames nm p, ∀ st o,
      byName name st = some o → R st o.st)
    (argv : List (Option V)) (err : Option FactoryError)
    (st : State V) (o : Outcome (List (Option V)) V)
    (h : resolveArgs nm byName ps argv err st = some o) : R st o.st := by
  induction ps generalizing argv err st with
  | nil =>
    simp only [resolveArgs] at h
    cases h
    exact hrefl st
  | cons p ps ih =>
    have hp := hby p (List.mem_cons_self _ _)
    have hps : ∀ q ∈ ps, ∀ name ∈ producerNames nm q, ∀ st o,
        byName name st = some o → R st o.st :=
      fun q hq => hby q (List.mem_cons_of_mem _ hq)
    simp only [resolveArgs] at h
    split at h
    · cases h
    · rename_i st1 heq
      cases h
      exact resolveArg_rel_on nm byName R hrefl htrans p hp _ _ _ heq
    · rename_i depInst err1 st1 heq
      exact htrans _ _ _ (resolveArg_rel_on nm byName R hrefl htrans p hp _ _ _ heq)
        (ih hps _ _ _ h)

/-- The relation lemma for `InstantiateMethod` in which only the producers that are
really asked for, those of the parameters of an admissible method, must be admissible. -/
theorem instantiateMethod_rel_on {V : Type} (nm : Naming) (cfg : Configuration V)
    (R : State V → State V → Prop) (hrefl : ∀ s, R s s)
    (htrans : ∀ a b c, R a b → R b c → R a c)
    (ok : Method V → String → Prop)
    (hnested : ∀ m name, ok m name → ∀ p ∈ m.In, ∀ n ∈ producerNames nm p,
      ∀ m2, MethodByName cfg n = some m2 → ok m2 n)
    (hsave : ∀ m name, ok m name → ∀ argv err st,
      R st (callAndSave m (nm.LowerFirst name) argv err st).st) :
    ∀ fuel (method : Method V) (methodName : String) (st : State V)
      (o : Outcome (Option V) V), ok method methodName →
      InstantiateMethod nm cfg fuel method methodName st = some o → R st o.st := by
  intro fuel
  induction fuel with
  | zero =>
    intro method methodName st o _ h
    simp [InstantiateMethod] at h
  | succ fuel ih =>
    intro method methodName st o hok h
    rw [instantiateMethod_succ] at h
    have hby : ∀ p ∈ method.In, ∀ name ∈ producerNames nm p, ∀ st o,
        InstantiateByName nm cfg fuel name st = some o → R st o.st := by
      intro p hp name hname st o hb
      unfold InstantiateByName at hb
      split at hb
      · rename_i m hm
        exact ih m name st o (hnested method methodName hok p hp name hname m hm) hb
      · cases hb
        exact hrefl st
    split at h
    · cases h; exact hrefl st
    · split at h
      · cases h
      · rename_i st1 heq
        cases h
        exact resolveArgs_rel_on nm _ R hrefl htrans _ hby _ _ _ _ heq
      · rename_i argv err st1 heq
        cases h
        exact htrans _ _ _ (resolveArgs_rel_on nm _ R hrefl htrans _ hby _ _ _ _ heq)
          (hsave method methodName hok argv err st1)

theorem instantiateLoop_rel {V : Type}
    (step : Method V → State V → Option (Outcome (Option V) V))
    (R : State V → State V → Prop) (hrefl : ∀ s, R s s)
    (htrans : ∀ a b c, R a b → R b c → R a c) (methods : List (Method V))
    (hstep : ∀ m ∈ methods, m.Name ≠ "Init" → ∀ st o, step m st = some o → R st o.st)
    (st : State V) (o : Outcome Unit V) (h : instantiateLoop step methods st = some o) :
    R st o.st := by
  induction methods generalizing st with
  | nil =>
    simp only [instantiateLoop] at h
    cases h
    exact hrefl st
  | cons m ms ih =>
    have hms : ∀ m2 ∈ ms, m2.Name ≠ "Init" → ∀ st o, step m2 st = some o → R st o.st :=
      fun m2 h2 => hstep m2 (List.mem_cons_of_mem _ h2)
    by_cases hinit : m.Name = "Init"
    · rw [instantiateLoop_cons_init step m ms st hinit] at h
      exact ih hms st h
    · have hm := hstep m (List.mem_cons_self _ _) hinit st
      rw [instantiateLoop_cons_other step m ms st hinit] at h
      split at h
      · cases h
      · rename_i st1 heq
        cases h
        exact hm _ heq
      · rename_i v e st1 heq
        cases h
        exact hm _ heq
      · rename_i v st1 heq
        exact htrans _ _ _ (hm _ heq) (ih hms st1 h)

/-- `Instantiate` invokes the method `Init` only when a method other than `Init` has a
parameter for which `Init` is one of the producer names. -/
theorem instantiate_avoids_init {V : Type} (nm : Naming) (cfg : Configuration V)
    (fuel : Nat)
    (hno : ∀ m ∈ cfg.methods, m.Name ≠ "Init" → ∀ p ∈ m.In, "Init" ∉ producerNames nm p)
    (st : State V) (o : Outcome Unit V) (h : Instantiate nm cfg fuel st = some o) :
    Appended (fun name => name ≠ "Init") st o.st := by
  refine instantiateLoop_rel _ (Appended (fun name => name ≠ "Init")) (appended_refl _)
    (appended_trans _) cfg.methods ?_ st o h
  intro m hm hinit st1 o1 h1
  refine instantiateMethod_rel_on nm cfg (Appended (fun name => name ≠ "Init"))
    (appended_refl _) (appended_trans _)
    (fun m name => m ∈ cfg.methods ∧ m.Name = name ∧ name ≠ "Init") ?_ ?_ fuel m m.Name
    st1 o1 ⟨hm, rfl, hinit⟩ h1
  · rintro m1 name ⟨hm1, hname, hne⟩ p hp n hn m2 hm2
    refine ⟨(methodByName_some cfg n m2 hm2).1, (methodByName_some cfg n m2 hm2).2, ?_⟩
    intro hn2
    subst hn2
    exact hno m1 hm1 (hname ▸ hne) p hp hn
  · rintro m1 name ⟨_, hname, hne⟩ argv err st2
    exact callAndSave_appended _ m1 _ (hname ▸ hne) argv err st2

theorem instantiateMethod_appended {V : Type} (nm : Naming) (cfg : Configuration V)
    (fuel : Nat) (method : Method V) (methodName : String) (st : State V)
    (o : Outcome (Option V) V)
    (h : InstantiateMethod nm cfg fuel method methodName st = some o) :
    Appended (fun _ => True) st o.st :=
  instantiateMethod_rel nm cfg (Appended (fun _ => True)) (appended_refl _)
    (appended_trans _) (fun _ _ => True) (fun _ _ _ => trivial)
    (fun m _ _ argv err st => callAndSave_appended _ m _ trivial argv err st)
    fuel method methodName st o trivial h

/-- A call of `InstantiateMethod` that returns has found the artifact registered or has
itself invoked the method. -/
theorem instantiateMethod_done {V : Type} (nm : Naming) (cfg : Configuration V)
    (fuel : Nat) (method : Method V) (methodName : String) (st st1 : State V)
    (v : Option V) (err : Option FactoryError)
    (h : InstantiateMethod nm cfg fuel method methodName st =
      some (Outcome.returned v err st1)) :
    (GetInstance st1 (nm.LowerFirst methodName)).isSome ∨
      ∃ new, st1.calls = st.calls ++ new ∧ method.Name ∈ new.map Prod.fst := by
  cases fuel with
  | zero => simp [InstantiateMethod] at h
  | succ fuel =>
    rw [instantiateMethod_succ] at h
    split at h
    · rename_i inst hg
      cases h
      left
      rw [hg]
      rfl
    · split at h
      · cases h
      · cases h
      · rename_i argv err1 st2 heq
        right
        obtain ⟨new1, hnew1, _⟩ := resolveArgs_rel nm _ (Appended (fun _ => True))
          (appended_refl _) (appended_trans _)
          (fun n s o hb => instantiateByName_rel nm cfg (Appended (fun _ => True))
            (appended_refl _) (appended_trans _) (fun _ _ => True) (fun _ _ _ => trivial)
            (fun m _ _ argv err st => callAndSave_appended _ m _ trivial argv err st)
            fuel n s o hb)
          _ _ _ _ _ heq
        simp only [Outcome.st] at hnew1
        unfold callAndSave at h
        split at h
        · cases h
        · rename_i args _
          split at h
          · cases h
            exact ⟨new1 ++ [(method.Name, args)], by simp [hnew1], by simp⟩
          · cases h
            refine ⟨new1 ++ [(method.Name, args)], ?_, by simp⟩
            rw [setInstance_calls]
            simp [hnew1]

theorem instantiateLoop_done {V : Type} (nm : Naming) (cfg : Configuration V)
    (fuel : Nat) (methods : List (Method V)) (st st' : State V)
    (h : instantiateLoop (fun m s => InstantiateMethod nm cfg fuel m m.Name s) methods st =
      some (Outcome.returned () none st')) :
    Grows st st' ∧ (∃ new, st'.calls = st.calls ++ new) ∧
      ∀ m ∈ methods, m.Name ≠ "Init" →
        ((GetInstance st' (nm.LowerFirst m.Name)).isSome ∨
          ∃ new, st'.calls = st.calls ++ new ∧ m.Name ∈ new.map Prod.fst) := by
  induction methods generalizing st with
  | nil =>
    simp only [instantiateLoop] at h
    cases h
    exact ⟨grows_refl _, ⟨[], by simp⟩, by simp⟩
  | cons m ms ih =>
    by_cases hinit : m.Name = "Init"
    · rw [instantiateLoop_cons_init _ m ms st hinit] at h
      obtain ⟨hg, hext, hrest⟩ := ih st h
      refine ⟨hg, hext, ?_⟩
      intro m2 hm2 hne
      rcases List.mem_cons.mp hm2 with rfl | hmem
      · exact absurd hinit hne
      · exact hrest m2 hmem hne
    · rw [instantiateLoop_cons_other _ m ms st hinit] at h
      split at h
      · cases h
      · cases h
      · cases h
      · rename_i v st1 heq
        obtain ⟨hg, ⟨new2, hnew2⟩, hrest⟩ := ih st1 h
        have hg1 : Grows st st1 := instantiateMethod_grows nm cfg fuel m m.Name st _ heq
        obtain ⟨new1, hnew1, _⟩ := instantiateMethod_appended nm cfg fuel m m.Name st _ heq
        simp only [Outcome.st] at hnew1
        refine ⟨grows_trans _ _ _ hg1 hg, ⟨new1 ++ new2, by
          rw [hnew2, hnew1, List.append_assoc]⟩, ?_⟩
        intro m2 hm2 hne
        rcases List.mem_cons.mp hm2 with rfl | hmem
        · rcases instantiateMethod_done nm cfg fuel m2 m2.Name st st1 v none heq with
            hp | ⟨newm, hnewm, hin⟩
          · left
            obtain ⟨x, hx⟩ := Option.isSome_iff_exists.mp hp
            rw [getInstance_grows st1 st' hg _ x hx]
            rfl
          · right
            refine ⟨newm ++ new2, by rw [hnew2, hnewm, List.append_assoc], ?_⟩
            rw [List.map_append]
            exact List.mem_append_left _ hin
        · rcases hrest m2 hmem hne with hp | ⟨newm, hnewm, hin⟩
          · exact Or.inl hp
          · right
            refine ⟨new1 ++ newm, by rw [hnewm, hnew1, List.append_assoc], ?_⟩
            rw [List.map_append]
            exact List.mem_append_right _ hin

/-- C10, amended: `Instantiate` of configfactory.go never passes the method named `Init`
to `InstantiateMethod` itself: it runs as on the unit's methods without `Init`.  When it
returns without error, every other method has been processed: its artifact is registered
or the method has been invoked during this run; and `Init` has been invoked during this
run only when a method other than `Init` has a parameter whose type-derived producer
name, plain or package-prefixed, is `Init`.  `configurableFactory.Instantiate` of
configurable.go appends one component per exposed method, in order, `Init` included. -/
theorem instantiate_skips_init_in_loop {V : Type} (nm : Naming) (cfg : Configuration V)
    (fuel : Nat) (st st' : State V) (pkgPath : String) (runtimeDeps : Option Deps)
    (h : Instantiate nm cfg fuel st = some (Outcome.returned () none st')) :
    Instantiate nm cfg fuel st =
        instantiateLoop (fun m s => InstantiateMethod nm cfg fuel m m.Name s)
          (cfg.methods.filter (fun m => decide (m.Name ≠ "Init"))) st ∧
      (∀ m ∈ cfg.methods, m.Name ≠ "Init" →
        ((GetInstance st' (nm.LowerFirst m.Name)).isSome ∨
          ∃ new, st'.calls = st.calls ++ new ∧ m.Name ∈ new.map Prod.fst)) ∧
      ((∀ m ∈ cfg.methods, m.Name ≠ "Init" → ∀ p ∈ m.In, "Init" ∉ producerNames nm p) →
        ∃ new, st'.calls = st.calls ++ new ∧ "Init" ∉ new.map Prod.fst) ∧
      (configurableFactory.Instantiate nm pkgPath runtimeDeps cfg.methods).map
        Component.MetaObject = cfg.methods := by
  refine ⟨instantiateLoop_filter _ cfg.methods st,
    (instantiateLoop_done nm cfg fuel cfg.methods st st' h).2.2, ?_, ?_⟩
  · intro hno
    obtain ⟨new, hnew, hP⟩ := instantiate_avoids_init nm cfg fuel hno st _ h
    refine ⟨new, hnew, ?_⟩
    intro hin
    obtain ⟨c, hc, hname⟩ := List.mem_map.mp hin
    exact hP c hc hname
  · unfold configurableFactory.Instantiate
    rw [List.map_map]
    conv_rhs => rw [← List.map_id cfg.methods]
    apply List.map_congr_left
    intro m _
    cases runtimeDeps <;> rfl

theorem instantiate_skips_init_in_loop_witness :
    Instantiate asciiNaming plainUnit 1 emptyState =
        some (Outcome.returned () none
          ⟨[("baz", some "baz"), ("foo", some "foo")], [("Baz", []), ("Foo", [])]⟩) ∧
      Instantiate asciiNaming plainUnit 1 emptyState =
        instantiateLoop (fun m s => InstantiateMethod asciiNaming plainUnit 1 m m.Name s)
          (plainUnit.methods.filter (fun m => decide (m.Name ≠ "Init"))) emptyState ∧
      (∀ m ∈ plainUnit.methods, m.Name ≠ "Init" →
        ((GetInstance (⟨[("baz", some "baz"), ("foo", some "foo")],
            [("Baz", []), ("Foo", [])]⟩ : State String)
            (asciiNaming.LowerFirst m.Name)).isSome ∨
          ∃ new, ([("Baz", []), ("Foo", [])] : List (String × List String)) =
              emptyState.calls ++ new ∧ m.Name ∈ new.map Prod.fst)) ∧
      ((∀ m ∈ plainUnit.methods, m.Name ≠ "Init" → ∀ p ∈ m.In,
          "Init" ∉ producerNames asciiNaming p) →
        ∃ new, ([("Baz", []), ("Foo", [])] : List (String × List String)) =
            emptyState.calls ++ new ∧ "Init" ∉ new.map Prod.fst) ∧
      (configurableFactory.Instantiate asciiNaming "hiboot/pkg/cfg" (some ⟨none⟩)
        plainUnit.methods).map Component.MetaObject = plainUnit.methods :=
  ⟨by decide,
    instantiate_skips_init_in_loop asciiNaming plainUnit 1 emptyState
      ⟨[("baz", some "baz"), ("foo", some "foo")], [("Baz", []), ("Foo", [])]⟩
      "hiboot/pkg/cfg" (some ⟨none⟩) (by decide)⟩

end Autoconfigure
namespace Cli

/-! ## Claims about `Find` -/

theorem findChild_none (name : String) (l : List Command) :
    findChild name l = none ↔ ∀ cmd ∈ l, cmd.GetName ≠ name := by
  induction l with
  | nil => simp [findChild]
  | cons c cs ih =>
    simp only [findChild, List.mem_cons, forall_eq_or_imp]
    by_cases h : name = c.GetName
    · simp [h]
    · simp only [h, if_false, ih]
      constructor
      · intro hcs
        exact ⟨fun e => h e.symm, hcs⟩
      · intro hcs
        exact hcs.2

theorem findChild_first (name : String) (pre post : List Command) (cmd : Command)
    (hpre : ∀ p ∈ pre, p.GetName ≠ name) (hcmd : cmd.GetName = name) :
    findChild name (pre ++ cmd :: post) = some cmd := by
  induction pre with
  | nil => simp [findChild, hcmd]
  | cons p ps ih =>
    have hp : ¬ name = p.GetName := fun e => hpre p (List.mem_cons_self _ _) e.symm
    simp only [List.cons_append, findChild, hp, if_false]
    exact ih (fun q hq => hpre q (List.mem_cons_of_mem _ hq))

/-- C20: `Find(name)` returns the receiver when `name` is the receiver's own name,
otherwise the first direct child, in insertion order, whose name is `name`; it returns
`ErrCommandNotFound` (and no command) if and only if neither the receiver nor any direct
child has that name, whatever the names of the grandchildren. -/
theorem find_receiver_then_first_child :
    (∀ (c : Command) (name : String), c.GetName = name → c.Find name = (some c, none)) ∧
      (∀ (c : Command) (name : String) (pre post : List Command) (cmd : Command),
        c.GetName ≠ name → c.Children = pre ++ cmd :: post →
        (∀ p ∈ pre, p.GetName ≠ name) → cmd.GetName = name →
        c.Find name = (some cmd, none)) ∧
      (∀ (c : Command) (name : String),
        (c.Find name).2 = some CliError.ErrCommandNotFound ↔
          (c.GetName ≠ name ∧ ∀ cmd ∈ c.Children, cmd.GetName ≠ name)) ∧
      (∀ (c : Command) (name : String),
        (c.Find name).2 = some CliError.ErrCommandNotFound → (c.Find name).1 = none) := by
  refine ⟨?_, ?_, ?_, ?_⟩
  · intro c name h
    simp [Command.Find, h]
  · intro c name pre post cmd hne hch hpre hcmd
    simp only [Command.Find, hne, if_false, hch, findChild_first name pre post cmd hpre hcmd]
  · intro c name
    unfold Command.Find
    by_cases h : c.GetName = name
    · simp [h]
    · simp only [h, if_false, ne_eq, not_false_eq_true, true_and]
      cases hf : findChild name c.Children with
      | none =>
        simp only [true_iff]
        exact (findChild_none name c.Children).mp hf
      | some cmd =>
        simp only [false_iff, reduceCtorEq]
        intro hall
        have := (findChild_none name c.Children).mpr hall
        rw [hf] at this
        cases this
  · intro c name
    unfold Command.Find
    by_cases h : c.GetName = name
    · simp [h]
    · simp only [h, if_false]
      cases findChild name c.Children with
      | none => simp
      | some cmd => simp

end Cli
namespace Autoconfigure
namespace configurableFactory

/-! ## The profile filter of configurable.go -/

theorem filteredOut_iff {V : Type} (nm : Naming) (profiles : Profiles) (item : MetaData V) :
    filteredOut nm profiles item = true ↔
      (profiles.Filter = true ∧ item.MetaObject.ContextAware = false ∧
        parseName nm item ∉ profiles.Include) := by
  unfold filteredOut
  simp [and_assoc]

theorem build_cons_filtered {V : Type} (nm : Naming) (co : Collaborators V)
    (profiles : Profiles) (item : MetaData V) (rest : List (MetaData V)) (f : Factory V)
    (h : filteredOut nm profiles item = true) :
    build nm co (some profiles) (item :: rest) f = build nm co (some profiles) rest f := by
  simp [build, h]

theorem build_single_built {V : Type} (nm : Naming) (co : Collaborators V)
    (profiles : Profiles) (item : MetaData V) (f : Factory V)
    (h : filteredOut nm profiles item = false) :
    (build nm co (some profiles) [item] f).factory.built = f.built ++ [parseName nm item] := by
  simp only [build, h, Bool.false_eq_true, if_false]
  cases (co.Build (parseName nm item)
      (if item.isFunc = true then co.InjectIntoFunc item.MetaObject else item.MetaObject)).1 <;>
    simp [BuildOutcome.factory]

/-- C11: in `build` (configurable.go, system configuration present) a unit is excluded
from the build, leaving the factory as it is, if and only if profile filtering is
enabled, the unit is not context-aware, and its derived name is not in the include list;
otherwise it is built.  In particular with filtering disabled every unit is built, and
with include list `["foo"]` the unit `bar`, not context-aware, is excluded while the
context-aware unit `baz` is built. -/
theorem build_excludes_iff {V : Type} (nm : Naming) (co : Collaborators V)
    (profiles : Profiles) (item : MetaData V) (f : Factory V) :
    (build nm co (some profiles) [item] f = BuildOutcome.done f ↔
        (profiles.Filter = true ∧ item.MetaObject.ContextAware = false ∧
          parseName nm item ∉ profiles.Include)) ∧
      ((build nm co (some profiles) [item] f).factory.built =
          f.built ++ [parseName nm item] ↔
        ¬ (profiles.Filter = true ∧ item.MetaObject.ContextAware = false ∧
          parseName nm item ∉ profiles.Include)) ∧
      (profiles.Filter = false →
        (build nm co (some profiles) [item] f).factory.built =
          f.built ++ [parseName nm item]) ∧
      build asciiNaming plainCollaborators (some fooProfiles) [barItem, bazItem]
          emptyFactory =
        BuildOutcome.done
          { emptyFactory with
            built := ["baz"], configurations := [("baz", bazItem.MetaObject)] } := by
  have hne : f.built ≠ f.built ++ [parseName nm item] := by
    intro e
    have := congrArg List.length e
    simp at this
  refine ⟨?_, ?_, ?_, ?_⟩
  · rw [← filteredOut_iff]
    constructor
    · intro h
      by_contra hf
      have hf' : filteredOut nm profiles item = false := by simpa using hf
      have hb := build_single_built nm co profiles item f hf'
      rw [h] at hb
      exact hne hb
    · intro h
      rw [build_cons_filtered nm co profiles item [] f h]
      rfl
  · rw [← filteredOut_iff]
    constructor
    · intro h hf
      rw [build_cons_filtered nm co profiles item [] f hf] at h
      exact hne h
    · intro hf
      exact build_single_built nm co profiles item f (by simpa using hf)
  · intro hfilter
    apply build_single_built
    simp [filteredOut, hfilter]
  · rfl

end configurableFactory
end Autoconfigure
namespace Autoconfigure
namespace ConfigurableFactory

/-! ## The loop of `build` in configfactory.go -/

theorem buildLoop_cons_filtered {V : Type} (env : Env V)
    (instantiate : Configuration V → State V → Option (Outcome Unit V))
    (item : Instance V) (rest : List (Instance V)) (f : Factory V)
    (h : filteredOut env item.name = true) :
    buildLoop env instantiate (item :: rest) f = buildLoop env instantiate rest f := by
  simp [buildLoop, h]

/-- Every outcome of the loop extends the trace of built units by names of the container
and leaves the containers as they are. -/
theorem buildLoop_trace {V : Type} (env : Env V)
    (instantiate : Configuration V → State V → Option (Outcome Unit V))
    (items : List (Instance V)) (f : Factory V) (o : BuildOutcome (Factory V))
    (h : buildLoop env instantiate items f = some o) :
    ∃ a, o.factory.built = f.built ++ a ∧ (∀ n ∈ a, n ∈ items.map Instance.name) ∧
      o.factory.preConfigureContainer = f.preConfigureContainer ∧
      o.factory.configureContainer = f.configureContainer ∧
      o.factory.postConfigureContainer = f.postConfigureContainer := by
  induction items generalizing f with
  | nil =>
    simp only [buildLoop] at h
    cases h
    exact ⟨[], by simp [BuildOutcome.factory], by simp, rfl, rfl, rfl⟩
  | cons item rest ih =>
    have hext : ∀ f' : Factory V, f'.built = f.built ++ [item.name] →
        f'.preConfigureContainer = f.preConfigureContainer →
        f'.configureContainer = f.configureContainer →
        f'.postConfigureContainer = f.postConfigureContainer →
        buildLoop env instantiate rest f' = some o →
        ∃ a, o.factory.built = f.built ++ a ∧
          (∀ n ∈ a, n ∈ (item :: rest).map Instance.name) ∧
          o.factory.preConfigureContainer = f.preConfigureContainer ∧
          o.factory.configureContainer = f.configureContainer ∧
          o.factory.postConfigureContainer = f.postConfigureContainer := by
      intro f' hb h1 h2 h3 hloop
      obtain ⟨a, ha, hmem, g1, g2, g3⟩ := ih f' hloop
      refine ⟨item.name :: a, ?_, ?_, g1.trans h1, g2.trans h2, g3.trans h3⟩
      · rw [ha, hb]
        simp
      · intro n hn
        rcases List.mem_cons.mp hn with rfl | hn
        · simp
        · exact List.mem_cons_of_mem _ (hmem n hn)
    have hstop : ∀ f' : Factory V, f'.built = f.built ++ [item.name] →
        f'.preConfigureContainer = f.preConfigureContainer →
        f'.configureContainer = f.configureContainer →
        f'.postConfigureContainer = f.postConfigureContainer →
        ∃ a, f'.built = f.built ++ a ∧
          (∀ n ∈ a, n ∈ (item :: rest).map Instance.name) ∧
          f'.preConfigureContainer = f.preConfigureContainer ∧
          f'.configureContainer = f.configureContainer ∧
          f'.postConfigureContainer = f.postConfigureContainer := by
      intro f' hb h1 h2 h3
      exact ⟨[item.name], hb, by simp, h1, h2, h3⟩
    by_cases hf : filteredOut env item.name = true
    · rw [buildLoop_cons_filtered env instantiate item rest f hf] at h
      obtain ⟨a, ha, hmem, g1, g2, g3⟩ := ih f h
      exact ⟨a, ha, fun n hn => List.mem_cons_of_mem _ (hmem n hn), g1, g2, g3⟩
    · have hf' : filteredOut env item.name = false := by simpa using hf
      simp only [buildLoop, hf', Bool.false_eq_true, if_false] at h
      split at h
      · exact hext _ (by rfl) (by rfl) (by rfl) (by rfl) h
      · exact hext _ (by rfl) (by rfl) (by rfl) (by rfl) h
      · split at h
        · cases h
        · cases h
          exact hstop _ rfl rfl rfl rfl
        · split at h
          · cases h
            exact hstop _ rfl rfl rfl rfl
          · exact hext _ (by rfl) (by rfl) (by rfl) (by rfl) h

theorem buildLoop_single_built {V : Type} (env : Env V)
    (instantiate : Configuration V → State V → Option (Outcome Unit V))
    (item : Instance V) (f : Factory V) (o : BuildOutcome (Factory V))
    (hf : filteredOut env item.name = false)
    (h : buildLoop env instantiate [item] f = some o) :
    o.factory.built = f.built ++ [item.name] := by
  simp only [buildLoop, hf, Bool.false_eq_true, if_false] at h
  split at h
  · cases h; rfl
  · cases h; rfl
  · split at h
    · cases h
    · cases h; rfl
    · split at h
      · cases h; rfl
      · cases h; rfl

end ConfigurableFactory
end Autoconfigure
namespace Autoconfigure

/-! ## Claims about the profile filter in both versions of `build` -/

/-- C12, as stated, fails in both versions.  In configfactory.go no test is running
(`quietEnv`) and the unit `bar` is not in the include list: it is skipped whatever the
instance is, context-aware or not, because `build` never asks whether it is.  In
configurable.go filtering is on and `bar` is not context-aware: it is skipped whether or
not a test is running, because `build` never asks. -/
theorem exemption_is_not_the_or :
    (∀ (inst : ConfigurableFactory.Instance String)
        (instantiate : Configuration String → State String → Option (Outcome Unit String)),
        inst.name = "bar" →
        ConfigurableFactory.buildLoop ConfigurableFactory.quietEnv instantiate [inst]
            ConfigurableFactory.emptyFactory =
          some (BuildOutcome.done ConfigurableFactory.emptyFactory)) ∧
      configurableFactory.build asciiNaming configurableFactory.plainCollaborators
          (some configurableFactory.fooProfiles) [configurableFactory.barItem]
          configurableFactory.emptyFactory =
        BuildOutcome.done configurableFactory.emptyFactory := by
  constructor
  · intro inst instantiate hname
    rw [ConfigurableFactory.buildLoop_cons_filtered]
    · rfl
    · rw [hname]
      decide
  · rfl

/-- C12, amended: each version of `build` knows one of the two exemptions.  In
configfactory.go, with a system configuration, a unit whose name is not in the include
list is built exactly when a test run is in progress.  In configurable.go, with a system
configuration, such a unit is built exactly when it is context-aware or filtering is
disabled. -/
theorem exemption_per_version {V : Type} (nm : Naming) (env : ConfigurableFactory.Env V)
    (instantiate : Configuration V → State V → Option (Outcome Unit V))
    (inst : ConfigurableFactory.Instance V) (f : ConfigurableFactory.Factory V)
    (p : Profiles) (co : configurableFactory.Collaborators V) (profiles : Profiles)
    (item : configurableFactory.MetaData V) (g : configurableFactory.Factory V)
    (hsc : env.systemConfig = some p) (hold : inst.name ∉ p.Include)
    (hnew : configurableFactory.parseName nm item ∉ profiles.Include) :
    (∀ o, ConfigurableFactory.buildLoop env instantiate [inst] f = some o →
        (o.factory.built = f.built ++ [inst.name] ↔ env.isTestRunning = true)) ∧
      ((configurableFactory.build nm co (some profiles) [item] g).factory.built =
          g.built ++ [configurableFactory.parseName nm item] ↔
        (item.MetaObject.ContextAware = true ∨ profiles.Filter = false)) := by
  constructor
  · intro o ho
    have hfo : ConfigurableFactory.filteredOut env inst.name = !env.isTestRunning := by
      simp [ConfigurableFactory.filteredOut, hsc, hold]
    cases ht : env.isTestRunning with
    | true =>
      simp only [iff_true]
      exact ConfigurableFactory.buildLoop_single_built env instantiate inst f o
        (by rw [hfo, ht]; rfl) ho
    | false =>
      simp only [Bool.false_eq_true, iff_false]
      rw [ConfigurableFactory.buildLoop_cons_filtered env instantiate inst [] f
        (by rw [hfo, ht]; rfl)] at ho
      simp only [ConfigurableFactory.buildLoop] at ho
      cases ho
      intro e
      have := congrArg List.length e
      simp [BuildOutcome.factory] at this
  · rw [(configurableFactory.build_excludes_iff nm co profiles item g).2.1]
    simp only [hnew, not_false_eq_true, and_true, not_and, Bool.not_eq_false]
    cases profiles.Filter <;> cases item.MetaObject.ContextAware <;> simp

theorem exemption_per_version_witness :
    ConfigurableFactory.testEnv.systemConfig =
        some { Include := ["foo"], Active := "default", Filter := true } ∧
      (ConfigurableFactory.sampleInstance "bar" plainUnit).name ∉
        ({ Include := ["foo"], Active := "default", Filter := true } : Profiles).Include ∧
      configurableFactory.parseName asciiNaming configurableFactory.bazItem ∉
        configurableFactory.fooProfiles.Include ∧
      (∀ o, ConfigurableFactory.buildLoop ConfigurableFactory.testEnv
            (fun cf st => Instantiate asciiNaming cf 1 st)
            [ConfigurableFactory.sampleInstance "bar" plainUnit]
            ConfigurableFactory.emptyFactory = some o →
        (o.factory.built =
            ConfigurableFactory.emptyFactory.built ++
              [(ConfigurableFactory.sampleInstance "bar" plainUnit).name] ↔
          ConfigurableFactory.testEnv.isTestRunning = true)) ∧
      ((configurableFactory.build asciiNaming configurableFactory.plainCollaborators
            (some configurableFactory.fooProfiles) [configurableFactory.bazItem]
            configurableFactory.emptyFactory).factory.built =
          configurableFactory.emptyFactory.built ++
            [configurableFactory.parseName asciiNaming configurableFactory.bazItem] ↔
        (configurableFactory.bazItem.MetaObject.ContextAware = true ∨
          configurableFactory.fooProfiles.Filter = false)) :=
  ⟨rfl, by decide, by decide,
    exemption_per_version asciiNaming ConfigurableFactory.testEnv
      (fun cf st => Instantiate asciiNaming cf 1 st)
      (ConfigurableFactory.sampleInstance "bar" plainUnit) ConfigurableFactory.emptyFactory
      { Include := ["foo"], Active := "default", Filter := true }
      configurableFactory.plainCollaborators configurableFactory.fooProfiles
      configurableFactory.bazItem configurableFactory.emptyFactory rfl (by decide)
      (by decide)⟩

end Autoconfigure
namespace Autoconfigure

/-! ## Claims about the categorization in `Build` -/

theorem categorize_old {V : Type} (f : ConfigurableFactory.Factory V)
    (item : ConfigurableFactory.ConfigItem V) :
    ConfigurableFactory.categorize f item =
      { f with
        preConfigureContainer := f.preConfigureContainer ++
          (if ConfigurableFactory.phaseOf item = some ConfigurableFactory.Phase.pre
            then [item.inst] else [])
        configureContainer := f.configureContainer ++
          (if ConfigurableFactory.phaseOf item = some ConfigurableFactory.Phase.main
            then [item.inst] else [])
        postConfigureContainer := f.postConfigureContainer ++
          (if ConfigurableFactory.phaseOf item = some ConfigurableFactory.Phase.post
            then [item.inst] else [])
        errors := f.errors ++
          (if ConfigurableFactory.reported item = true
            then [ConfigError.ErrInvalidObjectType] else []) } := by
  unfold ConfigurableFactory.categorize ConfigurableFactory.phaseOf
    ConfigurableFactory.reported
  by_cases hname : item.name = "" ∨ item.name = "configuration"
  · simp [hname]
  · cases ha : item.ifcField.Anonymous with
    | false => simp [hname]
    | true =>
      by_cases h1 : item.ifcField.Name = "Configuration"
      · simp [hname, h1]
      · by_cases h2 : item.ifcField.Name = "PreConfiguration"
        · simp [hname, h2]
        · by_cases h3 : item.ifcField.Name = "PostConfiguration"
          · simp [hname, h3]
          · simp [hname, h1, h2, h3]

theorem foldl_categorize_old {V : Type} (configs : List (ConfigurableFactory.ConfigItem V))
    (f : ConfigurableFactory.Factory V) :
    configs.foldl ConfigurableFactory.categorize f =
      { f with
        preConfigureContainer := f.preConfigureContainer ++
          (configs.filter (fun item => decide
            (ConfigurableFactory.phaseOf item = some ConfigurableFactory.Phase.pre))).map
            ConfigurableFactory.ConfigItem.inst
        configureContainer := f.configureContainer ++
          (configs.filter (fun item => decide
            (ConfigurableFactory.phaseOf item = some ConfigurableFactory.Phase.main))).map
            ConfigurableFactory.ConfigItem.inst
        postConfigureContainer := f.postConfigureContainer ++
          (configs.filter (fun item => decide
            (ConfigurableFactory.phaseOf item = some ConfigurableFactory.Phase.post))).map
            ConfigurableFactory.ConfigItem.inst
        errors := f.errors ++
          (configs.filter ConfigurableFactory.reported).map
            (fun _ => ConfigError.ErrInvalidObjectType) } := by
  induction configs generalizing f with
  | nil => simp
  | cons item rest ih =>
    rw [List.foldl_cons, ih, categorize_old]
    simp only [List.filter_cons, List.append_assoc]
    congr 1 <;> split <;> simp_all

theorem foldl_categorize_new {V : Type} (configs : List (configurableFactory.MetaData V))
    (f : configurableFactory.Factory V) :
    configs.foldl configurableFactory.categorize f =
      { f with
        configureContainer := f.configureContainer ++
          configs.filter (fun item => item.MetaObject.AutoConfiguration)
        errors := f.errors ++
          (configs.filter (fun item => !item.MetaObject.AutoConfiguration)).map
            (fun _ => ConfigError.ErrInvalidObjectType) } := by
  induction configs generalizing f with
  | nil => simp
  | cons item rest ih =>
    rw [List.foldl_cons, ih]
    unfold configurableFactory.categorize
    cases h : item.MetaObject.AutoConfiguration <;> simp [List.filter_cons, h]

/-- C13, as stated, fails: in `Build` of configfactory.go a unit whose embedded interface
is none of the three markers falls into the `default` case of the switch: it is placed in
no bucket, and no error is reported. -/
theorem unrecognized_marker_not_reported :
    ConfigurableFactory.otherItem.ifcField.Anonymous = true ∧
      ConfigurableFactory.otherItem.ifcField.Name ∉
        ["Configuration", "PreConfiguration", "PostConfiguration"] ∧
      ([ConfigurableFactory.otherItem].foldl ConfigurableFactory.categorize
        ConfigurableFactory.emptyFactory).errors = [] ∧
      ([ConfigurableFactory.otherItem].foldl ConfigurableFactory.categorize
        ConfigurableFactory.emptyFactory).preConfigureContainer.length = 0 ∧
      ([ConfigurableFactory.otherItem].foldl ConfigurableFactory.categorize
        ConfigurableFactory.emptyFactory).configureContainer.length = 0 ∧
      ([ConfigurableFactory.otherItem].foldl ConfigurableFactory.categorize
        ConfigurableFactory.emptyFactory).postConfigureContainer.length = 0 := by
  refine ⟨rfl, by decide, rfl, rfl, rfl, rfl⟩

/-- C13, amended.  `Build` of configfactory.go appends to each of its three containers the
units of `configs` that belong to that bucket (`PreConfiguration` to pre, `Configuration`
to main, `PostConfiguration` to post), in input order, so that a unit is in at most one
bucket; it reports `ErrInvalidObjectType` once for each unit that has a parsed name of
its own and no embedded interface field; a unit with another embedded interface, or with
the parsed name empty or `configuration`, is skipped without report; nothing stops the
categorization.  `Build` of configurable.go has one container: it appends the units that
embed `at.AutoConfiguration`, in input order, and reports `ErrInvalidObjectType` once for
each other unit. -/
theorem categorization_by_marker {V : Type}
    (configs : List (ConfigurableFactory.ConfigItem V)) (f : ConfigurableFactory.Factory V)
    (metas : List (configurableFactory.MetaData V)) (g : configurableFactory.Factory V) :
    configs.foldl ConfigurableFactory.categorize f =
        { f with
          preConfigureContainer := f.preConfigureContainer ++
            (configs.filter (fun item => decide
              (ConfigurableFactory.phaseOf item = some ConfigurableFactory.Phase.pre))).map
              ConfigurableFactory.ConfigItem.inst
          configureContainer := f.configureContainer ++
            (configs.filter (fun item => decide
              (ConfigurableFactory.phaseOf item = some ConfigurableFactory.Phase.main))).map
              ConfigurableFactory.ConfigItem.inst
          postConfigureContainer := f.postConfigureContainer ++
            (configs.filter (fun item => decide
              (ConfigurableFactory.phaseOf item = some ConfigurableFactory.Phase.post))).map
              ConfigurableFactory.ConfigItem.inst
          errors := f.errors ++
            (configs.filter ConfigurableFactory.reported).map
              (fun _ => ConfigError.ErrInvalidObjectType) } ∧
      metas.foldl configurableFactory.categorize g =
        { g with
          configureContainer := g.configureContainer ++
            metas.filter (fun item => item.MetaObject.AutoConfiguration)
          errors := g.errors ++
            (metas.filter (fun item => !item.MetaObject.AutoConfiguration)).map
              (fun _ => ConfigError.ErrInvalidObjectType) } :=
  ⟨foldl_categorize_old configs f, foldl_categorize_new metas g⟩

/-! ## The order of the phases -/

theorem build_trace_new {V : Type} (nm : Naming) (co : configurableFactory.Collaborators V)
    (systemConfig : Option Profiles) (items : List (configurableFactory.MetaData V))
    (g : configurableFactory.Factory V) :
    ∃ a, (configurableFactory.build nm co systemConfig items g).factory.built =
        g.built ++ a ∧
      ∀ n ∈ a, n ∈ items.map (configurableFactory.parseName nm) := by
  induction items generalizing g with
  | nil => exact ⟨[], by simp [configurableFactory.build, BuildOutcome.factory], by simp⟩
  | cons item rest ih =>
    cases systemConfig with
    | none => exact ⟨[], by simp [configurableFactory.build, BuildOutcome.factory], by simp⟩
    | some profiles =>
      simp only [configurableFactory.build]
      split
      · obtain ⟨a, ha, hmem⟩ := ih g
        exact ⟨a, ha, fun n hn => List.mem_cons_of_mem _ (hmem n hn)⟩
      · split
        · exact ⟨[configurableFactory.parseName nm item], by simp [BuildOutcome.factory],
            by simp⟩
        · rename_i cf _
          obtain ⟨a, ha, hmem⟩ := ih
            { g with
              built := g.built ++ [configurableFactory.parseName nm item]
              components := g.components ++
                configurableFactory.Instantiate nm cf.PkgPath cf.RuntimeDeps cf.methods
              configurations :=
                cmapSet g.configurations
                  (configurableFactory.parseName nm item) cf }
          refine ⟨configurableFactory.parseName nm item :: a, ?_, ?_⟩
          · rw [ha]
            simp
          · intro n hn
            rcases List.mem_cons.mp hn with rfl | hn
            · simp
            · exact List.mem_cons_of_mem _ (hmem n hn)

theorem build_trace_old {V : Type} (nm : Naming) (env : ConfigurableFactory.Env V)
    (fuel : Nat) (items : List (ConfigurableFactory.Instance V))
    (f : ConfigurableFactory.Factory V) (o : BuildOutcome (ConfigurableFactory.Factory V))
    (h : ConfigurableFactory.build nm env fuel items f = some o) :
    ∃ a, o.factory.built = f.built ++ a ∧
      (∀ n ∈ a, n ∈ items.map ConfigurableFactory.Instance.name) ∧
      o.factory.preConfigureContainer = f.preConfigureContainer ∧
      o.factory.configureContainer = f.configureContainer ∧
      o.factory.postConfigureContainer = f.postConfigureContainer := by
  obtain ⟨a, ha, hmem, h1, h2, h3⟩ :=
    ConfigurableFactory.buildLoop_trace env _ (env.sort items) f o h
  refine ⟨a, ha, ?_, h1, h2, h3⟩
  intro n hn
  have := hmem n hn
  exact ((env.sort_perm items).map _).mem_iff.mp this

/-- C14: whatever `Build` of configfactory.go ends in, the units it has built are first
units of the pre bucket, then units of the main bucket, then units of the post bucket:
every unit of the pre bucket is built before any unit of the main bucket, and every unit
of the main bucket before any unit of the post bucket.  (`Build` of configurable.go has a
single bucket.) -/
theorem build_phases_in_order {V : Type} (nm : Naming) (env : ConfigurableFactory.Env V)
    (fuel : Nat) (configs : List (ConfigurableFactory.ConfigItem V))
    (f : ConfigurableFactory.Factory V) (o : BuildOutcome (ConfigurableFactory.Factory V))
    (h : ConfigurableFactory.Build nm env fuel configs f = some o) :
    ∃ a b c, o.factory.built = f.built ++ a ++ b ++ c ∧
      (∀ n ∈ a, n ∈ (configs.foldl ConfigurableFactory.categorize f).preConfigureContainer.map
        ConfigurableFactory.Instance.name) ∧
      (∀ n ∈ b, n ∈ (configs.foldl ConfigurableFactory.categorize f).configureContainer.map
        ConfigurableFactory.Instance.name) ∧
      (∀ n ∈ c, n ∈ (configs.foldl ConfigurableFactory.categorize f).postConfigureContainer.map
        ConfigurableFactory.Instance.name) := by
  have hf0 : (configs.foldl ConfigurableFactory.categorize f).built = f.built := by
    rw [foldl_categorize_old]
  unfold ConfigurableFactory.Build at h
  cases h1 : ConfigurableFactory.build nm env fuel
      (configs.foldl ConfigurableFactory.categorize f).preConfigureContainer
      (configs.foldl ConfigurableFactory.categorize f) with
  | none =>
    rw [h1] at h
    simp [ConfigurableFactory.andThen] at h
  | some o1 =>
    rw [h1] at h
    obtain ⟨a, ha, hma, _, ha2, ha3⟩ := build_trace_old nm env fuel _ _ o1 h1
    cases o1 with
    | fatal f1 =>
      simp only [ConfigurableFactory.andThen] at h
      cases h
      exact ⟨a, [], [], by rw [ha, hf0]; simp, hma, by simp, by simp⟩
    | panicked f1 =>
      simp only [ConfigurableFactory.andThen] at h
      cases h
      exact ⟨a, [], [], by rw [ha, hf0]; simp, hma, by simp, by simp⟩
    | done f1 =>
      simp only [ConfigurableFactory.andThen] at h
      simp only [BuildOutcome.factory] at ha ha2 ha3
      cases h2 : ConfigurableFactory.build nm env fuel f1.configureContainer f1 with
      | none =>
        rw [h2] at h
        simp at h
      | some o2 =>
        rw [h2] at h
        obtain ⟨b, hb, hmb, _, _, hb3⟩ := build_trace_old nm env fuel _ _ o2 h2
        rw [ha2] at hmb
        cases o2 with
        | fatal f2 =>
          simp only at h
          cases h
          exact ⟨a, b, [], by rw [hb, ha, hf0]; simp, hma, hmb, by simp⟩
        | panicked f2 =>
          simp only at h
          cases h
          exact ⟨a, b, [], by rw [hb, ha, hf0]; simp, hma, hmb, by simp⟩
        | done f2 =>
          simp only at h
          simp only [BuildOutcome.factory] at hb hb3
          obtain ⟨c, hc, hmc, _, _, _⟩ := build_trace_old nm env fuel _ _ o h
          rw [hb3, ha3] at hmc
          exact ⟨a, b, c, by rw [hc, hb, ha, hf0], hma, hmb, hmc⟩

theorem build_phases_in_order_witness :
    ConfigurableFactory.Build asciiNaming ConfigurableFactory.testEnv 1
        ConfigurableFactory.phasedConfigs ConfigurableFactory.emptyFactory =
      some (BuildOutcome.done
        { ConfigurableFactory.emptyFactory with
          preConfigureContainer := [ConfigurableFactory.bareInstance "p"]
          configureContainer := [ConfigurableFactory.bareInstance "m"]
          postConfigureContainer := [ConfigurableFactory.bareInstance "q"]
          configurations := [("p", ⟨[]⟩), ("m", ⟨[]⟩), ("q", ⟨[]⟩)]
          built := ["p", "m", "q"] }) ∧
      ∃ a b c, ["p", "m", "q"] = ConfigurableFactory.emptyFactory.built ++ a ++ b ++ c ∧
        (∀ n ∈ a, n ∈ (ConfigurableFactory.phasedConfigs.foldl ConfigurableFactory.categorize
          ConfigurableFactory.emptyFactory).preConfigureContainer.map
          ConfigurableFactory.Instance.name) ∧
        (∀ n ∈ b, n ∈ (ConfigurableFactory.phasedConfigs.foldl ConfigurableFactory.categorize
          ConfigurableFactory.emptyFactory).configureContainer.map
          ConfigurableFactory.Instance.name) ∧
        (∀ n ∈ c, n ∈ (ConfigurableFactory.phasedConfigs.foldl ConfigurableFactory.categorize
          ConfigurableFactory.emptyFactory).postConfigureContainer.map
          ConfigurableFactory.Instance.name) :=
  ⟨rfl,
    build_phases_in_order asciiNaming ConfigurableFactory.testEnv 1
      ConfigurableFactory.phasedConfigs ConfigurableFactory.emptyFactory _ rfl⟩

/-! ## Claims about duplicate names and builder errors -/

/-- C15, where the code departs from it: `build` of configurable.go stores every unit
under its derived name without looking whether the name is taken.  The two units
`CacheConfiguration` both resolve to `cache`; after `Build` the store maps `cache` to the
second unit's configuration and no error has been reported.  `build` of configfactory.go
does what the claim says: on the second unit called `cache` it reports that the name is
taken and ends the process, the store still holding the first unit's configuration. -/
theorem duplicate_name_overwrites :
    configurableFactory.parseName asciiNaming configurableFactory.cacheItem = "cache" ∧
      configurableFactory.parseName asciiNaming configurableFactory.cacheItem2 = "cache" ∧
      configurableFactory.Build asciiNaming configurableFactory.plainCollaborators
          (some configurableFactory.openProfiles)
          [configurableFactory.cacheItem, configurableFactory.cacheItem2]
          configurableFactory.emptyFactory =
        BuildOutcome.done
          { configurableFactory.emptyFactory with
            configureContainer := [configurableFactory.cacheItem, configurableFactory.cacheItem2]
            configurations := [("cache", configurableFactory.cacheItem2.MetaObject)]
            errors := []
            built := ["cache", "cache"] } ∧
      ConfigurableFactory.build asciiNaming ConfigurableFactory.testEnv 1
          [ConfigurableFactory.sampleInstance "cache" plainUnit,
            ConfigurableFactory.bareInstance "cache"]
          ConfigurableFactory.emptyFactory =
        some (BuildOutcome.fatal
          { ConfigurableFactory.emptyFactory with
            st := ⟨[("baz", some "baz"), ("foo", some "foo")], [("Baz", []), ("Foo", [])]⟩
            configurations := [("cache", plainUnit)]
            errors := [ConfigError.ErrConfigurationNameIsTaken]
            built := ["cache", "cache"] }) := by
  refine ⟨by decide, by decide, rfl, rfl⟩

/-- C16, as stated, fails in configurable.go: `build` drops the error of the property
builder (`cf, _ := f.builder.Build(name)`), so a unit for which the builder reports an
error is instantiated and stored like any other. -/
theorem builder_error_is_dropped :
    (configurableFactory.failingCollaborators.Build "bar"
        configurableFactory.barItem.MetaObject).2 = some BuildError.PropertySource ∧
      configurableFactory.build asciiNaming configurableFactory.failingCollaborators
          (some configurableFactory.openProfiles) [configurableFactory.barItem]
          configurableFactory.emptyFactory =
        BuildOutcome.done
          { configurableFactory.emptyFactory with
            configurations := [("bar", configurableFactory.barItem.MetaObject)]
            built := ["bar"] } := by
  refine ⟨rfl, rfl⟩

/-- C16, amended.  In `build` of configfactory.go a property-source failure for one unit
does not abort the build: when the property builder returns an error for a unit, the loop
goes on with the later units of the bucket, and the failing unit has been neither
instantiated nor stored: the instance registry and the configurations store are as they
were before it.  `build` of configurable.go drops the builder's error: a unit for which
the builder returns a configuration, with an error or without, is instantiated and
stored under its name, and the loop goes on with the later units. -/
theorem builder_error_per_version {V : Type} (nm : Naming)
    (env : ConfigurableFactory.Env V)
    (instantiate : Configuration V → State V → Option (Outcome Unit V))
    (inst : ConfigurableFactory.Instance V) (rest : List (ConfigurableFactory.Instance V))
    (f : ConfigurableFactory.Factory V) (e : BuildError)
    (co : configurableFactory.Collaborators V) (profiles : Profiles)
    (item : configurableFactory.MetaData V) (more : List (configurableFactory.MetaData V))
    (g : configurableFactory.Factory V) (cf : configurableFactory.ConfigObject V)
    (err : Option BuildError)
    (hpass : ConfigurableFactory.filteredOut env inst.name = false)
    (herr : (env.Build inst.name (ConfigurableFactory.appProfilesActive env) inst).2 = some e)
    (hpass' : configurableFactory.filteredOut nm profiles item = false)
    (hcf : co.Build (configurableFactory.parseName nm item)
      (if item.isFunc then co.InjectIntoFunc item.MetaObject else item.MetaObject) =
        (some cf, err)) :
    (∃ f', ConfigurableFactory.buildLoop env instantiate (inst :: rest) f =
          ConfigurableFactory.buildLoop env instantiate rest f' ∧
        f'.st = f.st ∧ f'.configurations = f.configurations ∧
        f'.built = f.built ++ [inst.name]) ∧
      configurableFactory.build nm co (some profiles) (item :: more) g =
        configurableFactory.build nm co (some profiles) more
          { g with
            built := g.built ++ [configurableFactory.parseName nm item]
            components := g.components ++
              configurableFactory.Instantiate nm cf.PkgPath cf.RuntimeDeps cf.methods
            configurations :=
              cmapSet g.configurations (configurableFactory.parseName nm item) cf } := by
  constructor
  · simp only [ConfigurableFactory.buildLoop, hpass, Bool.false_eq_true, if_false]
    cases hb : env.Build inst.name (ConfigurableFactory.appProfilesActive env) inst with
    | mk cfo eo =>
      rw [hb] at herr
      simp only at herr
      subst herr
      cases cfo with
      | none => exact ⟨_, rfl, rfl, rfl, rfl⟩
      | some c => exact ⟨_, rfl, rfl, rfl, rfl⟩
  · simp only [configurableFactory.build, hpass', Bool.false_eq_true, if_false, hcf]

theorem builder_error_per_version_witness :
    ConfigurableFactory.filteredOut ConfigurableFactory.brokenEnv
        (ConfigurableFactory.sampleInstance "broken" plainUnit).name = false ∧
      (ConfigurableFactory.brokenEnv.Build
        (ConfigurableFactory.sampleInstance "broken" plainUnit).name
        (ConfigurableFactory.appProfilesActive ConfigurableFactory.brokenEnv)
        (ConfigurableFactory.sampleInstance "broken" plainUnit)).2 =
          some BuildError.PropertySource ∧
      configurableFactory.filteredOut asciiNaming configurableFactory.openProfiles
        configurableFactory.barItem = false ∧
      (∃ f', ConfigurableFactory.buildLoop ConfigurableFactory.brokenEnv
            (fun cf st => Instantiate asciiNaming cf 1 st)
            (ConfigurableFactory.sampleInstance "broken" plainUnit ::
              [ConfigurableFactory.bareInstance "next"])
            ConfigurableFactory.emptyFactory =
          ConfigurableFactory.buildLoop ConfigurableFactory.brokenEnv
            (fun cf st => Instantiate asciiNaming cf 1 st)
            [ConfigurableFactory.bareInstance "next"] f' ∧
        f'.st = ConfigurableFactory.emptyFactory.st ∧
        f'.configurations = ConfigurableFactory.emptyFactory.configurations ∧
        f'.built = ConfigurableFactory.emptyFactory.built ++
          [(ConfigurableFactory.sampleInstance "broken" plainUnit).name]) ∧
      configurableFactory.build asciiNaming configurableFactory.failingCollaborators
          (some configurableFactory.openProfiles)
          (configurableFactory.barItem :: [configurableFactory.bazItem])
          configurableFactory.emptyFactory =
        configurableFactory.build asciiNaming configurableFactory.failingCollaborators
          (some configurableFactory.openProfiles) [configurableFactory.bazItem]
          { configurableFactory.emptyFactory with
            built := configurableFactory.emptyFactory.built ++
              [configurableFactory.parseName asciiNaming configurableFactory.barItem]
            components := configurableFactory.emptyFactory.components ++
              configurableFactory.Instantiate asciiNaming
                configurableFactory.barItem.MetaObject.PkgPath
                configurableFactory.barItem.MetaObject.RuntimeDeps
                configurableFactory.barItem.MetaObject.methods
            configurations :=
              cmapSet configurableFactory.emptyFactory.configurations
                (configurableFactory.parseName asciiNaming configurableFactory.barItem)
                configurableFactory.barItem.MetaObject } :=
  ⟨by decide, rfl, by decide,
    builder_error_per_version asciiNaming ConfigurableFactory.brokenEnv
      (fun cf st => Instantiate asciiNaming cf 1 st)
      (ConfigurableFactory.sampleInstance "broken" plainUnit)
      [ConfigurableFactory.bareInstance "next"] ConfigurableFactory.emptyFactory
      BuildError.PropertySource configurableFactory.failingCollaborators
      configurableFactory.openProfiles configurableFactory.barItem
      [configurableFactory.bazItem] configurableFactory.emptyFactory
      configurableFactory.barItem.MetaObject (some BuildError.PropertySource)
      (by decide) rfl (by decide) rfl⟩

/-! ## Claims about `BuildSystemConfig` -/

theorem buildSystemConfig_builder (environ : List (String × String)) (workDir : String)
    (Join : String → String → String)
    (build : ConfigurableFactory.Builder → Option BuildError) :
    (ConfigurableFactory.BuildSystemConfig environ workDir Join build).1 =
      { Path := Join workDir "config"
        Name := "application"
        FileType := "yaml"
        Profile := Getenv environ "APP_PROFILES_ACTIVE" } := by
  unfold ConfigurableFactory.BuildSystemConfig
  simp only
  split <;> rfl

/-- C17, as stated, fails in configfactory.go: with `APP_PROFILES_ACTIVE` unset, or set to
the empty string, `BuildSystemConfig` hands the empty string to the property builder as
its profile, not `default`. -/
theorem system_profile_not_defaulted :
    ConfigurableFactory.BuildSystemConfig [] "/work" (fun a b => a ++ "/" ++ b)
        (fun _ => none) =
      ({ Path := "/work/config", Name := "application", FileType := "yaml", Profile := "" },
        none, true) ∧
      ConfigurableFactory.BuildSystemConfig [("APP_PROFILES_ACTIVE", "")] "/work"
        (fun a b => a ++ "/" ++ b) (fun _ => none) =
      ({ Path := "/work/config", Name := "application", FileType := "yaml", Profile := "" },
        none, true) := by
  constructor <;> decide

/-- C17, amended.  `BuildSystemConfig` of configurable.go takes the active profile from
the environment variable `APP_PROFILES_ACTIVE` and, when the variable is unset or empty,
uses the profile `default`: its first call on the property builder sets the property
`app.profiles.active` to the chosen profile, then come the custom properties, and its
last call is `Build` with the profiles `default` and the chosen profile.
`BuildSystemConfig` of configfactory.go hands the value of the variable to the property
builder as it is, the empty string when the variable is unset. -/
theorem system_profile_from_environment (environ : List (String × String))
    (customProperties : List (String × String))
    (build : List BuilderCall → List String → Option BuildError) (workDir : String)
    (Join : String → String → String)
    (buildOld : ConfigurableFactory.Builder → Option BuildError) :
    (∃ profile,
        (configurableFactory.BuildSystemConfig environ customProperties build).1 =
          [BuilderCall.SetProperty "app.profiles.active" profile] ++
            customProperties.map (fun p => BuilderCall.SetProperty p.1 p.2) ++
            [BuilderCall.Build ["default", profile]] ∧
        ((mapGet? environ "APP_PROFILES_ACTIVE" = none ∨
            mapGet? environ "APP_PROFILES_ACTIVE" = some "") → profile = "default") ∧
        (∀ x, mapGet? environ "APP_PROFILES_ACTIVE" = some x → x ≠ "" → profile = x)) ∧
      (ConfigurableFactory.BuildSystemConfig environ workDir Join buildOld).1.Profile =
        (mapGet? environ "APP_PROFILES_ACTIVE").getD "" := by
  constructor
  · refine ⟨if Getenv environ "APP_PROFILES_ACTIVE" = "" then "default"
      else Getenv environ "APP_PROFILES_ACTIVE", rfl, ?_, ?_⟩
    · rintro (h | h) <;> simp [Getenv, h]
    · intro x hx hne
      simp [Getenv, hx, hne]
  · rw [buildSystemConfig_builder]
    rfl

end Autoconfigure
namespace SystemBuilder

/-! ## Claims about the placeholders -/

theorem splitDefault_key (key : List Char) (h : ':' ∉ key) :
    splitDefault key = (key, none) := by
  induction key with
  | nil => rfl
  | cons c cs ih =>
    have hc : c ≠ ':' := fun e => h (by simp [e])
    have hcs : ':' ∉ cs := fun e => h (by simp [e])
    simp [splitDefault, hc, ih hcs]

theorem splitDefault_key_default (key d : List Char) (h : ':' ∉ key) :
    splitDefault (key ++ ':' :: d) = (key, some d) := by
  induction key with
  | nil => simp [splitDefault]
  | cons c cs ih =>
    have hc : c ≠ ':' := fun e => h (by simp [e])
    have hcs : ':' ∉ cs := fun e => h (by simp [e])
    simp [splitDefault, hc, ih hcs]

theorem scan_body (unit system environ : List (String × String)) (body : List Char)
    (h : '}' ∉ body) (acc post : List Char) :
    scan unit system environ (Scan.body acc) (body ++ '}' :: post) =
      resolve unit system environ (acc ++ body) ++
        scan unit system environ Scan.text post := by
  induction body generalizing acc with
  | nil => simp [scan]
  | cons c cs ih =>
    have hc : c ≠ '}' := fun e => h (by simp [e])
    have hcs : '}' ∉ cs := fun e => h (by simp [e])
    simp [scan, hc, ih hcs]

theorem scan_plain (unit system environ : List (String × String)) (pre : List Char)
    (h : ¬ ['$', '{'] <:+: pre) (r : List Char) :
    scan unit system environ Scan.text (pre ++ '$' :: '{' :: r) =
        pre ++ scan unit system environ (Scan.body []) r ∧
      (pre.head? ≠ some '{' →
        scan unit system environ Scan.dollar (pre ++ '$' :: '{' :: r) =
          '$' :: pre ++ scan unit system environ (Scan.body []) r) := by
  induction pre with
  | nil => simp [scan]
  | cons c p ih =>
    have hp : ¬ ['$', '{'] <:+: p := fun e => h (List.infix_cons e)
    have hhead : c = '$' → p.head? ≠ some '{' := by
      intro hc hq
      apply h
      cases p with
      | nil => simp at hq
      | cons q qs =>
        simp only [List.head?_cons, Option.some.injEq] at hq
        subst hc hq
        exact (List.prefix_append ['$', '{'] qs).isInfix
    obtain ⟨ih1, ih2⟩ := ih hp
    constructor
    · by_cases hc : c = '$'
      · simp [scan, hc, ih2 (hhead hc)]
      · simp [scan, hc, ih1]
    · intro hne
      have hb : c ≠ '{' := by simpa using hne
      by_cases hc : c = '$'
      · simp [scan, hc, ih2 (hhead hc)]
      · simp [scan, hc, hb, ih1]

theorem replace_first (unit system environ : List (String × String))
    (pre body post : String) (hpre : ¬ "$\x7b".data <:+: pre.data) (hbody : '}' ∉ body.data) :
    Replace unit system environ (pre ++ "$\x7b" ++ body ++ "\x7d" ++ post) =
      pre ++ String.mk (resolve unit system environ body.data) ++
        Replace unit system environ post := by
  apply String.ext
  have hopen : "$\x7b".data = ['$', '{'] := rfl
  have hclose : "\x7d".data = ['}'] := rfl
  rw [hopen] at hpre
  simp only [Replace, String.data_append, hopen, hclose, List.append_assoc,
    List.cons_append, List.nil_append, List.singleton_append]
  rw [(scan_plain unit system environ pre.data hpre _).1,
    scan_body unit system environ body.data hbody [] post.data]
  simp

/-- C18: in a string whose text before the first placeholder `pre` holds no `${`, the
placeholder is replaced and the text around it is kept, the rest of the string being
expanded in the same way: `${key}` with `key` present in the property space becomes the
value of `key`; `${key:default}` with `key` absent becomes `default`; `${NAME}` with
`NAME` absent from the property space becomes the value of the environment variable
`NAME`, the empty string if it is unset.  The key holds neither a closing brace nor a
colon, and the default no closing brace. -/
theorem replace_placeholder (unit system environ : List (String × String))
    (pre key post : String) (hpre : ¬ "$\x7b".data <:+: pre.data)
    (hkey : '}' ∉ key.data) (hcolon : ':' ∉ key.data) :
    (∀ v, GetProperty unit system key = some v →
        Replace unit system environ (pre ++ "$\x7b" ++ key ++ "\x7d" ++ post) =
          pre ++ v ++ Replace unit system environ post) ∧
      (GetProperty unit system key = none → ∀ d : String, '}' ∉ d.data →
        Replace unit system environ (pre ++ "$\x7b" ++ (key ++ ":" ++ d) ++ "\x7d" ++ post) =
          pre ++ d ++ Replace unit system environ post) ∧
      (GetProperty unit system key = none →
        Replace unit system environ (pre ++ "$\x7b" ++ key ++ "\x7d" ++ post) =
          pre ++ Autoconfigure.Getenv environ key ++ Replace unit system environ post) := by
  refine ⟨fun v hv => ?_, fun hnone d hd => ?_, fun hnone => ?_⟩
  · rw [replace_first unit system environ pre key post hpre hkey]
    simp [resolve, splitDefault_key key.data hcolon, hv]
  · have hbody : '}' ∉ (key ++ ":" ++ d).data := by
      have hc : ":".data = [':'] := rfl
      simp [String.data_append, hc, hkey, hd]
    rw [replace_first unit system environ pre (key ++ ":" ++ d) post hpre hbody]
    have hc : ":".data = [':'] := rfl
    have hsplit : splitDefault (key ++ ":" ++ d).data = (key.data, some d.data) := by
      simp only [String.data_append, hc, List.append_assoc, List.singleton_append]
      exact splitDefault_key_default key.data d.data hcolon
    simp only [resolve, hsplit, hnone]
  · rw [replace_first unit system environ pre key post hpre hkey]
    simp [resolve, splitDefault_key key.data hcolon, hnone]

theorem replace_placeholder_witness :
    ¬ "$\x7b".data <:+: "this is ".data ∧ '}' ∉ "app.name".data ∧ ':' ∉ "app.name".data ∧
      ((∀ v, GetProperty [("app.name", "foo")] [] "app.name" = some v →
          Replace [("app.name", "foo")] [] [("HOME", "/home/u")]
              ("this is " ++ "$\x7b" ++ "app.name" ++ "\x7d" ++ " property") =
            "this is " ++ v ++
              Replace [("app.name", "foo")] [] [("HOME", "/home/u")] " property") ∧
        (GetProperty [("app.name", "foo")] [] "app.name" = none →
          ∀ d : String, '}' ∉ d.data →
          Replace [("app.name", "foo")] [] [("HOME", "/home/u")]
              ("this is " ++ "$\x7b" ++ ("app.name" ++ ":" ++ d) ++ "\x7d" ++ " property") =
            "this is " ++ d ++
              Replace [("app.name", "foo")] [] [("HOME", "/home/u")] " property") ∧
        (GetProperty [("app.name", "foo")] [] "app.name" = none →
          Replace [("app.name", "foo")] [] [("HOME", "/home/u")]
              ("this is " ++ "$\x7b" ++ "app.name" ++ "\x7d" ++ " property") =
            "this is " ++ Autoconfigure.Getenv [("HOME", "/home/u")] "app.name" ++
              Replace [("app.name", "foo")] [] [("HOME", "/home/u")] " property")) ∧
      Replace [("app.name", "foo")] [] [("HOME", "/home/u")] "this is $\x7bapp.name\x7d property" =
        "this is foo property" ∧
      Replace [("app.name", "foo")] [] [("HOME", "/home/u")]
        "this is $\x7bdefault.value:default\x7d property" = "this is default property" ∧
      Replace [("app.name", "foo")] [] [("HOME", "/home/u")] "this is $\x7bHOME\x7d" =
        "this is /home/u" :=
  ⟨by decide, by decide, by decide,
    replace_placeholder [("app.name", "foo")] [] [("HOME", "/home/u")] "this is " "app.name"
      " property" (by decide) (by decide) (by decide),
    by decide, by decide, by decide⟩

end SystemBuilder
namespace SystemBuilder

/-! ## Claims about the layers of a build -/

theorem mapGet?_merge (base overlay : List (String × String)) (key : String) :
    mapGet? (merge base overlay) key =
      match mapGet? overlay key with
      | some v => some v
      | none => mapGet? base key := by
  induction overlay with
  | nil => rfl
  | cons p rest ih =>
    obtain ⟨a, b⟩ := p
    have hstep : merge base ((a, b) :: rest) = mapSet (merge base rest) a b := rfl
    rw [hstep, Autoconfigure.mapGet?_mapSet, ih]
    by_cases hak : a = key <;> simp [mapGet?, hak]

theorem mapGet?_Build (files : String → Option (List (String × String)))
    (adhoc : List (String × String)) (unit profile : String) (key : String) :
    mapGet? (Build files adhoc unit profile) key =
      match mapGet? adhoc key with
      | some v => some v
      | none =>
        match mapGet? (if profile = "" ∨ profile = "default" then []
            else load files (overlayFile unit profile)) key with
        | some v => some v
        | none => mapGet? (load files unit) key := by
  simp only [Build, mapGet?_merge]

/-- C19: for a key that no ad-hoc property sets, building a unit with a profile other
than the default one yields the value of the overlay file when both the base file and
the overlay file set the key, and the value of the base file when only the base file
sets it (the overlay file is missing or does not set the key); building with the default
profile, or with no profile, yields what the base file sets. -/
theorem overlay_precedence (files : String → Option (List (String × String)))
    (adhoc : List (String × String)) (unit profile key : String)
    (base : List (String × String)) (b : String)
    (hprofile : profile ≠ "" ∧ profile ≠ "default")
    (hadhoc : mapGet? adhoc key = none)
    (hfile : files unit = some base) (hbase : mapGet? base key = some b) :
    (∀ overlay o, files (overlayFile unit profile) = some overlay →
        mapGet? overlay key = some o →
        mapGet? (Build files adhoc unit profile) key = some o) ∧
      (∀ overlay, files (overlayFile unit profile) = some overlay →
        mapGet? overlay key = none →
        mapGet? (Build files adhoc unit profile) key = some b) ∧
      (files (overlayFile unit profile) = none →
        mapGet? (Build files adhoc unit profile) key = some b) ∧
      mapGet? (Build files adhoc unit "default") key = some b ∧
      mapGet? (Build files adhoc unit "") key = some b := by
  obtain ⟨h1, h2⟩ := hprofile
  refine ⟨fun overlay o hov ho => ?_, fun overlay hov ho => ?_, fun hov => ?_, ?_, ?_⟩
  · simp [mapGet?_Build, hadhoc, h1, h2, load, hov, ho]
  · simp [mapGet?_Build, hadhoc, h1, h2, load, hov, ho, hfile, hbase]
  · simp [mapGet?_Build, hadhoc, h1, h2, load, hov, hfile, hbase, mapGet?]
  · simp [mapGet?_Build, hadhoc, load, hfile, hbase, mapGet?]
  · simp [mapGet?_Build, hadhoc, load, hfile, hbase, mapGet?]

theorem overlay_precedence_witness :
    (("local" : String) ≠ "" ∧ ("local" : String) ≠ "default") ∧
      mapGet? [("app.project", "local-test")] "server.port" = none ∧
      sampleFiles "application" = some [("app.name", "hiboot"), ("server.port", "8080")] ∧
      mapGet? [("app.name", "hiboot"), ("server.port", "8080")] "server.port" = some "8080" ∧
      ((∀ overlay o, sampleFiles (overlayFile "application" "local") = some overlay →
          mapGet? overlay "server.port" = some o →
          mapGet? (Build sampleFiles [("app.project", "local-test")] "application" "local")
            "server.port" = some o) ∧
        (∀ overlay, sampleFiles (overlayFile "application" "local") = some overlay →
          mapGet? overlay "server.port" = none →
          mapGet? (Build sampleFiles [("app.project", "local-test")] "application" "local")
            "server.port" = some "8080") ∧
        (sampleFiles (overlayFile "application" "local") = none →
          mapGet? (Build sampleFiles [("app.project", "local-test")] "application" "local")
            "server.port" = some "8080") ∧
        mapGet? (Build sampleFiles [("app.project", "local-test")] "application" "default")
          "server.port" = some "8080" ∧
        mapGet? (Build sampleFiles [("app.project", "local-test")] "application" "")
          "server.port" = some "8080") ∧
      mapGet? (Build sampleFiles [("app.project", "local-test")] "application" "local")
        "server.port" = some "8081" ∧
      mapGet? (Build sampleFiles [("app.project", "local-test")] "application" "local")
        "app.name" = some "hiboot" :=
  ⟨by decide, by decide, by decide, by decide,
    overlay_precedence sampleFiles [("app.project", "local-test")] "application" "local"
      "server.port" [("app.name", "hiboot"), ("server.port", "8080")] "8080"
      (by decide) (by decide) (by decide) (by decide),
    by decide, by decide⟩

end SystemBuilder
namespace Cli

/-! ## Claims about `dispatch`, `Register` and the root command -/

/-- C21: for every argument list, `dispatch` returns false without calling any handler
when the list is empty or its first element is the empty string; otherwise it looks for
the method named `On` followed by the title-cased first argument: when there is none it
returns false, no handler called, and when there is one it calls it, once, with the
remaining arguments and returns its boolean result.  The handler that `Register`
installs makes the calls of `dispatch` and then calls `Run(args)` exactly when
`dispatch` returned false. -/
theorem dispatch_on_prefixed_method (nm : Autoconfigure.Naming) (c : Handlers)
    (args : List String) :
    (args = [] ∨ args.head? = some "" → dispatch nm c args = ⟨[], some false⟩) ∧
      (∀ a rest, args = a :: rest → a ≠ "" →
        (c.method ("On" ++ nm.Title a) = none → dispatch nm c args = ⟨[], some false⟩) ∧
        (∀ m b, c.method ("On" ++ nm.Title a) = some m → m rest = CallValue.bool b →
          dispatch nm c args = ⟨[Event.call ("On" ++ nm.Title a) rest], some b⟩)) ∧
      (∀ events, dispatch nm c args = ⟨events, some false⟩ →
        RunE nm c args = ⟨events ++ [Event.run args], some (c.Run args)⟩) ∧
      (∀ events, dispatch nm c args = ⟨events, some true⟩ →
        RunE nm c args = ⟨events, some none⟩) ∧
      dispatch Autoconfigure.asciiNaming sampleHandlers ["foo", "x", "y"] =
        ⟨[Event.call "OnFoo" ["x", "y"]], some true⟩ ∧
      RunE Autoconfigure.asciiNaming sampleHandlers ["bar", "x"] =
        ⟨[Event.call "OnBar" ["x"], Event.run ["bar", "x"]], some none⟩ ∧
      RunE Autoconfigure.asciiNaming sampleHandlers ["baz"] =
        ⟨[Event.run ["baz"]], some none⟩ := by
  refine ⟨?_, ?_, ?_, ?_, by decide, by decide, by decide⟩
  · rintro (h | h)
    · subst h
      rfl
    · cases args with
      | nil => rfl
      | cons a rest =>
        simp only [List.head?_cons, Option.some.injEq] at h
        subst h
        simp [dispatch]
  · intro a rest hargs ha
    subst hargs
    constructor
    · intro hnone
      simp [dispatch, ha, CallMethodByName, actionPrefix, hnone]
    · intro m b hm hb
      simp [dispatch, ha, CallMethodByName, actionPrefix, hm, hb]
  · intro events h
    simp [RunE, h]
  · intro events h
    simp [RunE, h]

/-- C28, where the code departs from it: with exactly one command `initialize` registers
that command as `rootCommand` and returns; with two or more commands the variable `root`
is still the nil interface when line 90 calls `Add` on it, so `initialize` panics and
nothing is registered. -/
theorem root_of_many_commands_panics (ParseObjectName : Command → String)
    (err : Option String) (c c2 : Command) (rest : List Command) :
    initializeApplication ParseObjectName err [c] =
        Initialized.returned err (some (some c)) ∧
      initializeApplication ParseObjectName err (c :: c2 :: rest) = Initialized.panicked ∧
      initializeApplication ParseObjectName none
        [Command.mk "root" [], Command.mk "run" []] = Initialized.panicked := by
  refine ⟨rfl, ?_, rfl⟩
  simp [initializeApplication, callAdd]

end Cli
namespace Web

/-! ## Claims about the routes of a controller -/

theorem removeFirst_prefix (first rest : List Char) :
    removeFirst first (first ++ rest) = rest := by
  cases h : first ++ rest with
  | nil =>
    have : rest = [] := (List.append_eq_nil.mp h).2
    simp [removeFirst, this]
  | cons c cs =>
    have hp : first.isPrefixOf (c :: cs) = true := by
      rw [← h]
      simp [List.isPrefixOf_iff_prefix]
    simp only [removeFirst, hp, if_true]
    rw [← h]
    simp

theorem foldl_append_start (l : List String) (acc : String) :
    l.foldl (fun r s => r ++ s) acc = acc ++ l.foldl (fun r s => r ++ s) "" := by
  induction l generalizing acc with
  | nil => simp
  | cons x xs ih =>
    rw [List.foldl_cons, List.foldl_cons, ih, ih ("" ++ x)]
    simp [String.append_assoc]

/-- C22: a method of a controller whose name splits into the camel-case words
`first :: more`, `first` being the beginning of the name, is registered as a route if and
only if the upper-cased `first` is one of the nine HTTP methods; that word is then the
HTTP method of the route, and the path is a slash followed by the lower-first rest of the
name, except that when the name has more than two words and the second is `By`, the path
is one segment, a slash and the lower-cased word in braces, for each word after `By`, in
order. -/
theorem route_of_method_name (sx : Strings) (methodName first rest : String)
    (more : List String) (hsplit : sx.Split methodName = first :: more)
    (hname : methodName = first ++ rest) :
    ((∃ route, methodRoute sx methodName = some (some route)) ↔
        sx.ToUpper first ∈ httpMethods) ∧
      (sx.ToUpper first ∈ httpMethods →
        (¬ (more.length > 1 ∧ more.head? = some "By") →
          methodRoute sx methodName =
            some (some ⟨sx.ToUpper first, "/" ++ sx.LowerFirst rest⟩)) ∧
        (more.length > 1 ∧ more.head? = some "By" →
          methodRoute sx methodName =
            some (some ⟨sx.ToUpper first,
              String.join ((more.drop 1).map
                (fun word => "/" ++ "\x7b" ++ sx.ToLower word ++ "\x7d"))⟩))) := by
  have hrest : String.mk (removeFirst first.data methodName.data) = rest := by
    rw [hname, String.data_append, removeFirst_prefix]
  have hjoin : ∀ (l : List String) (acc : String),
      l.foldl (fun apiContextMapping pathParam =>
        apiContextMapping ++ pathSep ++ "\x7b" ++ sx.ToLower pathParam ++ "\x7d") acc =
      acc ++ String.join (l.map (fun word => "/" ++ "\x7b" ++ sx.ToLower word ++ "\x7d")) := by
    intro l
    induction l with
    | nil => intro acc; simp [String.join]
    | cons w ws ih =>
      intro acc
      rw [List.foldl_cons, ih]
      simp only [String.join, List.map_cons, List.foldl_cons, pathSep, String.append_assoc]
      rw [foldl_append_start _ ("" ++ _)]
      simp [String.append_assoc]
  by_cases hm : sx.ToUpper first ∈ httpMethods
  · by_cases hby : more.length > 1 ∧ more.head? = some "By"
    · have hby2 : (first :: more).length > 2 ∧ more.head? = some "By" :=
        ⟨by rw [List.length_cons]; omega, hby.2⟩
      have heq : methodRoute sx methodName =
          some (some ⟨sx.ToUpper first, pathParams sx (more.drop 1)⟩) := by
        simp only [methodRoute, hsplit, hm, hby2, if_true, and_self]
      have hpath : pathParams sx (more.drop 1) =
          String.join ((more.drop 1).map
            (fun word => "/" ++ "\x7b" ++ sx.ToLower word ++ "\x7d")) := by
        rw [pathParams, hjoin]
        simp
      rw [hpath] at heq
      exact ⟨⟨fun _ => hm, fun _ => ⟨_, heq⟩⟩, fun _ => ⟨fun hn => absurd hby hn, fun _ => heq⟩⟩
    · have hby2 : ¬ ((first :: more).length > 2 ∧ more.head? = some "By") := by
        rintro ⟨h1, h2⟩
        rw [List.length_cons] at h1
        exact hby ⟨by omega, h2⟩
      have heq : methodRoute sx methodName =
          some (some ⟨sx.ToUpper first, "/" ++ sx.LowerFirst rest⟩) := by
        simp only [methodRoute, hsplit, hm, hby2, if_true, if_false, hrest, pathSep]
      exact ⟨⟨fun _ => hm, fun _ => ⟨_, heq⟩⟩, fun _ => ⟨fun _ => heq, fun hy => absurd hy hby⟩⟩
  · have heq : methodRoute sx methodName = some none := by
      simp only [methodRoute, hsplit, hm, if_false]
    refine ⟨⟨?_, fun h => absurd h hm⟩, fun h => absurd h hm⟩
    rintro ⟨route, hr⟩
    rw [heq] at hr
    cases hr

theorem route_of_method_name_witness :
    asciiStrings.Split "PostLogin" = "Post" :: ["Login"] ∧
      "PostLogin" = "Post" ++ "Login" ∧
      (((∃ route, methodRoute asciiStrings "PostLogin" = some (some route)) ↔
          asciiStrings.ToUpper "Post" ∈ httpMethods) ∧
        (asciiStrings.ToUpper "Post" ∈ httpMethods →
          (¬ (["Login"].length > 1 ∧ ["Login"].head? = some "By") →
            methodRoute asciiStrings "PostLogin" =
              some (some ⟨asciiStrings.ToUpper "Post",
                "/" ++ asciiStrings.LowerFirst "Login"⟩)) ∧
          (["Login"].length > 1 ∧ ["Login"].head? = some "By" →
            methodRoute asciiStrings "PostLogin" =
              some (some ⟨asciiStrings.ToUpper "Post",
                String.join ((["Login"].drop 1).map
                  (fun word => "/" ++ "\x7b" ++ asciiStrings.ToLower word ++ "\x7d"))⟩)))) ∧
      methodRoute asciiStrings "PostLogin" = some (some ⟨"POST", "/login"⟩) ∧
      methodRoute asciiStrings "Get" = some (some ⟨"GET", "/"⟩) ∧
      methodRoute asciiStrings "GetByUserId" =
        some (some ⟨"GET", "/\x7buser\x7d/\x7bid\x7d"⟩) ∧
      methodRoute asciiStrings "Before" = some none :=
  ⟨by decide, by decide,
    route_of_method_name asciiStrings "PostLogin" "Post" "Login" ["Login"] (by decide)
      (by decide),
    by decide, by decide, by decide, by decide⟩

end Web
namespace Autoconfigure

/-! ## Claims about `Deps` -/

theorem deps_get_of_map (m : List (String × List String)) (name : String) :
    Deps.Get ⟨some m⟩ name = (mapGet? m name).getD [] := rfl

theorem deps_set_str (c : Deps) (name : String) (value : List String) :
    Deps.Set c (DepKey.str name) value =
      ⟨some (mapSet (c.deps.getD []) name value)⟩ := by
  obtain ⟨d⟩ := c
  cases d <;> rfl

theorem deps_get_getD (c : Deps) (name : String) :
    c.Get name = (mapGet? (c.deps.getD []) name).getD [] := by
  obtain ⟨d⟩ := c
  cases d <;> rfl

theorem mapGet?_of_not_key {β : Type} (m : List (String × β)) (k : String)
    (h : k ∉ mapKeys m) : mapGet? m k = none := by
  induction m with
  | nil => rfl
  | cons p ps ih =>
    obtain ⟨a, b⟩ := p
    have ha : a ≠ k := fun e => h (by simp [mapKeys, e])
    have hps : k ∉ mapKeys ps := fun e => h (by
      simp only [mapKeys, List.map_cons, List.mem_cons]
      exact Or.inr e)
    simp [mapGet?, ha, ih hps]

/-- C23: `Deps` behaves as a map from names to lists.  For every `Deps` value, the zero
value included, every string `name` and every list `v`: after `Set(name, v)`, `Get(name)`
returns `v` and `Get` of every other name returns what it returned before; `Get` on the
zero value, and `Get` of a name that is no key of the map, returns the empty list. -/
theorem deps_set_then_get (c : Deps) (name : String) (v : List String) :
    (c.Set (DepKey.str name) v).Get name = v ∧
      (∀ other, other ≠ name → (c.Set (DepKey.str name) v).Get other = c.Get other) ∧
      Deps.Get ⟨none⟩ name = [] ∧
      (∀ m, c.deps = some m → name ∉ mapKeys m → c.Get name = []) ∧
      (Deps.Set ⟨none⟩ (DepKey.str "Foo") ["bar", "baz"]).Get "Foo" = ["bar", "baz"] := by
  refine ⟨?_, ?_, rfl, ?_, by decide⟩
  · rw [deps_set_str, deps_get_of_map, mapGet?_mapSet]
    simp
  · intro other hne
    rw [deps_set_str, deps_get_of_map, mapGet?_mapSet, deps_get_getD]
    simp [Ne.symm hne]
  · intro m hm hkey
    rw [deps_get_getD, hm]
    simp [mapGet?_of_not_key m name hkey]

end Autoconfigure
namespace Autoconfigure

/-! ## Claims about `build` without a system configuration -/

/-- C27, where the code departs from it: in `build` of configurable.go the condition of
line 218 reads `f.systemConfig.App.Profiles.Filter` before it tests `f.systemConfig` for
nil, so with no system configuration the first unit of a non-empty list makes `build`
panic and no unit is built; `BuildSystemConfig` leaves the system configuration unset
when the property builder returns an error.  `build` of configfactory.go tests for nil
first: with no system configuration no unit is filtered out. -/
theorem build_without_system_config_panics {V : Type} (nm : Naming)
    (co : configurableFactory.Collaborators V) (item : configurableFactory.MetaData V)
    (rest : List (configurableFactory.MetaData V)) (f : configurableFactory.Factory V)
    (env : ConfigurableFactory.Env V) (name : String)
    (environ customProperties : List (String × String)) (e : BuildError) :
    configurableFactory.build nm co none (item :: rest) f = BuildOutcome.panicked f ∧
      (configurableFactory.BuildSystemConfig environ customProperties
        (fun _ _ => some e)).2 = (some e, false) ∧
      (env.systemConfig = none → ConfigurableFactory.filteredOut env name = false) ∧
      configurableFactory.build asciiNaming configurableFactory.plainCollaborators none
          [configurableFactory.barItem] configurableFactory.emptyFactory =
        BuildOutcome.panicked configurableFactory.emptyFactory := by
  refine ⟨rfl, rfl, fun h => ?_, rfl⟩
  simp [ConfigurableFactory.filteredOut, h]

end Autoconfigure
namespace Depends

/-! ## The keys of the maps, for every graph -/

theorem mapKeys_mapSet {β : Type} (m : List (String × β)) (k : String) (v : β) :
    mapKeys (mapSet m k v) = if k ∈ mapKeys m then mapKeys m else mapKeys m ++ [k] := by
  induction m with
  | nil => simp [mapSet, mapKeys]
  | cons p ps ih =>
    obtain ⟨a, b⟩ := p
    by_cases hak : a = k
    · subst hak
      simp [mapSet, mapKeys]
    · have hka : ¬ k = a := fun e => hak e.symm
      have ih2 : List.map Prod.fst (mapSet ps k v) =
          if k ∈ List.map Prod.fst ps then List.map Prod.fst ps
          else List.map Prod.fst ps ++ [k] := ih
      simp only [mapSet, hak, if_false, mapKeys, List.map_cons, List.mem_cons, hka,
        false_or, ih2]
      split <;> simp

theorem populate_keys_aux (graph : Graph) (acc : List (String × Node) ×
    List (String × List String)) (hacc : (mapKeys acc.2).Nodup) :
    (mapKeys (graph.foldl populateStep acc).2).Nodup ∧
      ∀ k, k ∈ mapKeys (graph.foldl populateStep acc).2 ↔
        k ∈ mapKeys acc.2 ∨ k ∈ graph.map Node.name := by
  induction graph generalizing acc with
  | nil => simp [hacc]
  | cons n ns ih =>
    have hstep : (mapKeys (populateStep acc n).2).Nodup := by
      simp only [populateStep, mapKeys_mapSet]
      split
      · exact hacc
      · rename_i hn
        exact List.Nodup.append hacc (List.nodup_singleton _) (by
          intro x hx hx2
          rw [List.mem_singleton] at hx2
          subst hx2
          exact hn hx)
    obtain ⟨h1, h2⟩ := ih (populateStep acc n) hstep
    refine ⟨h1, fun k => ?_⟩
    rw [List.foldl_cons, h2]
    simp only [populateStep, mapKeys_mapSet, List.map_cons, List.mem_cons]
    split
    · rename_i hn
      constructor
      · rintro (h | h)
        · exact Or.inl h
        · exact Or.inr (Or.inr h)
      · rintro (h | h | h)
        · exact Or.inl h
        · exact Or.inl (h ▸ hn)
        · exact Or.inr h
    · simp only [List.mem_append, List.mem_singleton]
      tauto

theorem populate_keys (graph : Graph) :
    (mapKeys (populate graph).2).Nodup ∧
      ∀ k, k ∈ mapKeys (populate graph).2 ↔ k ∈ graph.map Node.name := by
  obtain ⟨h1, h2⟩ := populate_keys_aux graph ([], []) (by simp [mapKeys])
  refine ⟨h1, fun k => ?_⟩
  rw [populate, h2]
  simp [mapKeys]

/-! ## Claims about the termination of `resolveGraph` -/

/-- C26: `resolveGraph` returns on every graph and for every iteration order of the maps:
as many iterations of the main loop as `nodeDependencies` has keys always suffice, and the
keys are the distinct node names.  Every iteration that neither returns the error nor
ends the loop removes at least one key.  On the empty graph the result is the empty
sequence and no error. -/
theorem resolveGraph_terminates (it : IterOrder) (graph : Graph) :
    (∃ r, resolveGraph it graph = some r) ∧
      (populate graph).2.length = (graph.map Node.name).dedup.length ∧
      (∀ nd : List (String × List String), readySet nd ≠ [] →
        (removeReady it nd).length < nd.length) ∧
      resolveGraph it [] = some ([], none) := by
  refine ⟨?_, ?_, fun nd h => length_removeReady_lt it nd h, rfl⟩
  · obtain ⟨r, hr, _⟩ := resolveLoop_induct it (populate graph).1 (fun _ _ => True)
      (fun _ => True) (fun _ _ _ _ _ => trivial) (fun _ _ => trivial)
      (fun _ _ _ _ _ => trivial) (populate graph).2.length (populate graph).2 [] le_rfl
      trivial
    exact ⟨r, hr⟩
  · obtain ⟨h1, h2⟩ := populate_keys graph
    have hperm : (mapKeys (populate graph).2).Perm (graph.map Node.name).dedup :=
      (List.perm_ext_iff_of_nodup h1 (List.nodup_dedup _)).mpr (fun k => by
        rw [h2, List.mem_dedup])
    have := hperm.length_eq
    simpa [mapKeys] using this

end Depends
namespace Depends

/-! ## Claims about the payload of the error -/

theorem no_stuck_closed_acyclic (graph : Graph) (h : ¬ ∃ b, stuck graph b) :
    depsClosed graph ∧ acyclic graph := by
  constructor
  · intro n hn d hdn
    by_contra hno
    apply h
    refine ⟨n.name, n.name, Relation.ReflTransGen.refl, Or.inr ⟨d, ⟨n, hn, rfl, hdn⟩, ?_⟩⟩
    intro m hm hname
    exact hno ⟨m, hm, hname⟩
  · intro a ha
    exact h ⟨a, a, Relation.ReflTransGen.refl, Or.inl ha⟩

theorem stuck_of_error (it : IterOrder) (graph : Graph) (hd : namesDistinct graph)
    (payload : List (Option Node))
    (h : resolveGraph it graph = some (payload, some DepError.ErrCircularDependency)) :
    ∃ b, stuck graph b := by
  by_contra hno
  obtain ⟨hc, ha⟩ := no_stuck_closed_acyclic graph hno
  obtain ⟨rs, h1, _⟩ := resolveGraph_acyclic it graph hd hc ha
  rw [h1] at h
  simp at h

/-- C24, as stated, fails: in `dupTailGraph` the first node `c` depends on `a`, which
depends on itself, so `c` reaches a node on a cycle; the second node `c` replaces it in
the maps, is resolved, and the payload returned with `ErrCircularDependency` holds the
node `a` only. -/
theorem resolveGraph_payload_misses_replaced_node :
    resolveGraph IterOrder.canonical dupTailGraph =
        some ([some (NewNode 2 "a" ["a"])], some DepError.ErrCircularDependency) ∧
      NewNode 0 "c" ["a"] ∈ dupTailGraph ∧
      stuck dupTailGraph "c" ∧
      (∀ n ∈ [NewNode 2 "a" ["a"]], n.name ≠ "c") := by
  refine ⟨by decide, by decide, ?_, by decide⟩
  exact ⟨"a", Relation.ReflTransGen.single ⟨NewNode 0 "c" ["a"], by decide, rfl, by decide⟩,
    Or.inl (Relation.TransGen.single ⟨NewNode 2 "a" ["a"], by decide, rfl, by decide⟩)⟩

/-- C24, amended: for every graph with pairwise distinct node names, whenever
`resolveGraph` returns `ErrCircularDependency`, the payload is exactly the set of
unresolved nodes: a node of the graph is in the payload if and only if it reaches,
through zero or more dependency edges, a node on a cycle or a node with a dependency name
that names no node of the graph; every payload node has a dependency that names no node
or is the name of a payload node. -/
theorem resolveGraph_error_payload (it : IterOrder) (graph : Graph)
    (hd : namesDistinct graph) (payload : List (Option Node))
    (h : resolveGraph it graph = some (payload, some DepError.ErrCircularDependency)) :
    ∃ ps : List Node, payload = ps.map some ∧
      (∀ n, n ∈ ps ↔ n ∈ graph ∧ stuck graph n.name) ∧
      (∀ n ∈ ps, ∃ d ∈ n.deps, dangling graph d ∨ ∃ m ∈ ps, m.name = d) := by
  obtain ⟨ps, h1, h2⟩ := resolveGraph_stuck it graph hd (stuck_of_error it graph hd payload h)
  rw [h1] at h
  simp only [Option.some.injEq, Prod.mk.injEq, and_true] at h
  refine ⟨ps, h.symm, h2, ?_⟩
  intro n hn
  obtain ⟨hng, hst⟩ := (h2 n).mp hn
  obtain ⟨n', hn', hname, d, hdn, hcase⟩ := stuck_blocked graph n.name hst
  have hnn : n' = n := name_inj graph hd n' n hn' hng hname
  subst hnn
  refine ⟨d, hdn, ?_⟩
  rcases hcase with hdang | hstd
  · exact Or.inl hdang
  · obtain ⟨m, hm, hmname, _⟩ := stuck_blocked graph d hstd
    exact Or.inr ⟨m, (h2 m).mpr ⟨hm, hmname ▸ hstd⟩, hmname⟩

theorem resolveGraph_error_payload_witness :
    namesDistinct cycleTailGraph ∧
      resolveGraph IterOrder.canonical cycleTailGraph =
        some ([some (NewNode 0 "a" ["b"]), some (NewNode 1 "b" ["a"]),
          some (NewNode 2 "c" ["a"])], some DepError.ErrCircularDependency) ∧
      ∃ ps : List Node,
        [some (NewNode 0 "a" ["b"]), some (NewNode 1 "b" ["a"]),
          some (NewNode 2 "c" ["a"])] = ps.map some ∧
        (∀ n, n ∈ ps ↔ n ∈ cycleTailGraph ∧ stuck cycleTailGraph n.name) ∧
        (∀ n ∈ ps, ∃ d ∈ n.deps, dangling cycleTailGraph d ∨ ∃ m ∈ ps, m.name = d) :=
  ⟨by decide, by decide,
    resolveGraph_error_payload IterOrder.canonical cycleTailGraph (by decide) _ (by decide)⟩

end Depends
namespace Depends

/-! ## Claims about the levels of the result -/

theorem hasChain_succ (graph : Graph) (k : Nat) (a : String)
    (h : hasChain graph (k + 1) a) : hasChain graph k a := by
  induction k generalizing a with
  | zero => trivial
  | succ k ih =>
    obtain ⟨n, hn, hname, b, hb, hchain⟩ := h
    exact ⟨n, hn, hname, b, hb, ih b hchain⟩

theorem hasChain_mono (graph : Graph) (d e : Nat) (a : String) (hde : d ≤ e)
    (h : hasChain graph e a) : hasChain graph d a := by
  induction e with
  | zero =>
    have : d = 0 := Nat.le_zero.mp hde
    subst this
    exact h
  | succ e ih =>
    by_cases heq : d = e + 1
    · subst heq
      exact h
    · exact ih (by omega) (hasChain_succ graph e a h)

/-- The nodes resolved in one iteration have no chain longer than the number of
iterations before it. -/
theorem ready_no_chain (graph : Graph) (hd : namesDistinct graph)
    (nd : List (String × List String)) (rs : List Node) (hinv : LoopInv graph nd rs)
    (i : Nat) (hres : ∀ r ∈ rs, ¬ hasChain graph i r.name) (k : String)
    (hk : k ∈ readySet nd) : ¬ hasChain graph (i + 1) k := by
  rintro ⟨n', hn', hname', b, hb, hchain⟩
  obtain ⟨n, hn, hname, hds⟩ := hinv.deps k [] ((mem_readySet nd k).mp hk)
  have hnn : n' = n := name_inj graph hd n' n hn' hn (hname'.trans hname.symm)
  subst hnn
  have hbr : b ∈ rs.map Node.name := by
    by_contra hnot
    have := (hds b).mpr ⟨hb, hnot⟩
    simp at this
  obtain ⟨r, hr, hrname⟩ := List.mem_map.mp hbr
  exact hres r hr (hrname ▸ hchain)

/-- The names that stay in the map after an iteration have a chain that is one edge
longer. -/
theorem remaining_chain (it : IterOrder) (graph : Graph) (hc : depsClosed graph)
    (nd : List (String × List String)) (rs : List Node) (hinv : LoopInv graph nd rs)
    (i : Nat) (hkeys : ∀ k ∈ mapKeys nd, hasChain graph i k) (k : String)
    (hk : k ∈ mapKeys (removeReady it nd)) : hasChain graph (i + 1) k := by
  obtain ⟨ds, hds⟩ := (mem_mapKeys _ k).mp hk
  obtain ⟨ds0, hmem, hnr, _⟩ := (mem_removeReady it nd k ds).mp hds
  obtain ⟨n, hn, hname, hdeps⟩ := hinv.deps k ds0 hmem
  have hne : ds0 ≠ [] := by
    intro he
    subst he
    exact hnr ((mem_readySet nd k).mpr hmem)
  obtain ⟨d, hd0⟩ := List.exists_mem_of_ne_nil ds0 hne
  obtain ⟨hdn, hdr⟩ := (hdeps d).mp hd0
  obtain ⟨m, hm, hmname⟩ := hc n hn d hdn
  have hcov := (hinv.cover d).mp (List.mem_map.mpr ⟨m, hm, hmname⟩)
  rcases hcov with hin | hin
  · exact absurd hin hdr
  · exact ⟨n, hn, hname, d, hdn, hkeys d hin⟩

theorem resolveGraph_sorted (it : IterOrder) (graph : Graph) (hd : namesDistinct graph)
    (hc : depsClosed graph) (ha : acyclic graph) :
    ∃ rs : List Node, resolveGraph it graph = some (rs.map some, none) ∧
      rs.Perm graph ∧
      rs.Pairwise (fun x y => ∀ d, hasChain graph d x.name → hasChain graph d y.name) := by
  have hnn : (populate graph).1 = graph.map (fun n => (n.name, n)) := by
    rw [populate_eq graph hd]
  have key := resolveLoop_induct it (populate graph).1
    (fun nd resolved => ∃ (rs : List Node) (i : Nat), resolved = rs.map some ∧
      LoopInv graph nd rs ∧ (∀ r ∈ rs, ¬ hasChain graph i r.name) ∧
      (∀ k ∈ mapKeys nd, hasChain graph i k) ∧
      rs.Pairwise (fun x y => ∀ d, hasChain graph d x.name → hasChain graph d y.name))
    (fun r => ∃ rs : List Node, r = (rs.map some, none) ∧ rs.Perm graph ∧
      rs.Pairwise (fun x y => ∀ d, hasChain graph d x.name → hasChain graph d y.name))
    (by
      rintro nd resolved ⟨rs, i, rfl, hinv, hres, hkeys, hpair⟩ _ _
      rw [hnn]
      obtain ⟨ns, h1, h2, h3⟩ := loopInv_step it graph hd nd rs hinv
      have hready : ∀ n ∈ ns, n.name ∈ readySet nd := by
        intro n hn
        apply (it.perm (readySet nd)).mem_iff.mp
        rw [← h2]
        exact List.mem_map_of_mem _ hn
      have hnew : ∀ n ∈ ns, ¬ hasChain graph (i + 1) n.name := fun n hn =>
        ready_no_chain graph hd nd rs hinv i hres n.name (hready n hn)
      have hnewi : ∀ n ∈ ns, hasChain graph i n.name := fun n hn =>
        hkeys n.name (readySet_subset_keys nd n.name (hready n hn))
      refine ⟨rs ++ ns, i + 1, by rw [h1, List.map_append], h3, ?_,
        fun k hk => remaining_chain it graph hc nd rs hinv i hkeys k hk, ?_⟩
      · intro r hr
        rcases List.mem_append.mp hr with hr | hr
        · exact fun hchain => hres r hr (hasChain_succ graph i r.name hchain)
        · exact hnew r hr
      · refine List.pairwise_append.mpr ⟨hpair, ?_, ?_⟩
        · refine List.pairwise_of_forall_mem_list ?_
          intro a haM b hbM d hchain
          have hdi : d ≤ i := by
            by_contra hlt
            exact hnew a haM (hasChain_mono graph (i + 1) d a.name (by omega) hchain)
          exact hasChain_mono graph d i b.name hdi (hnewi b hbM)
        · intro a haM b hbM d hchain
          have hdi : d ≤ i := by
            by_contra hlt
            exact hres a haM (hasChain_mono graph i d a.name (by omega) hchain)
          exact hasChain_mono graph d i b.name hdi (hnewi b hbM))
    (by
      rintro resolved ⟨rs, i, rfl, hinv, _, _, hpair⟩
      exact ⟨rs, rfl, perm_of_loopInv_nil graph hd rs hinv, hpair⟩)
    (by
      rintro nd resolved ⟨rs, i, rfl, hinv, _⟩ hnd hr
      exact absurd hr (readySet_ne_nil graph hc ha nd rs hinv hnd))
    (populate graph).2.length (populate graph).2 [] le_rfl
    ⟨[], 0, rfl, loopInv_init graph hd, by simp, fun _ _ => trivial, List.Pairwise.nil⟩
  obtain ⟨r, hr1, rs, rfl, hr2⟩ := key
  exact ⟨rs, hr1, hr2⟩

theorem closed_acyclic_of_success (it : IterOrder) (graph : Graph)
    (hd : namesDistinct graph) (resolved : List (Option Node))
    (h : resolveGraph it graph = some (resolved, none)) :
    depsClosed graph ∧ acyclic graph := by
  apply no_stuck_closed_acyclic
  intro hex
  obtain ⟨ps, h1, _⟩ := resolveGraph_stuck it graph hd hex
  rw [h1] at h
  simp at h

theorem before_of_sorted (graph : Graph) (rs : List Node) (hperm : rs.Perm graph)
    (hpair : rs.Pairwise
      (fun x y => ∀ d, hasChain graph d x.name → hasChain graph d y.name))
    (pre : List Node) (n : Node) (post : List Node) (heq : rs = pre ++ n :: post)
    (m : Node) (hm : m ∈ graph) (d : Nat) (hn : hasChain graph d n.name)
    (hmd : ¬ hasChain graph d m.name) : m ∈ pre := by
  have hmr : m ∈ rs := hperm.mem_iff.mpr hm
  rw [heq] at hmr hpair
  rcases List.mem_append.mp hmr with h | h
  · exact h
  · exfalso
    rcases List.mem_cons.mp h with h | h
    · subst h
      exact hmd hn
    · have h2 := (List.pairwise_append.mp hpair).2.1
      exact hmd ((List.pairwise_cons.mp h2).1 m h d hn)

/-- C25, as stated, fails: `dupLevelGraph` is resolved without error, its first node `a`
has a dependency chain of length one and the node `b` has none, yet the result does not
hold that node `a` at all: the second node `a` has replaced it in the maps, and in the
result the node called `a` comes before `b`. -/
theorem resolveGraph_replaced_node_breaks_levels :
    resolveGraph IterOrder.canonical dupLevelGraph =
        some ([some (NewNode 1 "a" []), some (NewNode 2 "b" [])], none) ∧
      NewNode 0 "a" ["b"] ∈ dupLevelGraph ∧
      hasChain dupLevelGraph 1 "a" ∧
      ¬ hasChain dupLevelGraph 1 "b" ∧
      NewNode 0 "a" ["b"] ∉ [NewNode 1 "a" [], NewNode 2 "b" []] := by
  refine ⟨by decide, by decide, ?_, ?_, by decide⟩
  · exact ⟨NewNode 0 "a" ["b"], by decide, rfl, "b", by decide, trivial⟩
  · rintro ⟨n, hn, hname, b, hb, _⟩
    simp only [dupLevelGraph, List.mem_cons, List.mem_singleton, List.not_mem_nil,
      or_false] at hn
    rcases hn with rfl | rfl | rfl
    · simp [NewNode] at hname
    · simp [NewNode] at hname
    · simp [NewNode] at hb

/-- C25, amended: for every graph with pairwise distinct node names that `resolveGraph`
resolves without error, the result holds every node of the graph once, and a node with a
dependency chain of length `d` comes after every node that has no chain of that length:
a node whose longest chain has length `d` appears after every node whose longest chain is
shorter; in particular every node without dependencies precedes every node with
dependencies.  Every other iteration order of the maps resolves the graph too, into a
permutation of the same nodes that is ordered by levels in the same way: only the order
within a level depends on the iteration order. -/
theorem resolveGraph_levels (it : IterOrder) (graph : Graph) (hd : namesDistinct graph)
    (rs : List Node) (h : resolveGraph it graph = some (rs.map some, none)) :
    rs.Perm graph ∧
      (∀ pre n post, rs = pre ++ n :: post → ∀ m ∈ graph, ∀ d,
        hasChain graph d n.name → ¬ hasChain graph d m.name → m ∈ pre) ∧
      (∀ pre n post, rs = pre ++ n :: post → n.deps ≠ [] →
        ∀ m ∈ graph, m.deps = [] → m ∈ pre) ∧
      (∀ it2 : IterOrder, ∃ rs2 : List Node,
        resolveGraph it2 graph = some (rs2.map some, none) ∧ rs2.Perm rs ∧
        ∀ pre n post, rs2 = pre ++ n :: post → ∀ m ∈ graph, ∀ d,
          hasChain graph d n.name → ¬ hasChain graph d m.name → m ∈ pre) := by
  obtain ⟨hc, ha⟩ := closed_acyclic_of_success it graph hd _ h
  obtain ⟨rs', h1, hperm', hpair'⟩ := resolveGraph_sorted it graph hd hc ha
  have hrs : rs' = rs := by
    rw [h1] at h
    simp only [Option.some.injEq, Prod.mk.injEq, and_true] at h
    exact List.map_injective_iff.mpr (Option.some_injective Node) h
  subst hrs
  have hlevel := before_of_sorted graph rs' hperm' hpair'
  refine ⟨hperm', hlevel, ?_, ?_⟩
  · intro pre n post heq hne m hm hmd
    have hng : n ∈ graph := hperm'.mem_iff.mp (by rw [heq]; simp)
    obtain ⟨b, hb⟩ := List.exists_mem_of_ne_nil n.deps hne
    refine hlevel pre n post heq m hm 1 ⟨n, hng, rfl, b, hb, trivial⟩ ?_
    rintro ⟨n', hn', hname, b', hb', _⟩
    have : n' = m := name_inj graph hd n' m hn' hm hname
    subst this
    rw [hmd] at hb'
    simp at hb'
  · intro it2
    obtain ⟨rs2, h2, hperm2, hpair2⟩ := resolveGraph_sorted it2 graph hd hc ha
    exact ⟨rs2, h2, hperm2.trans hperm'.symm, before_of_sorted graph rs2 hperm2 hpair2⟩

theorem resolveGraph_levels_witness :
    namesDistinct diamondGraph ∧
      resolveGraph IterOrder.canonical diamondGraph =
        some ([NewNode 3 "base" [], NewNode 1 "left" ["base"], NewNode 2 "right" ["base"],
          NewNode 0 "top" ["left", "right"]].map some, none) ∧
      resolveGraph IterOrder.reversed diamondGraph =
        some ([NewNode 3 "base" [], NewNode 2 "right" ["base"], NewNode 1 "left" ["base"],
          NewNode 0 "top" ["left", "right"]].map some, none) ∧
      ([NewNode 3 "base" [], NewNode 1 "left" ["base"], NewNode 2 "right" ["base"],
          NewNode 0 "top" ["left", "right"]].Perm diamondGraph ∧
        (∀ pre n post, [NewNode 3 "base" [], NewNode 1 "left" ["base"],
            NewNode 2 "right" ["base"], NewNode 0 "top" ["left", "right"]] =
              pre ++ n :: post → ∀ m ∈ diamondGraph, ∀ d,
          hasChain diamondGraph d n.name → ¬ hasChain diamondGraph d m.name → m ∈ pre) ∧
        (∀ pre n post, [NewNode 3 "base" [], NewNode 1 "left" ["base"],
            NewNode 2 "right" ["base"], NewNode 0 "top" ["left", "right"]] =
              pre ++ n :: post → n.deps ≠ [] →
          ∀ m ∈ diamondGraph, m.deps = [] → m ∈ pre) ∧
        (∀ it2 : IterOrder, ∃ rs2 : List Node,
          resolveGraph it2 diamondGraph = some (rs2.map some, none) ∧
          rs2.Perm [NewNode 3 "base" [], NewNode 1 "left" ["base"],
            NewNode 2 "right" ["base"], NewNode 0 "top" ["left", "right"]] ∧
          ∀ pre n post, rs2 = pre ++ n :: post → ∀ m ∈ diamondGraph, ∀ d,
            hasChain diamondGraph d n.name → ¬ hasChain diamondGraph d m.name →
              m ∈ pre)) :=
  ⟨by decide, by decide, by decide,
    resolveGraph_levels IterOrder.canonical diamondGraph (by decide)
      [NewNode 3 "base" [], NewNode 1 "left" ["base"], NewNode 2 "right" ["base"],
        NewNode 0 "top" ["left", "right"]] (by decide)⟩

end Depends
end Hiboot
